import Mathlib

/-!
ChainHash: a separate-chaining hash table with trigger-on-write rehashing.
Shallow embedding of `src/chainhash.h`.

* A chain (the singly linked list hanging off one bucket) is a `List` of nodes,
  listed head to tail; the null pointer is the empty list.
* The bucket array and the per-bucket counter array are lists of length
  `capacity`.
* `int` values are mathematical integers.  The only place where the source
  itself reckons with overflow is `capacity * 2` in `rehashing` (and the
  fallback `capacity + 1`); there the 32-bit two's-complement result is taken
  (`wrapInt32`).  The counters `nsize`, `usedBuckets` and `bucket_sizes[i]`
  would need 2^31 live nodes to overflow and are not wrapped.
* Range of the embedding.  In C++ the overflow of a signed `int` is undefined
  behaviour, so for `capacity >= 2^30` the source fixes no result of
  `capacity * 2` (line 223): the test `newCapacity <= 0` of line 224 comes
  after the overflow.  The wrap-around taken here is what an unoptimised build
  computes; an optimising compiler may produce something else.  Likewise
  `nsize++` is undefined at `INT_MAX`.  The definitions therefore describe the
  source for the executions in which `bucket_count()` stays at most 2^30 and
  `size()` at most `INT_MAX` (`ReachableInRange`); the statements about the
  invariants and about what a rehash leaves behind are made for these.
* `std::hash<TK>` is a parameter `hasher : K → Nat`; its result is a `size_t`,
  so `getHashCode` reduces it modulo 2^64.
* `operator==` on keys is decidable equality, and equal keys have equal
  hashes (the requirements every standard unordered container puts on its
  key type).
* The `double` quotient of `fillFactor` and its comparison with the `float`
  constant `0.8f` are computed exactly, with integers (`doubleDiv`,
  `dyadicGt`).
* Failure of an allocation for lack of memory (`std::bad_alloc`) is not
  modelled.
* A C++ exception leaves the object in the state reached when it was thrown,
  so a mutating member function returns both its result and the state after
  the call (`Call`).
-/

namespace ChainHashModel

/-- Exceptions that the member functions can throw. -/
inductive Exn where
  | out_of_range
  | bad_array_new_length
  deriving DecidableEq, Repr

/-- The node of a chain: `key` and `value`; the `next` pointer is the tail of
the list the node sits in. -/
structure ChainHashNode (K V : Type) where
  key : K
  value : V
  deriving DecidableEq, Repr

/-- The data members of `ChainHash`. -/
structure ChainHash (K V : Type) where
  array : List (List (ChainHashNode K V))
  nsize : Int
  capacity : Int
  bucket_sizes : List Int
  usedBuckets : Int
  deriving DecidableEq, Repr

/-- Result of a call of a mutating member function: what it returned (or the
exception it threw) and the state of the object afterwards. -/
structure Call (K V R : Type) where
  ret : Except Exn R
  post : ChainHash K V

/-- The constant `maxColision`. -/
def maxColision : Int := 3

/-- The constant `maxFillFactor = 0.8f`: the binary32 number nearest to 0.8 is
`13421773 / 2^24`; given as numerator and binary exponent. -/
def maxFillFactor : Nat × Nat := (13421773, 24)

/-- Value of an `int` expression whose mathematical result is `x`, on a
32-bit two's-complement machine. -/
def wrapInt32 (x : Int) : Int := (x + 2147483648) % 4294967296 - 2147483648

/-- Conversion of an `int` to `size_t` (64 bit), as in `hash % capacity`. -/
def toSizeT (x : Int) : Nat := (x % 18446744073709551616).toNat

/-- Search for the least shift `e` (counting up from `e`) with
`2^52 * b ≤ a * 2^e`, i.e. the binary exponent that normalises `a / b`. -/
def normShift (a b : Nat) : Nat → Nat → Nat
  | 0, e => e
  | fuel + 1, e => if 4503599627370496 * b ≤ a * 2 ^ e then e else normShift a b fuel (e + 1)

/-- IEEE-754 binary64 division `double(a) / double(b)` for integers
`0 ≤ a < 2^31`, `0 < b < 2^31` (both exactly representable), rounded to
nearest, ties to even.  The result is `m / 2^e`, returned as `(m, e)`. -/
def doubleDiv (a b : Nat) : Nat × Nat :=
  if a = 0 then (0, 0)
  else
    let e := normShift a b 128 0
    let q := a * 2 ^ e / b
    let r := a * 2 ^ e % b
    if b < 2 * r ∨ (2 * r = b ∧ q % 2 = 1) then (q + 1, e) else (q, e)

/-- Comparison `x > y` of two dyadic numbers `m / 2^e`. -/
def dyadicGt (x y : Nat × Nat) : Bool := decide (y.1 * 2 ^ x.2 < x.1 * 2 ^ y.2)

variable {K V : Type}

/-- The constructor `ChainHash(int initialCapacity = 10)`. -/
def ChainHash.create (initialCapacity : Int) : ChainHash K V :=
  let initialCapacity := if initialCapacity ≤ 0 then 10 else initialCapacity
  { capacity := initialCapacity
    array := List.replicate initialCapacity.toNat []
    bucket_sizes := List.replicate initialCapacity.toNat 0
    nsize := 0
    usedBuckets := 0 }

/-- The private `getHashCode`: the `size_t` produced by `std::hash<TK>`. -/
def getHashCode (hasher : K → Nat) (key : K) : Nat := hasher key % 18446744073709551616

/-- The bucket index `getHashCode(key) % capacity` (capacity converted to
`size_t`). -/
def bucketIndex (hasher : K → Nat) (capacity : Int) (key : K) : Nat :=
  getHashCode hasher key % toSizeT capacity

/-- The `while` loop of `get`: scan a chain for `key`. -/
def getLoop [DecidableEq K] (key : K) : List (ChainHashNode K V) → Except Exn V
  | [] => .error .out_of_range
  | current :: next => if current.key = key then .ok current.value else getLoop key next

/-- The member function `get`. -/
def ChainHash.get [DecidableEq K] (hasher : K → Nat) (t : ChainHash K V) (key : K) :
    Except Exn V :=
  let index := bucketIndex hasher t.capacity key
  getLoop key (t.array.getD index [])

/-- The member function `size`. -/
def ChainHash.size (t : ChainHash K V) : Int := t.nsize

/-- The member function `bucket_count`. -/
def ChainHash.bucket_count (t : ChainHash K V) : Int := t.capacity

/-- The member function `bucket_size`. -/
def ChainHash.bucket_size (t : ChainHash K V) (index : Int) : Except Exn Int :=
  if index < 0 ∨ index ≥ t.capacity then .error .out_of_range
  else .ok (t.bucket_sizes.getD index.toNat 0)

/-- The `while` loop of `contains`. -/
def containsLoop [DecidableEq K] (key : K) : List (ChainHashNode K V) → Bool
  | [] => false
  | cur :: next => if cur.key = key then true else containsLoop key next

/-- The member function `contains`. -/
def ChainHash.contains [DecidableEq K] (hasher : K → Nat) (t : ChainHash K V) (key : K) :
    Bool :=
  let idx := bucketIndex hasher t.capacity key
  containsLoop key (t.array.getD idx [])

/-- The private `fillFactor`: `double(usedBuckets) / double(capacity)`.  Both
members are `int`s, positive capacity and non-negative counter in every state
the class can be in after construction, so the conversions to `double` are
exact. -/
def ChainHash.fillFactor (t : ChainHash K V) : Nat × Nat :=
  doubleDiv t.usedBuckets.toNat t.capacity.toNat

/-- The private `insertNodeNoCheck`, acting on the triple
`(newArray, newBucketSizes, newUsedBuckets)`. -/
def insertNodeNoCheck (hasher : K → Nat) (newCapacity : Int)
    (acc : List (List (ChainHashNode K V)) × List Int × Int) (node : ChainHashNode K V) :
    List (List (ChainHashNode K V)) × List Int × Int :=
  let idx := bucketIndex hasher newCapacity node.key
  let newUsedBuckets := if acc.2.1.getD idx 0 = 0 then acc.2.2 + 1 else acc.2.2
  (acc.1.set idx (node :: acc.1.getD idx []),
   acc.2.1.set idx (acc.2.1.getD idx 0 + 1),
   newUsedBuckets)

/-- The private `rehashing`.  `new Node*[newCapacity]()` with a negative
length throws `std::bad_array_new_length` before anything is modified.
For `capacity < 2^30` the product `capacity * 2` is exact; from 2^30 on it
overflows `int`, which the source leaves undefined, and the two's-complement
result is taken. -/
def ChainHash.rehashing (hasher : K → Nat) (t : ChainHash K V) : Except Exn (ChainHash K V) :=
  let oldCapacity := t.capacity
  let oldArray := t.array
  let newCapacity := wrapInt32 (t.capacity * 2)
  let newCapacity := if newCapacity ≤ 0 then wrapInt32 (t.capacity + 1) else newCapacity
  if newCapacity < 0 then .error .bad_array_new_length
  else
    let fresh : List (List (ChainHashNode K V)) × List Int × Int :=
      (List.replicate newCapacity.toNat [], List.replicate newCapacity.toNat 0, 0)
    let moved := (List.range oldCapacity.toNat).foldl
      (fun acc i => (oldArray.getD i []).foldl (insertNodeNoCheck hasher newCapacity) acc) fresh
    .ok { array := moved.1
          bucket_sizes := moved.2.1
          capacity := newCapacity
          usedBuckets := moved.2.2
          nsize := t.nsize }

/-- The update loop of `set`: if a node of the chain has the key, its value is
replaced in place and the loop returns; `none` when the chain has no such
node. -/
def setLoop [DecidableEq K] (key : K) (value : V) :
    List (ChainHashNode K V) → Option (List (ChainHashNode K V))
  | [] => none
  | cur :: next =>
    if cur.key = key then some ({ cur with value := value } :: next)
    else (setLoop key value next).map (fun rest => cur :: rest)

/-- The state of `set` after the head insertion and the counter updates
(lines 139-145), before the thresholds are looked at. -/
def ChainHash.insertFront (t : ChainHash K V) (idx : Nat) (key : K) (value : V) :
    ChainHash K V :=
  { array := t.array.set idx (⟨key, value⟩ :: t.array.getD idx [])
    usedBuckets := if t.bucket_sizes.getD idx 0 = 0 then t.usedBuckets + 1 else t.usedBuckets
    bucket_sizes := t.bucket_sizes.set idx (t.bucket_sizes.getD idx 0 + 1)
    nsize := t.nsize + 1
    capacity := t.capacity }

/-- The condition `bucket_sizes[idx] > maxColision || fillFactor() > maxFillFactor`. -/
def ChainHash.needsRehash (t : ChainHash K V) (idx : Nat) : Bool :=
  decide (t.bucket_sizes.getD idx 0 > maxColision) || dyadicGt t.fillFactor maxFillFactor

/-- The member function `set`. -/
def ChainHash.set [DecidableEq K] (hasher : K → Nat) (t : ChainHash K V) (key : K) (value : V) :
    Call K V Unit :=
  let idx := bucketIndex hasher t.capacity key
  match setLoop key value (t.array.getD idx []) with
  | some chain => ⟨.ok (), { t with array := t.array.set idx chain }⟩
  | none =>
    let t1 := t.insertFront idx key value
    if t1.needsRehash idx then
      match t1.rehashing hasher with
      | .ok t2 => ⟨.ok (), t2⟩
      | .error e => ⟨.error e, t1⟩
    else ⟨.ok (), t1⟩

/-- The scan of `remove`: the chain with the first node carrying `key`
unlinked, or `none` when no node carries it. -/
def removeLoop [DecidableEq K] (key : K) :
    List (ChainHashNode K V) → Option (List (ChainHashNode K V))
  | [] => none
  | cur :: next =>
    if cur.key = key then some next
    else (removeLoop key next).map (fun rest => cur :: rest)

/-- The member function `remove`. -/
def ChainHash.remove [DecidableEq K] (hasher : K → Nat) (t : ChainHash K V) (key : K) :
    Call K V Bool :=
  let idx := bucketIndex hasher t.capacity key
  match removeLoop key (t.array.getD idx []) with
  | some chain =>
    let sz := t.bucket_sizes.getD idx 0 - 1
    ⟨.ok true,
     { array := t.array.set idx chain
       bucket_sizes := t.bucket_sizes.set idx sz
       nsize := t.nsize - 1
       usedBuckets := if sz = 0 then t.usedBuckets - 1 else t.usedBuckets
       capacity := t.capacity }⟩
  | none => ⟨.ok false, t⟩

/-- The bucket iterator `ChainHashListIterator`: `current` points at a node of
a chain, i.e. at the rest of the chain from that node on; the null pointer is
the empty list. -/
structure ChainHashListIterator (K V : Type) where
  current : List (ChainHashNode K V)

/-- The member function `begin`. -/
def ChainHash.begin (t : ChainHash K V) (index : Int) : Except Exn (ChainHashListIterator K V) :=
  if index < 0 ∨ index ≥ t.capacity then .error .out_of_range
  else .ok ⟨t.array.getD index.toNat []⟩

/-- The iterator's `operator++`: `if (current) current = current->next`. -/
def ChainHashListIterator.next (it : ChainHashListIterator K V) : ChainHashListIterator K V :=
  ⟨it.current.tail⟩

/-- The iterator's `operator!=` against a past-the-end iterator: the current
pointer is not null. -/
def ChainHashListIterator.notAtEnd (it : ChainHashListIterator K V) : Bool :=
  !it.current.isEmpty

/-- The iterator's `operator*` (on a non-null iterator). -/
def ChainHashListIterator.deref (it : ChainHashListIterator K V) : Option (ChainHashNode K V) :=
  it.current.head?

/-- The client loop `for (it = begin(i); it != end(i); ++it) visit(*it)`: the
nodes visited, in order.  `fuel` bounds the number of iterations. -/
def visited : Nat → ChainHashListIterator K V → List (ChainHashNode K V)
  | 0, _ => []
  | fuel + 1, it =>
    if it.notAtEnd then
      match it.deref with
      | some node => node :: visited fuel it.next
      | none => []
    else []

/-- The entries of a table: all nodes, bucket after bucket, each chain head to
tail. -/
def ChainHash.entries (t : ChainHash K V) : List (ChainHashNode K V) := t.array.flatten

/-- The variant of `set` with the rehash step disabled: the code of `set`
without its closing `if (...) rehashing();`. -/
def ChainHash.setNoRehash [DecidableEq K] (hasher : K → Nat) (t : ChainHash K V) (key : K)
    (value : V) : Call K V Unit :=
  let idx := bucketIndex hasher t.capacity key
  match setLoop key value (t.array.getD idx []) with
  | some chain => ⟨.ok (), { t with array := t.array.set idx chain }⟩
  | none => ⟨.ok (), t.insertFront idx key value⟩

/-- A call of one of the public member functions `set`, `remove`, `get`,
`contains`. -/
inductive Op (K V : Type) where
  | set (key : K) (value : V)
  | remove (key : K)
  | get (key : K)
  | contains (key : K)

/-- The key an operation writes to, if it is a mutating one. -/
def Op.writes : Op K V → Option K
  | .set key _ => some key
  | .remove key => some key
  | .get _ => none
  | .contains _ => none

/-- The state of the table after one call; `get` and `contains` assign to no
data member. -/
def ChainHash.applyOp [DecidableEq K] (hasher : K → Nat) (t : ChainHash K V) :
    Op K V → ChainHash K V
  | .set key value => (t.set hasher key value).post
  | .remove key => (t.remove hasher key).post
  | .get _ => t
  | .contains _ => t

/-- The state of the table after a sequence of calls. -/
def ChainHash.run [DecidableEq K] (hasher : K → Nat) (t : ChainHash K V) (ops : List (Op K V)) :
    ChainHash K V :=
  ops.foldl (ChainHash.applyOp hasher) t

/-- The state after a sequence of `set` calls. -/
def ChainHash.runSets [DecidableEq K] (hasher : K → Nat) (t : ChainHash K V)
    (kvs : List (K × V)) : ChainHash K V :=
  kvs.foldl (fun s kv => (s.set hasher kv.1 kv.2).post) t

/-- The state after a sequence of `setNoRehash` calls. -/
def ChainHash.runSetsNoRehash [DecidableEq K] (hasher : K → Nat) (t : ChainHash K V)
    (kvs : List (K × V)) : ChainHash K V :=
  kvs.foldl (fun s kv => (s.setNoRehash hasher kv.1 kv.2).post) t

/-- The values of type `int`. -/
def IsInt32 (x : Int) : Prop := -2147483648 ≤ x ∧ x ≤ 2147483647

/-- Tables reachable from the constructor by `set` and `remove` calls (a call
of `set` that ends in an exception included: the table stays in use). -/
inductive Reachable [DecidableEq K] (hasher : K → Nat) : ChainHash K V → Prop where
  | create (initialCapacity : Int) (h : IsInt32 initialCapacity) :
      Reachable hasher (ChainHash.create initialCapacity)
  | set (t : ChainHash K V) (key : K) (value : V) (h : Reachable hasher t) :
      Reachable hasher (t.set hasher key value).post
  | remove (t : ChainHash K V) (key : K) (h : Reachable hasher t) :
      Reachable hasher (t.remove hasher key).post

/-- Tables reachable from the constructor by `set` and `remove` calls in the
course of which no `int` of the source overflowed: `bucket_count()` never went
beyond 2^30, so `capacity * 2` (line 223) was never evaluated at a capacity of
2^30 or more (a rehash at capacity 2^30 would leave more than 2^30 buckets),
and `size()` never went beyond `INT_MAX`. -/
inductive ReachableInRange [DecidableEq K] (hasher : K → Nat) : ChainHash K V → Prop where
  | create (initialCapacity : Int) (h : IsInt32 initialCapacity)
      (hcap : initialCapacity ≤ 1073741824) :
      ReachableInRange hasher (ChainHash.create initialCapacity)
  | set (t : ChainHash K V) (key : K) (value : V) (h : ReachableInRange hasher t)
      (hcap : (t.set hasher key value).post.capacity ≤ 1073741824)
      (hsize : (t.set hasher key value).post.nsize ≤ 2147483647) :
      ReachableInRange hasher (t.set hasher key value).post
  | remove (t : ChainHash K V) (key : K) (h : ReachableInRange hasher t) :
      ReachableInRange hasher (t.remove hasher key).post

/-- Consistency of a bucket array with its counter array, its counter of used
buckets and its capacity: lengths, per-bucket counts, number of non-empty
buckets, and every node sits in the bucket its key hashes to. -/
structure Consistent (hasher : K → Nat) (capacity : Int) (array : List (List (ChainHashNode K V)))
    (bucket_sizes : List Int) (usedBuckets : Int) : Prop where
  cap_pos : 0 < capacity
  cap_lt : capacity < 2147483648
  array_len : array.length = capacity.toNat
  sizes : bucket_sizes = array.map (fun chain => (chain.length : Int))
  used : usedBuckets = ((array.countP (fun chain => !chain.isEmpty) : Nat) : Int)
  placed : ∀ i node, node ∈ array.getD i [] → bucketIndex hasher capacity node.key = i

/-- The representation invariant of the table. -/
structure WF (hasher : K → Nat) (t : ChainHash K V) : Prop where
  consistent : Consistent hasher t.capacity t.array t.bucket_sizes t.usedBuckets
  nodup : (t.entries.map (fun node => node.key)).Nodup
  nsize_eq : t.nsize = (t.entries.length : Int)

/-- The number of non-empty chains of the bucket array. -/
def ChainHash.countNonEmpty (t : ChainHash K V) : Nat :=
  t.array.countP (fun chain => !chain.isEmpty)

/-- Reference finite map, as an association list: insert-or-update. -/
def refSet [DecidableEq K] (key : K) (value : V) (m : List (K × V)) : List (K × V) :=
  (key, value) :: m.filter (fun p => decide (p.1 ≠ key))

/-- Reference finite map: delete. -/
def refRemove [DecidableEq K] (key : K) (m : List (K × V)) : List (K × V) :=
  m.filter (fun p => decide (p.1 ≠ key))

/-- Reference finite map: lookup. -/
def refGet [DecidableEq K] (key : K) : List (K × V) → Option V
  | [] => none
  | p :: m => if p.1 = key then some p.2 else refGet key m

/-- Reference finite map: membership of a key. -/
def refContains [DecidableEq K] (key : K) (m : List (K × V)) : Bool :=
  (refGet key m).isSome

/-- Reference finite map: number of bindings. -/
def refSize (m : List (K × V)) : Int := (m.length : Int)

/-- Reference finite map: the effect of one call. -/
def refApply [DecidableEq K] (m : List (K × V)) : Op K V → List (K × V)
  | .set key value => refSet key value m
  | .remove key => refRemove key m
  | .get _ => m
  | .contains _ => m

/-- Reference finite map: the effect of a sequence of calls on the empty
map. -/
def refRun [DecidableEq K] (ops : List (Op K V)) : List (K × V) :=
  ops.foldl refApply []

/-- What `get` is to return for a binding of the reference map: the value, or
the not-found error. -/
def refResult (r : Option V) : Except Exn V :=
  match r with
  | some value => .ok value
  | none => .error .out_of_range

/-- One call, tracked together with the keys of the live entries in the order
of their creation, the most recently created first: a `set` of a key that is
not present creates an entry, a `set` of a present key only updates it, a
`remove` destroys the entry of its key. -/
def createdStep [DecidableEq K] (hasher : K → Nat) (s : ChainHash K V × List K) :
    Op K V → ChainHash K V × List K
  | .set key value =>
    ((s.1.set hasher key value).post, if s.1.contains hasher key = true then s.2 else key :: s.2)
  | .remove key => ((s.1.remove hasher key).post, s.2.erase key)
  | .get _ => s
  | .contains _ => s

/-- A sequence of calls on a table without entries, tracked with the creation
order of the live entries. -/
def runCreated [DecidableEq K] (hasher : K → Nat) (t : ChainHash K V) (ops : List (Op K V)) :
    ChainHash K V × List K :=
  ops.foldl (createdStep hasher) (t, [])

/-- The pairs `(0, 0), (1, 0), ..., (n - 1, 0)`. -/
def denseKeys (n : Nat) : List (Nat × Nat) := (List.range n).map (fun i => (i, 0))

/-- The table constructed with `initialCapacity = 2^24`, hashing a key to
itself, after `set(0, 0), set(1, 0), ..., set(n - 1, 0)`. -/
def denseTable (n : Nat) : ChainHash Nat Nat :=
  (ChainHash.create 16777216).runSets (fun k => k) (denseKeys n)

/-- The table constructed with `initialCapacity = 2^30`, every key hashing to
0, after `set(0, 0), set(1, 0), set(2, 0)`. -/
def crowdedTable : ChainHash Nat Nat :=
  (ChainHash.create 1073741824).runSets (fun _ => 0) [(0, 0), (1, 0), (2, 0)]

/-- The table constructed with `initialCapacity = 2^30`, hashing a key to
itself, after `set(0, 0)`, `set(2^30, 0)` and `set(2^31, 0)`: three keys, all
in bucket 0. -/
def collidingTable : ChainHash Nat Nat :=
  (ChainHash.create 1073741824).runSets (fun k => k)
    [(0, 0), (1073741824, 0), (2147483648, 0)]

end ChainHashModel

namespace ChainHashModel

variable {K V : Type}

/-! ### Lists of chains -/

theorem exists_split_at {α : Type} (l : List α) (d : α) (i : Nat) (h : i < l.length) :
    ∃ pre c post, l = pre ++ c :: post ∧ pre.length = i ∧ l.getD i d = c ∧
      ∀ c', l.set i c' = pre ++ c' :: post := by
  induction l generalizing i with
  | nil => simp at h
  | cons a l ih =>
    cases i with
    | zero => exact ⟨[], a, l, by simp, rfl, by simp, fun c => by simp⟩
    | succ j =>
      obtain ⟨pre, c, post, h1, h2, h3, h4⟩ := ih j (by simpa using h)
      refine ⟨a :: pre, c, post, ?_, by simp [h2], by simpa using h3, fun c => ?_⟩
      · simp only [List.cons_append]
        exact congrArg _ h1
      · simp [h4]

theorem getD_append_cons {α : Type} (pre post : List α) (c d : α) :
    (pre ++ c :: post).getD pre.length d = c := by
  induction pre with
  | nil => rfl
  | cons a pre ih => simpa using ih

theorem getD_set_ne {α : Type} (l : List α) (i j : Nat) (c d : α) (h : i ≠ j) :
    (l.set i c).getD j d = l.getD j d := by
  simp [List.getD_eq_getElem?_getD, List.getElem?_set_ne h]

theorem getD_set_self {α : Type} (l : List α) (i : Nat) (c d : α) (h : i < l.length) :
    (l.set i c).getD i d = c := by
  simp [List.getD_eq_getElem?_getD, h]

theorem getD_mem_or_default {α : Type} (l : List α) (i : Nat) (d : α) :
    l.getD i d ∈ l ∨ (l.length ≤ i ∧ l.getD i d = d) := by
  by_cases h : i < l.length
  · left
    rw [List.getD_eq_getElem _ _ h]
    exact List.getElem_mem h
  · right
    exact ⟨Nat.le_of_not_lt h, List.getD_eq_default _ _ (Nat.le_of_not_lt h)⟩

theorem mem_getD_of_mem {α : Type} (l : List (List α)) (c : List α) (h : c ∈ l) :
    ∃ i, i < l.length ∧ l.getD i [] = c := by
  obtain ⟨i, hi, rfl⟩ := List.getElem_of_mem h
  exact ⟨i, hi, List.getD_eq_getElem _ _ hi⟩

theorem foldl_range_getD {α β : Type} (f : β → α → β) (l : List α) (d : α) (b : β) :
    (List.range l.length).foldl (fun acc i => f acc (l.getD i d)) b = l.foldl f b := by
  induction l using List.reverseRecOn generalizing b with
  | nil => simp
  | append_singleton l a ih =>
    rw [List.length_append, List.length_singleton, List.range_succ, List.foldl_append,
      List.foldl_append]
    have h1 : (List.range l.length).foldl (fun acc i => f acc ((l ++ [a]).getD i d)) b
        = (List.range l.length).foldl (fun acc i => f acc (l.getD i d)) b := by
      apply List.foldl_ext
      intro acc i hi
      have hi' : i < l.length := List.mem_range.mp hi
      simp [List.getD_eq_getElem?_getD, List.getElem?_append_left hi']
    rw [h1, ih]
    simp [List.getD_eq_getElem?_getD]

/-! ### The chain loops -/

theorem containsLoop_iff [DecidableEq K] (k : K) (c : List (ChainHashNode K V)) :
    containsLoop k c = true ↔ k ∈ c.map (fun n => n.key) := by
  induction c with
  | nil => simp [containsLoop]
  | cons a c ih =>
    by_cases h : a.key = k
    · simp [containsLoop, h]
    · simp only [containsLoop, h, if_false, ih, List.map_cons, List.mem_cons]
      constructor
      · exact fun hm => Or.inr hm
      · rintro (hm | hm)
        · exact absurd hm.symm h
        · exact hm

theorem getLoop_cases [DecidableEq K] (k : K) (c : List (ChainHashNode K V)) :
    (∃ v, getLoop k c = .ok v ∧ (⟨k, v⟩ : ChainHashNode K V) ∈ c) ∨
      (getLoop k c = .error .out_of_range ∧ k ∉ c.map (fun n => n.key)) := by
  induction c with
  | nil => right; simp [getLoop]
  | cons a c ih =>
    by_cases h : a.key = k
    · left
      refine ⟨a.value, by simp [getLoop, h], ?_⟩
      subst h
      simp
    · rcases ih with ⟨v, h1, h2⟩ | ⟨h1, h2⟩
      · left
        exact ⟨v, by simp [getLoop, h, h1], List.mem_cons_of_mem _ h2⟩
      · right
        refine ⟨by simp [getLoop, h, h1], ?_⟩
        simp only [List.map_cons, List.mem_cons, not_or]
        exact ⟨fun e => h e.symm, h2⟩

theorem getLoop_of_mem [DecidableEq K] (k : K) (v : V) (c : List (ChainHashNode K V))
    (hnd : (c.map (fun n => n.key)).Nodup) (hm : (⟨k, v⟩ : ChainHashNode K V) ∈ c) :
    getLoop k c = .ok v := by
  induction c with
  | nil => simp at hm
  | cons a c ih =>
    rw [List.map_cons, List.nodup_cons] at hnd
    rcases List.mem_cons.mp hm with rfl | hm'
    · simp [getLoop]
    · have hne : a.key ≠ k := by
        intro e
        apply hnd.1
        rw [e]
        exact List.mem_map.mpr ⟨⟨k, v⟩, hm', rfl⟩
      simp only [getLoop, hne, if_false]
      exact ih hnd.2 hm'

theorem setLoop_none_iff [DecidableEq K] (k : K) (v : V) (c : List (ChainHashNode K V)) :
    setLoop k v c = none ↔ k ∉ c.map (fun n => n.key) := by
  induction c with
  | nil => simp [setLoop]
  | cons a c ih =>
    by_cases h : a.key = k
    · simp [setLoop, h]
    · have h' : ¬ k = a.key := fun e => h e.symm
      simp [setLoop, h, h', ih]

theorem setLoop_some [DecidableEq K] (k : K) (v : V) (c c' : List (ChainHashNode K V))
    (h : setLoop k v c = some c') :
    ∃ pre n post, c = pre ++ n :: post ∧ n.key = k ∧ k ∉ pre.map (fun n => n.key) ∧
      c' = pre ++ ⟨k, v⟩ :: post := by
  induction c generalizing c' with
  | nil => simp [setLoop] at h
  | cons a c ih =>
    by_cases hk : a.key = k
    · simp only [setLoop, hk, if_true, Option.some.injEq] at h
      exact ⟨[], a, c, rfl, hk, by simp, by rw [← h]; simp [hk]⟩
    · simp only [setLoop, hk, if_false, Option.map_eq_some'] at h
      obtain ⟨rest, hrest, rfl⟩ := h
      obtain ⟨pre, n, post, h1, h2, h3, h4⟩ := ih rest hrest
      refine ⟨a :: pre, n, post, by simp [h1], h2, ?_, by simp [h4]⟩
      simp only [List.map_cons, List.mem_cons, not_or]
      exact ⟨fun e => hk e.symm, h3⟩

theorem removeLoop_none_iff [DecidableEq K] (k : K) (c : List (ChainHashNode K V)) :
    removeLoop k c = none ↔ k ∉ c.map (fun n => n.key) := by
  induction c with
  | nil => simp [removeLoop]
  | cons a c ih =>
    by_cases h : a.key = k
    · simp [removeLoop, h]
    · have h' : ¬ k = a.key := fun e => h e.symm
      simp [removeLoop, h, h', ih]

theorem removeLoop_some [DecidableEq K] (k : K) (c c' : List (ChainHashNode K V))
    (h : removeLoop k c = some c') :
    ∃ pre n post, c = pre ++ n :: post ∧ n.key = k ∧ c' = pre ++ post := by
  induction c generalizing c' with
  | nil => simp [removeLoop] at h
  | cons a c ih =>
    by_cases hk : a.key = k
    · simp only [removeLoop, hk, if_true, Option.some.injEq] at h
      exact ⟨[], a, c, rfl, hk, by rw [← h]; simp⟩
    · simp only [removeLoop, hk, if_false, Option.map_eq_some'] at h
      obtain ⟨rest, hrest, rfl⟩ := h
      obtain ⟨pre, n, post, h1, h2, h3⟩ := ih rest hrest
      exact ⟨a :: pre, n, post, by simp [h1], h2, by simp [h3]⟩

/-! ### Arithmetic of capacities and bucket indices -/

theorem toSizeT_of_pos (c : Int) (h0 : 0 < c) (h1 : c < 2147483648) : toSizeT c = c.toNat := by
  unfold toSizeT
  rw [Int.emod_eq_of_lt (by omega) (by omega)]

theorem bucketIndex_lt (hasher : K → Nat) (c : Int) (k : K) (h0 : 0 < c) (h1 : c < 2147483648) :
    bucketIndex hasher c k < c.toNat := by
  unfold bucketIndex
  rw [toSizeT_of_pos c h0 h1]
  exact Nat.mod_lt _ (by omega)

theorem newCapacity_cases (c : Int) (h0 : 0 < c) (h1 : c < 2147483648) :
    (2 * c < 2147483648 ∧
        (if wrapInt32 (c * 2) ≤ 0 then wrapInt32 (c + 1) else wrapInt32 (c * 2)) = 2 * c) ∨
      (2147483648 ≤ 2 * c ∧ c < 2147483647 ∧ wrapInt32 (c * 2) ≤ 0 ∧
        (if wrapInt32 (c * 2) ≤ 0 then wrapInt32 (c + 1) else wrapInt32 (c * 2)) = c + 1) ∨
      (c = 2147483647 ∧
        (if wrapInt32 (c * 2) ≤ 0 then wrapInt32 (c + 1) else wrapInt32 (c * 2)) = -2147483648) := by
  unfold wrapInt32
  by_cases h : 2 * c < 2147483648
  · left
    refine ⟨h, ?_⟩
    split <;> omega
  · by_cases h2 : c < 2147483647
    · right; left
      refine ⟨by omega, h2, by omega, ?_⟩
      split <;> omega
    · right; right
      refine ⟨by omega, ?_⟩
      split <;> omega

theorem getD_map_length (A : List (List (ChainHashNode K V))) (i : Nat) :
    (A.map (fun chain => (chain.length : Int))).getD i 0 = ((A.getD i []).length : Int) := by
  have h := List.getD_map (l := A) (d := []) (n := i)
    (fun chain : List (ChainHashNode K V) => (chain.length : Int))
  simpa using h

/-! ### Consistency of the bucket structure -/

theorem Consistent.index_in_range {hasher : K → Nat} {cap : Int} {A : List (List (ChainHashNode K V))}
    {B : List Int} {u : Int} (h : Consistent hasher cap A B u) (k : K) :
    bucketIndex hasher cap k < A.length := by
  rw [h.array_len]
  exact bucketIndex_lt hasher cap k h.cap_pos h.cap_lt

theorem Consistent.fresh (hasher : K → Nat) (cap : Int) (h0 : 0 < cap) (h1 : cap < 2147483648) :
    Consistent hasher cap (List.replicate cap.toNat ([] : List (ChainHashNode K V)))
      (List.replicate cap.toNat 0) 0 := by
  refine ⟨h0, h1, by simp, by simp, ?_, ?_⟩
  · have : List.countP (fun chain : List (ChainHashNode K V) => !chain.isEmpty)
        (List.replicate cap.toNat []) = 0 := by
      rw [List.countP_eq_zero]
      intro c hc
      rw [List.eq_of_mem_replicate hc]
      simp
    rw [this]
    rfl
  · intro i node hn
    rcases getD_mem_or_default (List.replicate cap.toNat ([] : List (ChainHashNode K V))) i []
      with hm | ⟨_, hd⟩
    · rw [List.eq_of_mem_replicate hm] at hn
      simp at hn
    · rw [hd] at hn
      simp at hn

theorem Consistent.insert {hasher : K → Nat} {cap : Int} {A : List (List (ChainHashNode K V))}
    {B : List Int} {u : Int} (h : Consistent hasher cap A B u) (node : ChainHashNode K V)
    (idx : Nat) (hidx : idx = bucketIndex hasher cap node.key) :
    Consistent hasher cap (A.set idx (node :: A.getD idx []))
        (B.set idx (B.getD idx 0 + 1)) (if B.getD idx 0 = 0 then u + 1 else u) ∧
      (A.set idx (node :: A.getD idx [])).flatten.Perm (node :: A.flatten) := by
  have hlt : idx < A.length := hidx ▸ h.index_in_range node.key
  have hB : B.getD idx 0 = ((A.getD idx []).length : Int) := by
    rw [h.sizes]
    exact getD_map_length A idx
  have hlen := h.array_len
  have hsz := h.sizes
  have hu := h.used
  have hpl := h.placed
  obtain ⟨pre, c, post, rfl, -, hget, hset⟩ := exists_split_at A [] idx hlt
  rw [hget] at hB ⊢
  refine ⟨⟨h.cap_pos, h.cap_lt, ?_, ?_, ?_, ?_⟩, ?_⟩
  · rw [List.length_set]
    exact hlen
  · rw [hB, hsz, List.map_set]
    simp
  · rw [hB, hu, hset]
    simp only [List.countP_append, List.countP_cons]
    cases c with
    | nil => simp; omega
    | cons a c =>
      have : ¬ ((c.length : Int) + 1 = 0) := by omega
      simp [this]
  · intro j n hn
    by_cases hj : idx = j
    · subst hj
      rw [getD_set_self _ _ _ _ hlt] at hn
      rcases List.mem_cons.mp hn with rfl | hn
      · exact hidx.symm
      · exact hpl idx n (by rw [hget]; exact hn)
    · rw [getD_set_ne _ _ _ _ _ hj] at hn
      exact hpl j n hn
  · rw [hset]
    simp only [List.flatten_append, List.flatten_cons, List.cons_append]
    exact List.perm_middle

theorem Consistent.replace {hasher : K → Nat} {cap : Int} {A : List (List (ChainHashNode K V))}
    {B : List Int} {u : Int} (h : Consistent hasher cap A B u) (idx : Nat) (hlt : idx < A.length)
    (pre post : List (ChainHashNode K V)) (n m : ChainHashNode K V) (hnm : m.key = n.key)
    (hc : A.getD idx [] = pre ++ n :: post) :
    Consistent hasher cap (A.set idx (pre ++ m :: post)) B u ∧
      ∃ R, A.flatten.Perm (n :: R) ∧ (A.set idx (pre ++ m :: post)).flatten.Perm (m :: R) := by
  have hlen := h.array_len
  have hsz := h.sizes
  have hu := h.used
  have hpl := h.placed
  obtain ⟨P, c, Q, rfl, -, hget, hset⟩ := exists_split_at A [] idx hlt
  rw [hget] at hc
  subst hc
  refine ⟨⟨h.cap_pos, h.cap_lt, ?_, ?_, ?_, ?_⟩, ?_⟩
  · rw [List.length_set]
    exact hlen
  · rw [hsz, hset]
    simp
  · rw [hu, hset]
    simp [List.countP_append, List.countP_cons]
  · intro j x hx
    by_cases hj : idx = j
    · subst hj
      rw [getD_set_self _ _ _ _ hlt] at hx
      have hn : bucketIndex hasher cap n.key = idx := hpl idx n (by rw [hget]; simp)
      rcases List.mem_append.mp hx with hx | hx
      · exact hpl idx x (by rw [hget]; simp [hx])
      · rcases List.mem_cons.mp hx with rfl | hx
        · rw [hnm]
          exact hn
        · exact hpl idx x (by rw [hget]; simp [hx])
    · rw [getD_set_ne _ _ _ _ _ hj] at hx
      exact hpl j x hx
  · refine ⟨P.flatten ++ (pre ++ (post ++ Q.flatten)), ?_, ?_⟩
    · simp only [List.flatten_append, List.flatten_cons, List.append_assoc, List.cons_append]
      rw [← List.append_assoc]
      exact List.perm_middle.trans (by rw [List.append_assoc])
    · rw [hset]
      simp only [List.flatten_append, List.flatten_cons, List.append_assoc, List.cons_append]
      rw [← List.append_assoc]
      exact List.perm_middle.trans (by rw [List.append_assoc])

theorem Consistent.erase {hasher : K → Nat} {cap : Int} {A : List (List (ChainHashNode K V))}
    {B : List Int} {u : Int} (h : Consistent hasher cap A B u) (idx : Nat) (hlt : idx < A.length)
    (pre post : List (ChainHashNode K V)) (n : ChainHashNode K V)
    (hc : A.getD idx [] = pre ++ n :: post) :
    Consistent hasher cap (A.set idx (pre ++ post)) (B.set idx (B.getD idx 0 - 1))
        (if B.getD idx 0 - 1 = 0 then u - 1 else u) ∧
      A.flatten.Perm (n :: (A.set idx (pre ++ post)).flatten) := by
  have hB : B.getD idx 0 = ((A.getD idx []).length : Int) := by
    rw [h.sizes]
    exact getD_map_length A idx
  have hlen := h.array_len
  have hsz := h.sizes
  have hu := h.used
  have hpl := h.placed
  obtain ⟨P, c, Q, rfl, -, hget, hset⟩ := exists_split_at A [] idx hlt
  rw [hget] at hc hB
  subst hc
  refine ⟨⟨h.cap_pos, h.cap_lt, ?_, ?_, ?_, ?_⟩, ?_⟩
  · rw [List.length_set]
    exact hlen
  · rw [hB, hsz, List.map_set]
    simp only [List.length_append, List.length_cons]
    congr 1
    push_cast
    omega
  · rw [hB, hu, hset]
    simp only [List.countP_append, List.countP_cons, List.length_append, List.length_cons]
    by_cases he : pre ++ post = []
    · have h1 : pre = [] := (List.append_eq_nil.mp he).1
      have h2 : post = [] := (List.append_eq_nil.mp he).2
      subst h1 h2
      simp
      omega
    · have h3 : 0 < (pre ++ post).length := List.length_pos.mpr he
      rw [List.length_append] at h3
      have h4 : ¬ (((pre.length + (post.length + 1) : Nat) : Int) - 1 = 0) := by omega
      have h5 : (!(pre ++ post).isEmpty) = true := by
        cases hpp : pre ++ post with
        | nil => exact absurd hpp he
        | cons a l => rfl
      have h6 : (!(pre ++ n :: post).isEmpty) = true := by
        cases pre <;> rfl
      rw [if_neg h4, h5, h6]
  · intro j x hx
    by_cases hj : idx = j
    · subst hj
      rw [getD_set_self _ _ _ _ hlt] at hx
      rcases List.mem_append.mp hx with hx | hx
      · exact hpl idx x (by rw [hget]; simp [hx])
      · exact hpl idx x (by rw [hget]; simp [hx])
    · rw [getD_set_ne _ _ _ _ _ hj] at hx
      exact hpl j x hx
  · rw [hset]
    simp only [List.flatten_append, List.flatten_cons, List.append_assoc, List.cons_append]
    rw [← List.append_assoc]
    exact List.perm_middle.trans (by rw [List.append_assoc])

/-! ### Rehashing -/

theorem insertNodeNoCheck_foldl (hasher : K → Nat) (cap : Int) (nodes : List (ChainHashNode K V))
    (acc : List (List (ChainHashNode K V)) × List Int × Int)
    (h : Consistent hasher cap acc.1 acc.2.1 acc.2.2) :
    Consistent hasher cap (nodes.foldl (insertNodeNoCheck hasher cap) acc).1
        (nodes.foldl (insertNodeNoCheck hasher cap) acc).2.1
        (nodes.foldl (insertNodeNoCheck hasher cap) acc).2.2 ∧
      (nodes.foldl (insertNodeNoCheck hasher cap) acc).1.flatten.Perm (nodes ++ acc.1.flatten) := by
  induction nodes generalizing acc with
  | nil => exact ⟨h, List.Perm.refl _⟩
  | cons node rest ih =>
    obtain ⟨h1, h2⟩ := h.insert node (bucketIndex hasher cap node.key) rfl
    obtain ⟨h3, h4⟩ := ih (insertNodeNoCheck hasher cap acc node) h1
    refine ⟨h3, ?_⟩
    rw [List.foldl_cons]
    refine h4.trans ?_
    have h5 : (rest ++ (insertNodeNoCheck hasher cap acc node).1.flatten).Perm
        (rest ++ node :: acc.1.flatten) := List.Perm.append_left rest h2
    exact h5.trans List.perm_middle

theorem rehashing_moved (hasher : K → Nat) (t : ChainHash K V) (newCapacity : Int)
    (hlen : t.array.length = t.capacity.toNat)
    (fresh : List (List (ChainHashNode K V)) × List Int × Int) :
    (List.range t.capacity.toNat).foldl
        (fun acc i => (t.array.getD i []).foldl (insertNodeNoCheck hasher newCapacity) acc) fresh
      = t.entries.foldl (insertNodeNoCheck hasher newCapacity) fresh := by
  rw [← hlen]
  rw [foldl_range_getD (fun acc chain => List.foldl (insertNodeNoCheck hasher newCapacity) acc chain)
    t.array [] fresh]
  unfold ChainHash.entries
  rw [List.foldl_flatten]

/-! ### Effect of a change of the entries, up to permutation -/

theorem perm_replace_spec (E E' R : List (ChainHashNode K V)) (n m : ChainHashNode K V)
    (hnd : (E.map (fun x => x.key)).Nodup) (h1 : E.Perm (n :: R)) (h2 : E'.Perm (m :: R))
    (hk : m.key = n.key) :
    (E'.map (fun x => x.key)).Nodup ∧ E'.length = E.length ∧
      ∀ x, x ∈ E' ↔ x = m ∨ (x.key ≠ m.key ∧ x ∈ E) := by
  have hnd1 : ((n :: R).map (fun x => x.key)).Nodup := (h1.map _).nodup_iff.mp hnd
  rw [List.map_cons, List.nodup_cons] at hnd1
  refine ⟨?_, ?_, ?_⟩
  · rw [(h2.map _).nodup_iff, List.map_cons, List.nodup_cons, hk]
    exact hnd1
  · rw [h2.length_eq, h1.length_eq]
    simp
  · intro x
    rw [h2.mem_iff, h1.mem_iff, List.mem_cons, List.mem_cons]
    constructor
    · rintro (rfl | hx)
      · exact Or.inl rfl
      · right
        refine ⟨?_, Or.inr hx⟩
        intro e
        apply hnd1.1
        rw [← hk, ← e]
        exact List.mem_map.mpr ⟨x, hx, rfl⟩
    · rintro (rfl | ⟨hne, rfl | hx⟩)
      · exact Or.inl rfl
      · exact absurd hk.symm hne
      · exact Or.inr hx

theorem perm_insert_spec (E E' : List (ChainHashNode K V)) (m : ChainHashNode K V)
    (hnd : (E.map (fun x => x.key)).Nodup) (hnot : m.key ∉ E.map (fun x => x.key))
    (h2 : E'.Perm (m :: E)) :
    (E'.map (fun x => x.key)).Nodup ∧ E'.length = E.length + 1 ∧
      ∀ x, x ∈ E' ↔ x = m ∨ (x.key ≠ m.key ∧ x ∈ E) := by
  refine ⟨?_, ?_, ?_⟩
  · rw [(h2.map _).nodup_iff, List.map_cons, List.nodup_cons]
    exact ⟨hnot, hnd⟩
  · rw [h2.length_eq]
    simp
  · intro x
    rw [h2.mem_iff, List.mem_cons]
    constructor
    · rintro (rfl | hx)
      · exact Or.inl rfl
      · right
        refine ⟨?_, hx⟩
        intro e
        apply hnot
        rw [← e]
        exact List.mem_map.mpr ⟨x, hx, rfl⟩
    · rintro (rfl | ⟨_, hx⟩)
      · exact Or.inl rfl
      · exact Or.inr hx

theorem perm_erase_spec (E E' : List (ChainHashNode K V)) (n : ChainHashNode K V)
    (hnd : (E.map (fun x => x.key)).Nodup) (h1 : E.Perm (n :: E')) :
    (E'.map (fun x => x.key)).Nodup ∧ E.length = E'.length + 1 ∧
      ∀ x, x ∈ E' ↔ (x.key ≠ n.key ∧ x ∈ E) := by
  have hnd1 : ((n :: E').map (fun x => x.key)).Nodup := (h1.map _).nodup_iff.mp hnd
  rw [List.map_cons, List.nodup_cons] at hnd1
  refine ⟨hnd1.2, ?_, ?_⟩
  · rw [h1.length_eq]
    simp
  · intro x
    rw [h1.mem_iff, List.mem_cons]
    constructor
    · intro hx
      refine ⟨?_, Or.inr hx⟩
      intro e
      apply hnd1.1
      rw [← e]
      exact List.mem_map.mpr ⟨x, hx, rfl⟩
    · rintro ⟨hne, rfl | hx⟩
      · exact absurd rfl hne
      · exact hx

/-! ### Lookups in a well-formed table -/

theorem WF.bucket_in_range {hasher : K → Nat} {t : ChainHash K V} (hwf : WF hasher t) (k : K) :
    bucketIndex hasher t.capacity k < t.array.length :=
  hwf.consistent.index_in_range k

theorem WF.chain_mem {hasher : K → Nat} {t : ChainHash K V} (hwf : WF hasher t) (k : K) :
    t.array.getD (bucketIndex hasher t.capacity k) [] ∈ t.array := by
  rcases getD_mem_or_default t.array (bucketIndex hasher t.capacity k) [] with h | ⟨h, _⟩
  · exact h
  · exact absurd (hwf.bucket_in_range k) (Nat.not_lt.mpr h)

theorem WF.mem_chain_iff {hasher : K → Nat} {t : ChainHash K V} (hwf : WF hasher t)
    (x : ChainHashNode K V) :
    x ∈ t.array.getD (bucketIndex hasher t.capacity x.key) [] ↔ x ∈ t.entries := by
  unfold ChainHash.entries
  rw [List.mem_flatten]
  constructor
  · intro hx
    exact ⟨_, hwf.chain_mem x.key, hx⟩
  · rintro ⟨c, hc, hx⟩
    obtain ⟨i, _, rfl⟩ := mem_getD_of_mem t.array c hc
    rw [hwf.consistent.placed i x hx]
    exact hx

theorem WF.key_mem_chain_iff {hasher : K → Nat} {t : ChainHash K V} (hwf : WF hasher t) (k : K) :
    k ∈ (t.array.getD (bucketIndex hasher t.capacity k) []).map (fun n => n.key) ↔
      k ∈ t.entries.map (fun n => n.key) := by
  simp only [List.mem_map]
  constructor
  · rintro ⟨x, hx, rfl⟩
    exact ⟨x, (hwf.mem_chain_iff x).mp hx, rfl⟩
  · rintro ⟨x, hx, rfl⟩
    exact ⟨x, (hwf.mem_chain_iff x).mpr hx, rfl⟩

theorem WF.chain_nodup {hasher : K → Nat} {t : ChainHash K V} (hwf : WF hasher t) (k : K) :
    ((t.array.getD (bucketIndex hasher t.capacity k) []).map (fun n => n.key)).Nodup :=
  List.Nodup.sublist ((List.sublist_flatten_of_mem (hwf.chain_mem k)).map _) hwf.nodup

theorem WF.get_ok_iff [DecidableEq K] {hasher : K → Nat} {t : ChainHash K V} (hwf : WF hasher t)
    (k : K) (v : V) : t.get hasher k = .ok v ↔ (⟨k, v⟩ : ChainHashNode K V) ∈ t.entries := by
  rw [← hwf.mem_chain_iff ⟨k, v⟩]
  unfold ChainHash.get
  constructor
  · intro h
    rcases getLoop_cases k (t.array.getD (bucketIndex hasher t.capacity k) [])
      with ⟨v', h1, h2⟩ | ⟨h1, _⟩
    · rw [h1] at h
      cases h
      exact h2
    · rw [h1] at h
      cases h
  · intro h
    exact getLoop_of_mem k v _ (hwf.chain_nodup k) h

theorem WF.contains_iff [DecidableEq K] {hasher : K → Nat} {t : ChainHash K V}
    (hwf : WF hasher t) (k : K) :
    t.contains hasher k = true ↔ k ∈ t.entries.map (fun n => n.key) := by
  rw [← hwf.key_mem_chain_iff k]
  exact containsLoop_iff k _

theorem get_error_iff [DecidableEq K] (hasher : K → Nat) (t : ChainHash K V) (k : K) :
    t.get hasher k = .error .out_of_range ↔ t.contains hasher k = false := by
  unfold ChainHash.get ChainHash.contains
  rw [← Bool.not_eq_true, containsLoop_iff]
  rcases getLoop_cases k (t.array.getD (bucketIndex hasher t.capacity k) [])
    with ⟨v, h1, h2⟩ | ⟨h1, h2⟩
  · rw [h1]
    constructor
    · intro h
      cases h
    · intro h
      exact absurd (List.mem_map.mpr ⟨⟨k, v⟩, h2, rfl⟩) h
  · rw [h1]
    exact ⟨fun _ => h2, fun _ => rfl⟩

/-! ### The invariant is established by the constructor and kept by every step -/

theorem create_capacity (c : Int) :
    (ChainHash.create c : ChainHash K V).capacity = if c ≤ 0 then 10 else c := rfl

theorem create_entries (c : Int) : (ChainHash.create c : ChainHash K V).entries = [] := by
  unfold ChainHash.entries ChainHash.create
  simp only
  rw [List.flatten_eq_nil_iff]
  intro l hl
  exact List.eq_of_mem_replicate hl

theorem WF.create (hasher : K → Nat) (c : Int) (hc : IsInt32 c) :
    WF hasher (ChainHash.create c : ChainHash K V) := by
  have h0 : 0 < (if c ≤ 0 then 10 else c) := by split <;> omega
  have h1 : (if c ≤ 0 then 10 else c) < 2147483648 := by
    unfold IsInt32 at hc
    split <;> omega
  refine ⟨Consistent.fresh hasher _ h0 h1, ?_, ?_⟩
  · rw [create_entries]
    exact List.nodup_nil
  · rw [create_entries]
    rfl

theorem rehashing_spec (hasher : K → Nat) (t : ChainHash K V) (hwf : WF hasher t) :
    (t.capacity = 2147483647 ∧ t.rehashing hasher = .error .bad_array_new_length) ∨
      ∃ t2, t.rehashing hasher = .ok t2 ∧ WF hasher t2 ∧ t2.entries.Perm t.entries ∧
        t2.nsize = t.nsize ∧
        ((2 * t.capacity < 2147483648 ∧ t2.capacity = 2 * t.capacity) ∨
          (2147483648 ≤ 2 * t.capacity ∧ wrapInt32 (t.capacity * 2) ≤ 0 ∧
            t2.capacity = t.capacity + 1)) := by
  have hc := hwf.consistent
  have key : ∀ nc : Int, 0 < nc → nc < 2147483648 →
      (if wrapInt32 (t.capacity * 2) ≤ 0 then wrapInt32 (t.capacity + 1)
        else wrapInt32 (t.capacity * 2)) = nc →
      ∃ t2, t.rehashing hasher = .ok t2 ∧ WF hasher t2 ∧ t2.entries.Perm t.entries ∧
        t2.nsize = t.nsize ∧ t2.capacity = nc := by
    intro nc h0 h1 hnc
    have hfold := insertNodeNoCheck_foldl hasher nc t.entries
      (List.replicate nc.toNat [], List.replicate nc.toNat 0, 0) (Consistent.fresh hasher nc h0 h1)
    have hnil : (List.replicate nc.toNat ([] : List (ChainHashNode K V))).flatten = [] := by
      rw [List.flatten_eq_nil_iff]
      intro l hl
      exact List.eq_of_mem_replicate hl
    simp only [hnil, List.append_nil] at hfold
    generalize hm : List.foldl (insertNodeNoCheck hasher nc)
      (List.replicate nc.toNat [], List.replicate nc.toNat 0, 0) t.entries = moved at hfold
    refine ⟨{ array := moved.1, bucket_sizes := moved.2.1, capacity := nc,
              usedBuckets := moved.2.2, nsize := t.nsize }, ?_, ?_, ?_, ?_, ?_⟩
    · unfold ChainHash.rehashing
      simp only [hnc, if_neg (not_lt.mpr (le_of_lt h0))]
      rw [rehashing_moved hasher t nc hc.array_len, hm]
    · exact ⟨hfold.1, (hfold.2.map _).nodup_iff.mpr hwf.nodup,
        by rw [hwf.nsize_eq]; exact congrArg _ hfold.2.length_eq.symm⟩
    · exact hfold.2
    · rfl
    · rfl
  rcases newCapacity_cases t.capacity hc.cap_pos hc.cap_lt with ⟨h1, h2⟩ | ⟨h1, h2, h3, h4⟩ | ⟨h1, h2⟩
  · right
    obtain ⟨t2, e1, e2, e3, e4, e5⟩ := key (2 * t.capacity) (by have := hc.cap_pos; omega) h1 h2
    exact ⟨t2, e1, e2, e3, e4, Or.inl ⟨h1, e5⟩⟩
  · right
    obtain ⟨t2, e1, e2, e3, e4, e5⟩ := key (t.capacity + 1) (by have := hc.cap_pos; omega)
      (by omega) h4
    exact ⟨t2, e1, e2, e3, e4, Or.inr ⟨h1, h3, e5⟩⟩
  · left
    refine ⟨h1, ?_⟩
    unfold ChainHash.rehashing
    simp only [h2]
    rfl

/-! ### The branches of `set` and `remove` -/

theorem set_cases [DecidableEq K] (hasher : K → Nat) (t : ChainHash K V) (k : K) (v : V) :
    (∃ pre n post, t.array.getD (bucketIndex hasher t.capacity k) [] = pre ++ n :: post ∧
        n.key = k ∧ k ∉ pre.map (fun x => x.key) ∧
        t.set hasher k v = ⟨.ok (),
          { t with
            array := t.array.set (bucketIndex hasher t.capacity k) (pre ++ ⟨k, v⟩ :: post) }⟩) ∨
      (k ∉ (t.array.getD (bucketIndex hasher t.capacity k) []).map (fun x => x.key) ∧
        ((ChainHash.needsRehash (t.insertFront (bucketIndex hasher t.capacity k) k v)
              (bucketIndex hasher t.capacity k) = false ∧
            t.set hasher k v = ⟨.ok (), t.insertFront (bucketIndex hasher t.capacity k) k v⟩) ∨
          (ChainHash.needsRehash (t.insertFront (bucketIndex hasher t.capacity k) k v)
              (bucketIndex hasher t.capacity k) = true ∧
            ∃ t2, (t.insertFront (bucketIndex hasher t.capacity k) k v).rehashing hasher = .ok t2 ∧
              t.set hasher k v = ⟨.ok (), t2⟩) ∨
          (ChainHash.needsRehash (t.insertFront (bucketIndex hasher t.capacity k) k v)
              (bucketIndex hasher t.capacity k) = true ∧
            ∃ e, (t.insertFront (bucketIndex hasher t.capacity k) k v).rehashing hasher = .error e ∧
              t.set hasher k v =
                ⟨.error e, t.insertFront (bucketIndex hasher t.capacity k) k v⟩))) := by
  cases hs : setLoop k v (t.array.getD (bucketIndex hasher t.capacity k) []) with
  | some chain =>
    left
    obtain ⟨pre, n, post, h1, h2, h3, h4⟩ := setLoop_some k v _ _ hs
    refine ⟨pre, n, post, h1, h2, h3, ?_⟩
    unfold ChainHash.set
    simp only [hs, h4]
  | none =>
    right
    refine ⟨(setLoop_none_iff k v _).mp hs, ?_⟩
    cases hr : ChainHash.needsRehash (t.insertFront (bucketIndex hasher t.capacity k) k v)
        (bucketIndex hasher t.capacity k) with
    | false =>
      left
      refine ⟨rfl, ?_⟩
      unfold ChainHash.set
      simp only [hs, hr]
      rfl
    | true =>
      right
      cases hq : (t.insertFront (bucketIndex hasher t.capacity k) k v).rehashing hasher with
      | ok t2 =>
        left
        refine ⟨rfl, t2, rfl, ?_⟩
        unfold ChainHash.set
        simp only [hs, hr, hq]
        rfl
      | error e =>
        right
        refine ⟨rfl, e, rfl, ?_⟩
        unfold ChainHash.set
        simp only [hs, hr, hq]
        rfl

theorem remove_cases [DecidableEq K] (hasher : K → Nat) (t : ChainHash K V) (k : K) :
    (∃ pre n post, t.array.getD (bucketIndex hasher t.capacity k) [] = pre ++ n :: post ∧
        n.key = k ∧
        t.remove hasher k = ⟨.ok true,
          { array := t.array.set (bucketIndex hasher t.capacity k) (pre ++ post)
            bucket_sizes := t.bucket_sizes.set (bucketIndex hasher t.capacity k)
              (t.bucket_sizes.getD (bucketIndex hasher t.capacity k) 0 - 1)
            nsize := t.nsize - 1
            usedBuckets :=
              if t.bucket_sizes.getD (bucketIndex hasher t.capacity k) 0 - 1 = 0
              then t.usedBuckets - 1 else t.usedBuckets
            capacity := t.capacity }⟩) ∨
      (k ∉ (t.array.getD (bucketIndex hasher t.capacity k) []).map (fun x => x.key) ∧
        t.remove hasher k = ⟨.ok false, t⟩) := by
  cases hs : removeLoop k (t.array.getD (bucketIndex hasher t.capacity k) []) with
  | some chain =>
    left
    obtain ⟨pre, n, post, h1, h2, h3⟩ := removeLoop_some k _ _ hs
    refine ⟨pre, n, post, h1, h2, ?_⟩
    unfold ChainHash.remove
    simp only [hs, h3]
  | none =>
    right
    refine ⟨(removeLoop_none_iff k _).mp hs, ?_⟩
    unfold ChainHash.remove
    simp only [hs]

theorem WF.insertFront {hasher : K → Nat} {t : ChainHash K V} (hwf : WF hasher t) (k : K) (v : V)
    (hnot : k ∉ t.entries.map (fun x => x.key)) :
    WF hasher (t.insertFront (bucketIndex hasher t.capacity k) k v) ∧
      (t.insertFront (bucketIndex hasher t.capacity k) k v).entries.Perm (⟨k, v⟩ :: t.entries) := by
  obtain ⟨h1, h2⟩ := hwf.consistent.insert ⟨k, v⟩ (bucketIndex hasher t.capacity k) rfl
  obtain ⟨h3, h4, _⟩ := perm_insert_spec t.entries _ ⟨k, v⟩ hwf.nodup hnot h2
  refine ⟨⟨h1, h3, ?_⟩, h2⟩
  show t.nsize + 1 = _
  rw [hwf.nsize_eq]
  have : (t.insertFront (bucketIndex hasher t.capacity k) k v).entries.length
      = t.entries.length + 1 := h4
  rw [this]
  push_cast
  rfl

theorem WF.update {hasher : K → Nat} {t : ChainHash K V} (hwf : WF hasher t) (k : K) (v : V)
    (pre post : List (ChainHashNode K V)) (n : ChainHashNode K V)
    (hc : t.array.getD (bucketIndex hasher t.capacity k) [] = pre ++ n :: post) (hn : n.key = k) :
    WF hasher
        { t with
          array := t.array.set (bucketIndex hasher t.capacity k) (pre ++ ⟨k, v⟩ :: post) } ∧
      ∃ R, t.entries.Perm (n :: R) ∧
        (t.array.set (bucketIndex hasher t.capacity k) (pre ++ ⟨k, v⟩ :: post)).flatten.Perm
          (⟨k, v⟩ :: R) := by
  obtain ⟨h1, R, h2, h3⟩ := hwf.consistent.replace (bucketIndex hasher t.capacity k)
    (hwf.bucket_in_range k) pre post n ⟨k, v⟩ hn.symm hc
  obtain ⟨h4, h5, _⟩ := perm_replace_spec t.entries _ R n ⟨k, v⟩ hwf.nodup h2 h3 hn.symm
  refine ⟨⟨h1, h4, ?_⟩, R, h2, h3⟩
  show t.nsize = _
  rw [hwf.nsize_eq]
  exact congrArg _ h5.symm

theorem insertFront_capacity (t : ChainHash K V) (idx : Nat) (k : K) (v : V) :
    (t.insertFront idx k v).capacity = t.capacity := rfl

theorem insertFront_nsize (t : ChainHash K V) (idx : Nat) (k : K) (v : V) :
    (t.insertFront idx k v).nsize = t.nsize + 1 := rfl

theorem set_spec [DecidableEq K] (hasher : K → Nat) (t : ChainHash K V) (hwf : WF hasher t)
    (k : K) (v : V) :
    WF hasher (t.set hasher k v).post ∧
      (∀ x, x ∈ (t.set hasher k v).post.entries ↔
        x = (⟨k, v⟩ : ChainHashNode K V) ∨ (x.key ≠ k ∧ x ∈ t.entries)) ∧
      (t.set hasher k v).post.nsize =
        (if t.contains hasher k = true then t.nsize else t.nsize + 1) := by
  rcases set_cases hasher t k v with ⟨pre, n, post, h1, h2, _, h4⟩ | ⟨hnot, hrest⟩
  · have hcont : t.contains hasher k = true := by
      unfold ChainHash.contains
      rw [containsLoop_iff, h1]
      simp [h2]
    obtain ⟨h5, R, h6, h7⟩ := hwf.update k v pre post n h1 h2
    obtain ⟨_, _, h8⟩ := perm_replace_spec t.entries _ R n ⟨k, v⟩ hwf.nodup h6 h7 h2.symm
    rw [h4, if_pos hcont]
    exact ⟨h5, h8, rfl⟩
  · have hcont : ¬ (t.contains hasher k = true) := by
      unfold ChainHash.contains
      rw [containsLoop_iff]
      exact hnot
    have hnot' : k ∉ t.entries.map (fun x => x.key) := fun h => hnot ((hwf.key_mem_chain_iff k).mpr h)
    obtain ⟨h5, h6⟩ := hwf.insertFront k v hnot'
    obtain ⟨_, _, h8⟩ := perm_insert_spec t.entries _ ⟨k, v⟩ hwf.nodup hnot' h6
    rw [if_neg hcont]
    rcases hrest with ⟨_, hset⟩ | ⟨_, t2, hre, hset⟩ | ⟨_, e, _, hset⟩
    · rw [hset]
      exact ⟨h5, h8, rfl⟩
    · rw [hset]
      rcases rehashing_spec hasher _ h5 with ⟨_, herr⟩ | ⟨t2', hok, hwf2, hperm, hn, _⟩
      · rw [herr] at hre
        cases hre
      · rw [hok] at hre
        cases hre
        exact ⟨hwf2, fun x => hperm.mem_iff.trans (h8 x), hn⟩
    · rw [hset]
      exact ⟨h5, h8, rfl⟩

theorem set_capacity [DecidableEq K] (hasher : K → Nat) (t : ChainHash K V) (hwf : WF hasher t)
    (k : K) (v : V) :
    (t.set hasher k v).post.capacity = t.capacity ∨
      (2 * t.capacity < 2147483648 ∧ (t.set hasher k v).post.capacity = 2 * t.capacity) ∨
      (2147483648 ≤ 2 * t.capacity ∧ wrapInt32 (t.capacity * 2) ≤ 0 ∧
        (t.set hasher k v).post.capacity = t.capacity + 1) := by
  rcases set_cases hasher t k v with ⟨pre, n, post, _, _, _, h4⟩ | ⟨hnot, hrest⟩
  · left
    rw [h4]
  · rcases hrest with ⟨_, hset⟩ | ⟨_, t2, hre, hset⟩ | ⟨_, e, _, hset⟩
    · left
      rw [hset]
      rfl
    · have hnot' : k ∉ t.entries.map (fun x => x.key) :=
        fun h => hnot ((hwf.key_mem_chain_iff k).mpr h)
      rw [hset]
      rcases rehashing_spec hasher _ (hwf.insertFront k v hnot').1
        with ⟨_, herr⟩ | ⟨t2', hok, _, _, _, hcap⟩
      · rw [herr] at hre
        cases hre
      · rw [hok] at hre
        cases hre
        rw [insertFront_capacity] at hcap
        right
        exact hcap
    · left
      rw [hset]
      rfl

theorem remove_spec [DecidableEq K] (hasher : K → Nat) (t : ChainHash K V) (hwf : WF hasher t)
    (k : K) :
    WF hasher (t.remove hasher k).post ∧
      (∀ x, x ∈ (t.remove hasher k).post.entries ↔ (x.key ≠ k ∧ x ∈ t.entries)) ∧
      (t.remove hasher k).ret = .ok (t.contains hasher k) ∧
      (t.remove hasher k).post.capacity = t.capacity ∧
      (t.contains hasher k = true → (t.remove hasher k).post.nsize = t.nsize - 1) ∧
      (t.contains hasher k = false → (t.remove hasher k).post = t) := by
  rcases remove_cases hasher t k with ⟨pre, n, post, h1, h2, h3⟩ | ⟨hnot, h3⟩
  · subst h2
    have hcont : t.contains hasher n.key = true := by
      unfold ChainHash.contains
      rw [containsLoop_iff, h1]
      simp
    obtain ⟨h4, h5⟩ := hwf.consistent.erase (bucketIndex hasher t.capacity n.key)
      (hwf.bucket_in_range n.key) pre post n h1
    obtain ⟨h6, h7, h8⟩ := perm_erase_spec t.entries _ n hwf.nodup h5
    have h9 : t.nsize - 1 =
        ((t.array.set (bucketIndex hasher t.capacity n.key) (pre ++ post)).flatten.length : Int) := by
      rw [hwf.nsize_eq, h7]
      push_cast
      omega
    rw [h3, hcont]
    exact ⟨⟨h4, h6, h9⟩, h8, rfl, rfl, fun _ => rfl, fun h => Bool.noConfusion h⟩
  · have hcont : t.contains hasher k = false := by
      rw [← Bool.not_eq_true]
      unfold ChainHash.contains
      rw [containsLoop_iff]
      exact hnot
    have hnot' : k ∉ t.entries.map (fun x => x.key) :=
      fun h => hnot ((hwf.key_mem_chain_iff k).mpr h)
    rw [h3, hcont]
    refine ⟨hwf, fun x => ?_, rfl, rfl, fun h => Bool.noConfusion h, fun _ => rfl⟩
    constructor
    · intro hx
      refine ⟨fun e => hnot' ?_, hx⟩
      rw [← e]
      exact List.mem_map.mpr ⟨x, hx, rfl⟩
    · exact fun h => h.2

theorem Reachable.wf [DecidableEq K] {hasher : K → Nat} {t : ChainHash K V}
    (h : Reachable hasher t) : WF hasher t := by
  induction h with
  | create c hc => exact WF.create hasher c hc
  | set t k v _ ih => exact (set_spec hasher t ih k v).1
  | remove t k _ ih => exact (remove_spec hasher t ih k).1

theorem ReachableInRange.reachable [DecidableEq K] {hasher : K → Nat} {t : ChainHash K V}
    (h : ReachableInRange hasher t) : Reachable hasher t := by
  induction h with
  | create c hc _ => exact Reachable.create c hc
  | set t k v _ _ _ ih => exact Reachable.set t k v ih
  | remove t k _ ih => exact Reachable.remove t k ih

theorem applyOp_spec [DecidableEq K] (hasher : K → Nat) (t : ChainHash K V) (hwf : WF hasher t)
    (op : Op K V) :
    WF hasher (t.applyOp hasher op) ∧
      ∀ x : ChainHashNode K V, op.writes ≠ some x.key →
        (x ∈ (t.applyOp hasher op).entries ↔ x ∈ t.entries) := by
  cases op with
  | set k v =>
    obtain ⟨h1, h2, _⟩ := set_spec hasher t hwf k v
    refine ⟨h1, fun x hx => ?_⟩
    have hne : x.key ≠ k := fun e => hx (by rw [e]; rfl)
    show x ∈ (t.set hasher k v).post.entries ↔ _
    rw [h2 x]
    constructor
    · rintro (rfl | ⟨_, h⟩)
      · exact absurd rfl hne
      · exact h
    · exact fun h => Or.inr ⟨hne, h⟩
  | remove k =>
    obtain ⟨h1, h2, _⟩ := remove_spec hasher t hwf k
    refine ⟨h1, fun x hx => ?_⟩
    have hne : x.key ≠ k := fun e => hx (by rw [e]; rfl)
    show x ∈ (t.remove hasher k).post.entries ↔ _
    rw [h2 x]
    exact ⟨fun h => h.2, fun h => ⟨hne, h⟩⟩
  | get k => exact ⟨hwf, fun _ _ => Iff.rfl⟩
  | contains k => exact ⟨hwf, fun _ _ => Iff.rfl⟩

theorem run_spec [DecidableEq K] (hasher : K → Nat) (t : ChainHash K V) (hwf : WF hasher t)
    (ops : List (Op K V)) :
    WF hasher (t.run hasher ops) ∧
      ∀ x : ChainHashNode K V, (∀ op ∈ ops, op.writes ≠ some x.key) →
        (x ∈ (t.run hasher ops).entries ↔ x ∈ t.entries) := by
  induction ops generalizing t with
  | nil => exact ⟨hwf, fun _ _ => Iff.rfl⟩
  | cons op ops ih =>
    obtain ⟨h1, h2⟩ := applyOp_spec hasher t hwf op
    obtain ⟨h3, h4⟩ := ih (t.applyOp hasher op) h1
    refine ⟨h3, fun x hx => ?_⟩
    have h5 := h4 x (fun op' hop => hx op' (List.mem_cons_of_mem _ hop))
    have h6 := h2 x (hx op (List.mem_cons_self _ _))
    exact h5.trans h6

theorem applyOp_reachable [DecidableEq K] (hasher : K → Nat) (t : ChainHash K V)
    (ht : Reachable hasher t) (op : Op K V) : Reachable hasher (t.applyOp hasher op) := by
  cases op with
  | set k v => exact Reachable.set t k v ht
  | remove k => exact Reachable.remove t k ht
  | get k => exact ht
  | contains k => exact ht

theorem run_reachable [DecidableEq K] (hasher : K → Nat) (t : ChainHash K V)
    (ht : Reachable hasher t) (ops : List (Op K V)) : Reachable hasher (t.run hasher ops) := by
  induction ops generalizing t with
  | nil => exact ht
  | cons op ops ih => exact ih (t.applyOp hasher op) (applyOp_reachable hasher t ht op)

theorem get_total [DecidableEq K] (hasher : K → Nat) (t : ChainHash K V) (k : K) :
    (∃ v, t.get hasher k = .ok v ∧
        (⟨k, v⟩ : ChainHashNode K V) ∈ t.array.getD (bucketIndex hasher t.capacity k) []) ∨
      (t.get hasher k = .error .out_of_range ∧ t.contains hasher k = false) := by
  rcases getLoop_cases k (t.array.getD (bucketIndex hasher t.capacity k) [])
    with ⟨v, h1, h2⟩ | ⟨h1, _⟩
  · exact Or.inl ⟨v, h1, h2⟩
  · exact Or.inr ⟨h1, (get_error_iff hasher t k).mp h1⟩

theorem observations_eq [DecidableEq K] (hasher : K → Nat) (t t' : ChainHash K V)
    (hwf : WF hasher t) (hwf' : WF hasher t') (h : ∀ x, x ∈ t.entries ↔ x ∈ t'.entries) (k : K) :
    t.contains hasher k = t'.contains hasher k ∧ t.get hasher k = t'.get hasher k := by
  have hc : t.contains hasher k = t'.contains hasher k := by
    rw [Bool.eq_iff_iff, hwf.contains_iff, hwf'.contains_iff]
    simp only [List.mem_map]
    constructor
    · rintro ⟨x, hx, e⟩
      exact ⟨x, (h x).mp hx, e⟩
    · rintro ⟨x, hx, e⟩
      exact ⟨x, (h x).mpr hx, e⟩
  refine ⟨hc, ?_⟩
  rcases get_total hasher t k with ⟨v, h1, _⟩ | ⟨h1, h2⟩
  · rw [h1]
    exact ((hwf'.get_ok_iff k v).mpr ((h _).mp ((hwf.get_ok_iff k v).mp h1))).symm
  · rw [h1]
    rw [hc] at h2
    exact ((get_error_iff hasher t' k).mpr h2).symm

theorem setNoRehash_spec [DecidableEq K] (hasher : K → Nat) (t : ChainHash K V)
    (hwf : WF hasher t) (k : K) (v : V) :
    WF hasher (t.setNoRehash hasher k v).post ∧
      (∀ x, x ∈ (t.setNoRehash hasher k v).post.entries ↔
        x = (⟨k, v⟩ : ChainHashNode K V) ∨ (x.key ≠ k ∧ x ∈ t.entries)) ∧
      (t.setNoRehash hasher k v).post.nsize =
        (if t.contains hasher k = true then t.nsize else t.nsize + 1) := by
  cases hs : setLoop k v (t.array.getD (bucketIndex hasher t.capacity k) []) with
  | some chain =>
    obtain ⟨pre, n, post, h1, h2, _, h4⟩ := setLoop_some k v _ _ hs
    have hcont : t.contains hasher k = true := by
      unfold ChainHash.contains
      rw [containsLoop_iff, h1]
      simp [h2]
    obtain ⟨h5, R, h6, h7⟩ := hwf.update k v pre post n h1 h2
    obtain ⟨_, _, h8⟩ := perm_replace_spec t.entries _ R n ⟨k, v⟩ hwf.nodup h6 h7 h2.symm
    unfold ChainHash.setNoRehash
    simp only [hs, h4]
    rw [if_pos hcont]
    exact ⟨h5, h8, rfl⟩
  | none =>
    have hnot := (setLoop_none_iff k v _).mp hs
    have hcont : ¬ (t.contains hasher k = true) := by
      unfold ChainHash.contains
      rw [containsLoop_iff]
      exact hnot
    have hnot' : k ∉ t.entries.map (fun x => x.key) :=
      fun h => hnot ((hwf.key_mem_chain_iff k).mpr h)
    obtain ⟨h5, h6⟩ := hwf.insertFront k v hnot'
    obtain ⟨_, _, h8⟩ := perm_insert_spec t.entries _ ⟨k, v⟩ hwf.nodup hnot' h6
    unfold ChainHash.setNoRehash
    simp only [hs]
    rw [if_neg hcont]
    exact ⟨h5, h8, rfl⟩

theorem runSets_simulation [DecidableEq K] (hasher : K → Nat) (kvs : List (K × V))
    (t t' : ChainHash K V) (hwf : WF hasher t) (hwf' : WF hasher t')
    (h : ∀ x, x ∈ t.entries ↔ x ∈ t'.entries) (hn : t.nsize = t'.nsize) :
    WF hasher (t.runSets hasher kvs) ∧ WF hasher (t'.runSetsNoRehash hasher kvs) ∧
      (∀ x, x ∈ (t.runSets hasher kvs).entries ↔ x ∈ (t'.runSetsNoRehash hasher kvs).entries) ∧
      (t.runSets hasher kvs).nsize = (t'.runSetsNoRehash hasher kvs).nsize := by
  induction kvs generalizing t t' with
  | nil => exact ⟨hwf, hwf', h, hn⟩
  | cons kv kvs ih =>
    obtain ⟨a1, a2, a3⟩ := set_spec hasher t hwf kv.1 kv.2
    obtain ⟨b1, b2, b3⟩ := setNoRehash_spec hasher t' hwf' kv.1 kv.2
    apply ih _ _ a1 b1
    · intro x
      rw [a2 x, b2 x, h x]
    · rw [a3, b3, (observations_eq hasher t t' hwf hwf' h kv.1).1, hn]

/-! ### The claims -/

/-- Round trip below the overflow.  On a table reached from the constructor
by `set` and `remove` calls without overflow of an `int`, `get(k)` right after
`set(k, v)` returns `v`, whether or not the `set` rehashed, and it still
returns `v` after any further sequence of calls none of which is a `set` or
`remove` on `k`, as long as `bucket_count()` is at most 2^30 at the end (no
call has then evaluated `capacity * 2` at a capacity of 2^30 or more). -/
theorem round_trip_in_range [DecidableEq K] (hasher : K → Nat) (t : ChainHash K V)
    (ht : ReachableInRange hasher t) (k : K) (v : V) (ops : List (Op K V))
    (hops : ∀ op ∈ ops, op.writes ≠ some k)
    (_ : ((t.set hasher k v).post.run hasher ops).bucket_count ≤ 1073741824) :
    (t.set hasher k v).post.get hasher k = .ok v ∧
      ((t.set hasher k v).post.run hasher ops).get hasher k = .ok v := by
  obtain ⟨h1, h2, _⟩ := set_spec hasher t ht.reachable.wf k v
  have hmem : (⟨k, v⟩ : ChainHashNode K V) ∈ (t.set hasher k v).post.entries :=
    (h2 _).mpr (Or.inl rfl)
  obtain ⟨h3, h4⟩ := run_spec hasher _ h1 ops
  exact ⟨(h1.get_ok_iff k v).mpr hmem, (h3.get_ok_iff k v).mpr ((h4 ⟨k, v⟩ hops).mpr hmem)⟩

/-- Entry conservation under resize, below the overflow.  For every sequence
of `set` calls on a freshly constructed table that leaves at most 2^30
buckets, `get` and `contains` of every key, and `size()`, are the same as on
the table run with the rehash step disabled. -/
theorem entry_conservation_in_range [DecidableEq K] (hasher : K → Nat) (initialCapacity : Int)
    (hcap : IsInt32 initialCapacity) (kvs : List (K × V))
    (_ : ((ChainHash.create initialCapacity : ChainHash K V).runSets hasher kvs).bucket_count
      ≤ 1073741824) (key : K) :
    ((ChainHash.create initialCapacity : ChainHash K V).runSets hasher kvs).get hasher key =
        ((ChainHash.create initialCapacity : ChainHash K V).runSetsNoRehash hasher kvs).get
          hasher key ∧
      ((ChainHash.create initialCapacity : ChainHash K V).runSets hasher kvs).contains hasher key =
        ((ChainHash.create initialCapacity : ChainHash K V).runSetsNoRehash hasher kvs).contains
          hasher key ∧
      ((ChainHash.create initialCapacity : ChainHash K V).runSets hasher kvs).size =
        ((ChainHash.create initialCapacity : ChainHash K V).runSetsNoRehash hasher kvs).size := by
  have hwf : WF hasher (ChainHash.create initialCapacity : ChainHash K V) :=
    WF.create hasher initialCapacity hcap
  obtain ⟨h1, h2, h3, h4⟩ := runSets_simulation hasher kvs _ _ hwf hwf (fun _ => Iff.rfl) rfl
  obtain ⟨h5, h6⟩ := observations_eq hasher _ _ h1 h2 h3 key
  exact ⟨h6, h5, h4⟩

/-- Overwrite below the overflow.  On a table reached without overflow of an
`int`, when `set(k, v1)` leaves at most 2^30 buckets, after `set(k, v1)` and
then `set(k, v2)` the size is what it was after the first call and `get(k)`
returns `v2`. -/
theorem overwrite_in_range [DecidableEq K] (hasher : K → Nat) (t : ChainHash K V)
    (ht : ReachableInRange hasher t) (k : K) (v1 v2 : V)
    (_ : (t.set hasher k v1).post.bucket_count ≤ 1073741824) :
    ((t.set hasher k v1).post.set hasher k v2).post.size = (t.set hasher k v1).post.size ∧
      ((t.set hasher k v1).post.set hasher k v2).post.get hasher k = .ok v2 := by
  obtain ⟨h1, h2, _⟩ := set_spec hasher t ht.reachable.wf k v1
  obtain ⟨h3, h4, h5⟩ := set_spec hasher _ h1 k v2
  have hc : (t.set hasher k v1).post.contains hasher k = true := by
    rw [h1.contains_iff, List.mem_map]
    exact ⟨⟨k, v1⟩, (h2 _).mpr (Or.inl rfl), rfl⟩
  refine ⟨?_, (h3.get_ok_iff k v2).mpr ((h4 _).mpr (Or.inl rfl))⟩
  show ((t.set hasher k v1).post.set hasher k v2).post.nsize = (t.set hasher k v1).post.nsize
  rw [h5, if_pos hc]

/-- C5 (not found).  `get` throws the not-found error exactly when
`contains(key)` is false; when `contains(key)` is true it returns the value
of a node stored in the chain of the key, not a default; and on a freshly
constructed table, whatever the capacity asked for, `get` of any key throws. -/
theorem C5_get_not_found [DecidableEq K] (hasher : K → Nat) (t : ChainHash K V) (key : K) :
    (t.get hasher key = .error .out_of_range ↔ t.contains hasher key = false) ∧
      (t.contains hasher key = true →
        ∃ v, t.get hasher key = .ok v ∧
          (⟨key, v⟩ : ChainHashNode K V) ∈
            t.array.getD (bucketIndex hasher t.capacity key) []) ∧
      (∀ initialCapacity : Int,
        (ChainHash.create initialCapacity : ChainHash K V).get hasher key
          = .error .out_of_range) := by
  refine ⟨get_error_iff hasher t key, fun hc => ?_, fun c => ?_⟩
  · rcases get_total hasher t key with h | ⟨_, h2⟩
    · exact h
    · rw [hc] at h2
      cases h2
  · rw [get_error_iff, ← Bool.not_eq_true]
    unfold ChainHash.contains
    rw [containsLoop_iff, List.mem_map]
    rintro ⟨x, hx, _⟩
    have hmem : x ∈ (ChainHash.create c : ChainHash K V).entries := by
      unfold ChainHash.entries
      rw [List.mem_flatten]
      rcases getD_mem_or_default (ChainHash.create c : ChainHash K V).array
        (bucketIndex hasher (ChainHash.create c : ChainHash K V).capacity key) []
        with h | ⟨_, h⟩
      · exact ⟨_, h, hx⟩
      · rw [h] at hx
        cases hx
    rw [create_entries] at hmem
    cases hmem

theorem visited_eq (chain : List (ChainHashNode K V)) (fuel : Nat) (h : chain.length ≤ fuel) :
    visited fuel (⟨chain⟩ : ChainHashListIterator K V) = chain := by
  induction chain generalizing fuel with
  | nil => cases fuel <;> rfl
  | cons a chain ih =>
    cases fuel with
    | zero => simp at h
    | succ fuel =>
      have h' : chain.length ≤ fuel := by simpa using h
      simp only [visited, ChainHashListIterator.notAtEnd, ChainHashListIterator.deref,
        ChainHashListIterator.next, List.isEmpty_cons, Bool.not_false, if_true, List.head?_cons,
        List.tail_cons]
      rw [ih fuel h']

theorem applyOp_capacity [DecidableEq K] (hasher : K → Nat) (t : ChainHash K V)
    (hwf : WF hasher t) (op : Op K V) :
    t.capacity ≤ (t.applyOp hasher op).capacity := by
  cases op with
  | set k v =>
    have h0 := hwf.consistent.cap_pos
    show t.capacity ≤ (t.set hasher k v).post.capacity
    rcases set_capacity hasher t hwf k v with h | ⟨_, h⟩ | ⟨_, _, h⟩ <;> omega
  | remove k => exact le_of_eq (remove_spec hasher t hwf k).2.2.2.1.symm
  | get k => exact le_refl _
  | contains k => exact le_refl _

theorem run_capacity [DecidableEq K] (hasher : K → Nat) (t : ChainHash K V)
    (hwf : WF hasher t) (ops : List (Op K V)) :
    t.capacity ≤ (t.run hasher ops).capacity := by
  induction ops generalizing t with
  | nil => exact le_refl _
  | cons op ops ih =>
    exact le_trans (applyOp_capacity hasher t hwf op)
      (ih (t.applyOp hasher op) (applyOp_spec hasher t hwf op).1)

theorem set_insert_without_rehash [DecidableEq K] (hasher : K → Nat) (t : ChainHash K V)
    (hwf : WF hasher t) (k : K) (v : V) (hnew : t.contains hasher k = false)
    (hret : (t.set hasher k v).ret = .ok ())
    (hcap : (t.set hasher k v).post.capacity = t.capacity) :
    (t.set hasher k v).post = t.insertFront (bucketIndex hasher t.capacity k) k v ∧
      (t.insertFront (bucketIndex hasher t.capacity k) k v).needsRehash
        (bucketIndex hasher t.capacity k) = false := by
  rcases set_cases hasher t k v with ⟨pre, n, post, h1, h2, _, _⟩ | ⟨hnot, hrest⟩
  · have hcont : t.contains hasher k = true := by
      unfold ChainHash.contains
      rw [containsLoop_iff, h1]
      simp [h2]
    rw [hcont] at hnew
    cases hnew
  · rcases hrest with ⟨hr, hset⟩ | ⟨_, t2, hre, hset⟩ | ⟨_, e, _, hset⟩
    · rw [hset]
      exact ⟨rfl, hr⟩
    · have hnot' : k ∉ t.entries.map (fun x => x.key) :=
        fun h => hnot ((hwf.key_mem_chain_iff k).mpr h)
      have h0 := hwf.consistent.cap_pos
      rw [hset] at hcap
      have hcap' : t2.capacity = t.capacity := hcap
      rcases rehashing_spec hasher _ (hwf.insertFront k v hnot').1
        with ⟨_, herr⟩ | ⟨t2', hok, _, _, _, hc⟩
      · rw [herr] at hre
        cases hre
      · rw [hok] at hre
        cases hre
        rw [insertFront_capacity] at hc
        omega
    · rw [hset] at hret
      cases hret

theorem needsRehash_false (t : ChainHash K V) (idx : Nat) (h : t.needsRehash idx = false) :
    t.bucket_sizes.getD idx 0 ≤ 3 ∧ dyadicGt t.fillFactor maxFillFactor = false := by
  unfold ChainHash.needsRehash at h
  rw [Bool.or_eq_false_iff] at h
  refine ⟨?_, h.2⟩
  have h1 := h.1
  rw [decide_eq_false_iff_not] at h1
  unfold maxColision at h1
  omega

/-- C8 fails as stated.  First, with a constant hash and initial capacity 2
the fourth `set` of the keys 0, 1, 2, 3 finds 4 entries in bucket 0, rehashes
(capacity 2 becomes 4) and returns with bucket 0 still holding 4 entries.
Second, with the identity hash the keys 0, 16, 32, 48 stay together in bucket
0 through the rehash of the fourth insertion, and the following `set(1, 0)`
returns normally without rehashing (capacity 4 before and after) while bucket
0 still holds 4 entries. -/
theorem C8_load_invariant_counterexample :
    (Reachable (fun _ => 0) ((ChainHash.create 2 : ChainHash Nat Nat).runSets (fun _ => 0)
        [(0, 0), (1, 0), (2, 0)]) ∧
      (((ChainHash.create 2 : ChainHash Nat Nat).runSets (fun _ => 0)
        [(0, 0), (1, 0), (2, 0)]).set (fun _ => 0) 3 0).ret = .ok () ∧
      ((ChainHash.create 2 : ChainHash Nat Nat).runSets (fun _ => 0)
        [(0, 0), (1, 0), (2, 0)]).bucket_count = 2 ∧
      (((ChainHash.create 2 : ChainHash Nat Nat).runSets (fun _ => 0)
        [(0, 0), (1, 0), (2, 0)]).set (fun _ => 0) 3 0).post.bucket_count = 4 ∧
      (((ChainHash.create 2 : ChainHash Nat Nat).runSets (fun _ => 0)
        [(0, 0), (1, 0), (2, 0)]).set (fun _ => 0) 3 0).post.bucket_size 0 = .ok 4) ∧
    (Reachable (fun n => n) ((ChainHash.create 2 : ChainHash Nat Nat).runSets (fun n => n)
        [(0, 0), (16, 0), (32, 0), (48, 0)]) ∧
      (((ChainHash.create 2 : ChainHash Nat Nat).runSets (fun n => n)
        [(0, 0), (16, 0), (32, 0), (48, 0)]).set (fun n => n) 1 0).ret = .ok () ∧
      ((ChainHash.create 2 : ChainHash Nat Nat).runSets (fun n => n)
        [(0, 0), (16, 0), (32, 0), (48, 0)]).bucket_count = 4 ∧
      (((ChainHash.create 2 : ChainHash Nat Nat).runSets (fun n => n)
        [(0, 0), (16, 0), (32, 0), (48, 0)]).set (fun n => n) 1 0).post.bucket_count = 4 ∧
      (((ChainHash.create 2 : ChainHash Nat Nat).runSets (fun n => n)
        [(0, 0), (16, 0), (32, 0), (48, 0)]).set (fun n => n) 1 0).post.bucket_size 0 = .ok 4) ∧
    ¬ ((4 : Int) ≤ 3) :=
  ⟨⟨Reachable.set _ 2 0 (Reachable.set _ 1 0 (Reachable.set _ 0 0
      (Reachable.create 2 ⟨by decide, by decide⟩))), rfl, rfl, rfl, rfl⟩,
    ⟨Reachable.set _ 48 0 (Reachable.set _ 32 0 (Reachable.set _ 16 0 (Reachable.set _ 0 0
      (Reachable.create 2 ⟨by decide, by decide⟩)))), rfl, rfl, rfl, rfl⟩,
    by decide⟩

/-- C8 as amended.  When `set(k, v)` on a reachable table inserts a key that
was not present and returns normally without having rehashed (`bucket_count()`
unchanged), the bucket the key was written to holds at most 3 entries. -/
theorem C8_load_after_insert [DecidableEq K] (hasher : K → Nat) (t : ChainHash K V)
    (ht : Reachable hasher t) (k : K) (v : V) (hnew : t.contains hasher k = false)
    (hret : (t.set hasher k v).ret = .ok ())
    (hcap : (t.set hasher k v).post.bucket_count = t.bucket_count) :
    ∃ n, (t.set hasher k v).post.bucket_size ((bucketIndex hasher t.capacity k : Nat) : Int)
        = .ok n ∧ n ≤ 3 := by
  have hwf := ht.wf
  obtain ⟨h1, h2⟩ := set_insert_without_rehash hasher t hwf k v hnew hret hcap
  have h3 := (needsRehash_false _ _ h2).1
  have hlt := bucketIndex_lt hasher t.capacity k hwf.consistent.cap_pos hwf.consistent.cap_lt
  have hin : ¬ (((bucketIndex hasher t.capacity k : Nat) : Int) < 0 ∨
      ((bucketIndex hasher t.capacity k : Nat) : Int) ≥
        (t.insertFront (bucketIndex hasher t.capacity k) k v).capacity) := by
    rw [insertFront_capacity]
    omega
  refine ⟨_, ?_, h3⟩
  rw [h1]
  unfold ChainHash.bucket_size
  rw [if_neg hin, Int.toNat_ofNat]

/-- Witness of C8 as amended: inserting key 1 into the table of capacity 4
that holds key 0. -/
theorem C8_load_after_insert_witness :
    ∃ n, (((ChainHash.create 4 : ChainHash Nat Nat).set (fun n => n) 0 0).post.set (fun n => n) 1
        0).post.bucket_size ((bucketIndex (fun n => n)
          ((ChainHash.create 4 : ChainHash Nat Nat).set (fun n => n) 0 0).post.capacity 1 : Nat)
            : Int) = .ok n ∧ n ≤ 3 :=
  C8_load_after_insert (fun n => n) _
    (Reachable.set _ 0 0 (Reachable.create 4 ⟨by decide, by decide⟩)) 1 0 rfl rfl rfl

theorem set_ret_ok [DecidableEq K] (hasher : K → Nat) (t : ChainHash K V) (hwf : WF hasher t)
    (k : K) (v : V) (hcap : t.capacity ≠ 2147483647) : (t.set hasher k v).ret = .ok () := by
  rcases set_cases hasher t k v with ⟨pre, n, post, _, _, _, h4⟩ | ⟨hnot, hrest⟩
  · rw [h4]
  · rcases hrest with ⟨_, hset⟩ | ⟨_, t2, _, hset⟩ | ⟨_, e, hre, _⟩
    · rw [hset]
    · rw [hset]
    · have hnot' : k ∉ t.entries.map (fun x => x.key) :=
        fun h => hnot ((hwf.key_mem_chain_iff k).mpr h)
      rcases rehashing_spec hasher _ (hwf.insertFront k v hnot').1
        with ⟨hc, _⟩ | ⟨t2', hok, _⟩
      · exact absurd hc hcap
      · rw [hok] at hre
        cases hre

theorem fill_two_of_two :
    dyadicGt (doubleDiv ((2 : Nat) : Int).toNat (2 : Int).toNat) maxFillFactor = true := by
  decide

theorem two_buckets_need_rehash (hasher : K → Nat) (t : ChainHash K V) (hwf : WF hasher t)
    (hcap : t.capacity = 2) (hsize : 4 ≤ t.nsize) (idx : Nat) (hidx : idx < 2)
    (hne : t.array.getD idx [] ≠ []) : t.needsRehash idx = true := by
  have hlen : t.array.length = 2 := by
    rw [hwf.consistent.array_len, hcap]
    rfl
  obtain ⟨c0, c1, harr⟩ := List.length_eq_two.mp hlen
  have hsz := hwf.consistent.sizes
  have hu := hwf.consistent.used
  have hn := hwf.nsize_eq
  unfold ChainHash.entries at hn
  rw [harr] at hsz hu hn hne
  simp only [List.flatten_cons, List.flatten_nil, List.append_nil, List.length_append] at hn
  have htot : 4 ≤ c0.length + c1.length := by omega
  unfold ChainHash.needsRehash ChainHash.fillFactor maxColision
  rw [Bool.or_eq_true, decide_eq_true_iff, hsz, hu, hcap]
  by_cases hbig : (List.map (fun chain : List (ChainHashNode K V) => (chain.length : Int))
      [c0, c1]).getD idx 0 > 3
  · exact Or.inl hbig
  · right
    have hboth : c0 ≠ [] ∧ c1 ≠ [] := by
      interval_cases idx
      · simp only [List.map_cons, List.map_nil, List.getD_cons_zero] at hbig
        simp only [List.getD_cons_zero] at hne
        refine ⟨hne, fun h1 => ?_⟩
        rw [h1] at htot
        simp only [List.length_nil] at htot
        omega
      · simp only [List.map_cons, List.map_nil, List.getD_cons_succ, List.getD_cons_zero] at hbig
        simp only [List.getD_cons_succ, List.getD_cons_zero] at hne
        refine ⟨fun h0 => ?_, hne⟩
        rw [h0] at htot
        simp only [List.length_nil] at htot
        omega
    obtain ⟨x, c0', rfl⟩ := List.exists_cons_of_ne_nil hboth.1
    obtain ⟨y, c1', rfl⟩ := List.exists_cons_of_ne_nil hboth.2
    have hcount : List.countP (fun chain : List (ChainHashNode K V) => !chain.isEmpty)
        [x :: c0', y :: c1'] = 2 := rfl
    rw [hcount]
    exact fill_two_of_two

theorem contains_false_of_keys [DecidableEq K] (hasher : K → Nat) (t : ChainHash K V)
    (hwf : WF hasher t) (k : K) (h : ∀ x ∈ t.entries, x.key ≠ k) :
    t.contains hasher k = false := by
  rw [← Bool.not_eq_true, hwf.contains_iff, List.mem_map]
  rintro ⟨x, hx, e⟩
  exact h x hx e

/-- C9 (four keys into capacity 2).  For every hash function and four
pairwise distinct keys inserted by `set` into a table constructed with
`initialCapacity = 2`, after the fourth insert `bucket_count()` is at least 4
and `get` of each key returns the value it was inserted with. -/
theorem C9_four_keys [DecidableEq K] (hasher : K → Nat) (a b c d : K) (va vb vc vd : V)
    (hab : a ≠ b) (hac : a ≠ c) (had : a ≠ d) (hbc : b ≠ c) (hbd : b ≠ d) (hcd : c ≠ d) :
    4 ≤ ((ChainHash.create 2 : ChainHash K V).runSets hasher
        [(a, va), (b, vb), (c, vc), (d, vd)]).bucket_count ∧
      ((ChainHash.create 2 : ChainHash K V).runSets hasher
        [(a, va), (b, vb), (c, vc), (d, vd)]).get hasher a = .ok va ∧
      ((ChainHash.create 2 : ChainHash K V).runSets hasher
        [(a, va), (b, vb), (c, vc), (d, vd)]).get hasher b = .ok vb ∧
      ((ChainHash.create 2 : ChainHash K V).runSets hasher
        [(a, va), (b, vb), (c, vc), (d, vd)]).get hasher c = .ok vc ∧
      ((ChainHash.create 2 : ChainHash K V).runSets hasher
        [(a, va), (b, vb), (c, vc), (d, vd)]).get hasher d = .ok vd := by
  simp only [ChainHash.runSets, List.foldl_cons, List.foldl_nil, ChainHash.bucket_count]
  have w0 : WF hasher (ChainHash.create 2 : ChainHash K V) :=
    WF.create hasher 2 ⟨by decide, by decide⟩
  have m0 : ∀ x ∈ (ChainHash.create 2 : ChainHash K V).entries, False := by
    intro x hx
    rw [create_entries] at hx
    cases hx
  have p0 : (ChainHash.create 2 : ChainHash K V).capacity = 2 := rfl
  have s0 : (ChainHash.create 2 : ChainHash K V).nsize = 0 := rfl
  generalize (ChainHash.create 2 : ChainHash K V) = t0 at *
  obtain ⟨w1, e1, n1⟩ := set_spec hasher t0 w0 a va
  have p1 := set_capacity hasher t0 w0 a va
  rw [contains_false_of_keys hasher t0 w0 a (fun x hx => (m0 x hx).elim)] at n1
  generalize (t0.set hasher a va).post = t1 at *
  have k1 : ∀ x ∈ t1.entries, x.key = a := by
    intro x hx
    rcases (e1 x).mp hx with rfl | ⟨_, h⟩
    · rfl
    · exact (m0 x h).elim
  obtain ⟨w2, e2, n2⟩ := set_spec hasher t1 w1 b vb
  have p2 := set_capacity hasher t1 w1 b vb
  rw [contains_false_of_keys hasher t1 w1 b (fun x hx e => hab ((k1 x hx).symm.trans e))] at n2
  generalize (t1.set hasher b vb).post = t2 at *
  have k2 : ∀ x ∈ t2.entries, x.key = b ∨ x.key = a := by
    intro x hx
    rcases (e2 x).mp hx with rfl | ⟨_, h⟩
    · exact Or.inl rfl
    · exact Or.inr (k1 x h)
  obtain ⟨w3, e3, n3⟩ := set_spec hasher t2 w2 c vc
  have p3 := set_capacity hasher t2 w2 c vc
  have c2 : t2.contains hasher c = false := by
    apply contains_false_of_keys hasher t2 w2
    intro x hx e
    rcases k2 x hx with h | h
    · exact hbc (h.symm.trans e)
    · exact hac (h.symm.trans e)
  rw [c2] at n3
  generalize (t2.set hasher c vc).post = t3 at *
  have k3 : ∀ x ∈ t3.entries, x.key = c ∨ x.key = b ∨ x.key = a := by
    intro x hx
    rcases (e3 x).mp hx with rfl | ⟨_, h⟩
    · exact Or.inl rfl
    · exact Or.inr (k2 x h)
  obtain ⟨w4, e4, n4⟩ := set_spec hasher t3 w3 d vd
  have p4 := set_capacity hasher t3 w3 d vd
  have c3 : t3.contains hasher d = false := by
    apply contains_false_of_keys hasher t3 w3
    intro x hx e
    rcases k3 x hx with h | h | h
    · exact hcd (h.symm.trans e)
    · exact hbd (h.symm.trans e)
    · exact had (h.symm.trans e)
  rw [c3] at n4
  have ga : (⟨a, va⟩ : ChainHashNode K V) ∈ t1.entries := (e1 _).mpr (Or.inl rfl)
  have ga2 : (⟨a, va⟩ : ChainHashNode K V) ∈ t2.entries := (e2 _).mpr (Or.inr ⟨hab, ga⟩)
  have gb2 : (⟨b, vb⟩ : ChainHashNode K V) ∈ t2.entries := (e2 _).mpr (Or.inl rfl)
  have ga3 : (⟨a, va⟩ : ChainHashNode K V) ∈ t3.entries := (e3 _).mpr (Or.inr ⟨hac, ga2⟩)
  have gb3 : (⟨b, vb⟩ : ChainHashNode K V) ∈ t3.entries := (e3 _).mpr (Or.inr ⟨hbc, gb2⟩)
  have gc3 : (⟨c, vc⟩ : ChainHashNode K V) ∈ t3.entries := (e3 _).mpr (Or.inl rfl)
  have gd4 : (⟨d, vd⟩ : ChainHashNode K V) ∈ (t3.set hasher d vd).post.entries :=
    (e4 _).mpr (Or.inl rfl)
  refine ⟨?_, (w4.get_ok_iff a va).mpr ((e4 _).mpr (Or.inr ⟨had, ga3⟩)),
    (w4.get_ok_iff b vb).mpr ((e4 _).mpr (Or.inr ⟨hbd, gb3⟩)),
    (w4.get_ok_iff c vc).mpr ((e4 _).mpr (Or.inr ⟨hcd, gc3⟩)),
    (w4.get_ok_iff d vd).mpr gd4⟩
  by_contra hlt
  have q3 : t3.capacity = 2 := by
    simp only [if_false, Bool.false_eq_true] at *
    omega
  have q4 : (t3.set hasher d vd).post.capacity = t3.capacity := by
    simp only [if_false, Bool.false_eq_true] at *
    omega
  have hret := set_ret_ok hasher t3 w3 d vd (by omega)
  obtain ⟨h1, h2⟩ := set_insert_without_rehash hasher t3 w3 d vd c3 hret q4
  have hidx : bucketIndex hasher t3.capacity d < 2 := by
    have := bucketIndex_lt hasher t3.capacity d w3.consistent.cap_pos w3.consistent.cap_lt
    omega
  have hchain := (w4.mem_chain_iff ⟨d, vd⟩).mpr gd4
  rw [q4] at hchain
  have hne : (t3.set hasher d vd).post.array.getD (bucketIndex hasher t3.capacity d) [] ≠ [] :=
    List.ne_nil_of_mem hchain
  have hneed := two_buckets_need_rehash hasher _ w4 (q4.trans q3)
    (by simp only [if_false, Bool.false_eq_true] at n1 n2 n3 n4; omega)
    (bucketIndex hasher t3.capacity d) hidx hne
  rw [h1] at hneed
  rw [h2] at hneed
  cases hneed

/-- Witness of C9: the keys 1, 2, 3, 4 with the identity hash. -/
theorem C9_four_keys_witness :
    4 ≤ ((ChainHash.create 2 : ChainHash Nat Nat).runSets (fun n => n)
        [(1, 10), (2, 20), (3, 30), (4, 40)]).bucket_count ∧
      ((ChainHash.create 2 : ChainHash Nat Nat).runSets (fun n => n)
        [(1, 10), (2, 20), (3, 30), (4, 40)]).get (fun n => n) 1 = .ok 10 ∧
      ((ChainHash.create 2 : ChainHash Nat Nat).runSets (fun n => n)
        [(1, 10), (2, 20), (3, 30), (4, 40)]).get (fun n => n) 2 = .ok 20 ∧
      ((ChainHash.create 2 : ChainHash Nat Nat).runSets (fun n => n)
        [(1, 10), (2, 20), (3, 30), (4, 40)]).get (fun n => n) 3 = .ok 30 ∧
      ((ChainHash.create 2 : ChainHash Nat Nat).runSets (fun n => n)
        [(1, 10), (2, 20), (3, 30), (4, 40)]).get (fun n => n) 4 = .ok 40 :=
  C9_four_keys (fun n => n) 1 2 3 4 10 20 30 40 (by decide) (by decide) (by decide) (by decide)
    (by decide) (by decide)

theorem map_update_of_keys_ne [DecidableEq K] (k : K) (v : V) (l : List (ChainHashNode K V))
    (h : ∀ x ∈ l, x.key ≠ k) :
    l.map (fun x => if x.key = k then (⟨k, v⟩ : ChainHashNode K V) else x) = l := by
  induction l with
  | nil => rfl
  | cons a l ih =>
    rw [List.map_cons, ih (fun x hx => h x (List.mem_cons_of_mem _ hx)),
      if_neg (h a (List.mem_cons_self _ _))]

theorem map_update_chains_of_keys_ne [DecidableEq K] (k : K) (v : V)
    (P : List (List (ChainHashNode K V))) (h : ∀ x ∈ P.flatten, x.key ≠ k) :
    P.map (List.map (fun x => if x.key = k then (⟨k, v⟩ : ChainHashNode K V) else x)) = P := by
  induction P with
  | nil => rfl
  | cons c P ih =>
    rw [List.map_cons, ih (fun x hx => h x (by simp [hx])),
      map_update_of_keys_ne k v c (fun x hx => h x (by simp [hx]))]

theorem update_array_eq_map [DecidableEq K] (A : List (List (ChainHashNode K V))) (idx : Nat)
    (hlt : idx < A.length) (pre post : List (ChainHashNode K V)) (n : ChainHashNode K V) (k : K)
    (v : V) (hc : A.getD idx [] = pre ++ n :: post) (hn : n.key = k)
    (hnd : (A.flatten.map (fun x => x.key)).Nodup) :
    A.set idx (pre ++ ⟨k, v⟩ :: post) =
      A.map (List.map (fun x => if x.key = k then (⟨k, v⟩ : ChainHashNode K V) else x)) := by
  obtain ⟨P, c, Q, rfl, -, hget, hset⟩ := exists_split_at A [] idx hlt
  rw [hget] at hc
  subst hc
  have hperm : (P ++ (pre ++ n :: post) :: Q).flatten.Perm
      (n :: (P.flatten ++ (pre ++ (post ++ Q.flatten)))) := by
    simp only [List.flatten_append, List.flatten_cons, List.append_assoc, List.cons_append]
    rw [← List.append_assoc]
    exact List.perm_middle.trans (by rw [List.append_assoc])
  have hnd' := (hperm.map (fun x => x.key)).nodup_iff.mp hnd
  rw [List.map_cons, List.nodup_cons, hn] at hnd'
  have hrest : ∀ x ∈ P.flatten ++ (pre ++ (post ++ Q.flatten)), x.key ≠ k := by
    intro x hx e
    apply hnd'.1
    rw [← e]
    exact List.mem_map.mpr ⟨x, hx, rfl⟩
  rw [hset, List.map_append, List.map_cons, List.map_append, List.map_cons,
    map_update_chains_of_keys_ne k v P (fun x hx => hrest x (by simp [hx])),
    map_update_chains_of_keys_ne k v Q (fun x hx => hrest x (by simp [hx])),
    map_update_of_keys_ne k v pre (fun x hx => hrest x (by simp [hx])),
    map_update_of_keys_ne k v post (fun x hx => hrest x (by simp [hx])), if_pos hn]

theorem map_set_of_eq {α β : Type} (f : α → β) (l : List α) (i : Nat) (a d : α)
    (h : f a = f (l.getD i d)) : (l.set i a).map f = l.map f := by
  induction l generalizing i with
  | nil => rfl
  | cons x l ih =>
    cases i with
    | zero =>
      rw [List.set_cons_zero, List.map_cons, List.map_cons, h]
      rfl
    | succ i =>
      rw [List.set_cons_succ, List.map_cons, List.map_cons, ih i (by simpa using h)]

/-- C10 (update in place).  When `set(k, v)` is called on a table that already
contains `k`, in whatever state the object is, the call returns normally and
changes nothing but the value of the first node carrying `k` in the chain of
`k`: `size()`, `bucket_count()`, every `bucket_size(i)`, the counter array,
`usedBuckets` and the key order of every chain are unchanged (so no rehash has
run, whatever the thresholds say), and the bucket array is the old one with
the value of that node replaced by `v`.  On a table reached from the
constructor by `set` and `remove` calls without overflow of an `int` that node
is the only one carrying `k`: the bucket array is the old one with the value
of every node carrying `k` replaced. -/
theorem C10_update_in_place [DecidableEq K] (hasher : K → Nat) (t : ChainHash K V)
    (k : K) (v : V) (hc : t.contains hasher k = true) :
    (t.set hasher k v).ret = .ok () ∧
      (t.set hasher k v).post.size = t.size ∧
      (t.set hasher k v).post.bucket_count = t.bucket_count ∧
      (∀ i, (t.set hasher k v).post.bucket_size i = t.bucket_size i) ∧
      (t.set hasher k v).post.bucket_sizes = t.bucket_sizes ∧
      (t.set hasher k v).post.usedBuckets = t.usedBuckets ∧
      (t.set hasher k v).post.array.map (List.map (fun x => x.key)) =
        t.array.map (List.map (fun x => x.key)) ∧
      (∃ pre n post, t.array.getD (bucketIndex hasher t.capacity k) [] = pre ++ n :: post ∧
        n.key = k ∧ k ∉ pre.map (fun x => x.key) ∧
        (t.set hasher k v).post.array =
          t.array.set (bucketIndex hasher t.capacity k) (pre ++ ⟨k, v⟩ :: post)) ∧
      (ReachableInRange hasher t →
        (t.set hasher k v).post.array =
          t.array.map
            (List.map (fun x => if x.key = k then (⟨k, v⟩ : ChainHashNode K V) else x))) := by
  rcases set_cases hasher t k v with ⟨pre, n, post, h1, h2, h3, h4⟩ | ⟨hnot, _⟩
  · have hkeys : (t.array.set (bucketIndex hasher t.capacity k) (pre ++ ⟨k, v⟩ :: post)).map
        (List.map (fun x => x.key)) = t.array.map (List.map (fun x => x.key)) := by
      apply map_set_of_eq _ _ _ _ []
      rw [h1]
      simp [h2]
    rw [h4]
    refine ⟨rfl, rfl, rfl, fun i => rfl, rfl, rfl, hkeys, ⟨pre, n, post, h1, h2, h3, rfl⟩,
      fun ht => ?_⟩
    have hwf := ht.reachable.wf
    exact update_array_eq_map t.array (bucketIndex hasher t.capacity k)
      (hwf.bucket_in_range k) pre post n k v h1 h2 hwf.nodup
  · have hcont : ¬ (t.contains hasher k = true) := by
      unfold ChainHash.contains
      rw [containsLoop_iff]
      exact hnot
    exact absurd hc hcont

/-- Witness of C10: the table in which keys 0, 16, 32, 48 share bucket 0 (4
entries, above the collision threshold), a table reached without overflow;
updating key 16 changes only its value. -/
theorem C10_update_in_place_witness :
    ReachableInRange (fun n => n) ((ChainHash.create 2 : ChainHash Nat Nat).runSets (fun n => n)
        [(0, 0), (16, 0), (32, 0), (48, 0)]) ∧
      (((ChainHash.create 2 : ChainHash Nat Nat).runSets (fun n => n)
        [(0, 0), (16, 0), (32, 0), (48, 0)]).set (fun n => n) 16 7).ret = .ok () ∧
      (((ChainHash.create 2 : ChainHash Nat Nat).runSets (fun n => n)
        [(0, 0), (16, 0), (32, 0), (48, 0)]).set (fun n => n) 16 7).post.size =
        ((ChainHash.create 2 : ChainHash Nat Nat).runSets (fun n => n)
        [(0, 0), (16, 0), (32, 0), (48, 0)]).size ∧
      (((ChainHash.create 2 : ChainHash Nat Nat).runSets (fun n => n)
        [(0, 0), (16, 0), (32, 0), (48, 0)]).set (fun n => n) 16 7).post.bucket_count =
        ((ChainHash.create 2 : ChainHash Nat Nat).runSets (fun n => n)
        [(0, 0), (16, 0), (32, 0), (48, 0)]).bucket_count ∧
      (∀ i, (((ChainHash.create 2 : ChainHash Nat Nat).runSets (fun n => n)
        [(0, 0), (16, 0), (32, 0), (48, 0)]).set (fun n => n) 16 7).post.bucket_size i =
        ((ChainHash.create 2 : ChainHash Nat Nat).runSets (fun n => n)
        [(0, 0), (16, 0), (32, 0), (48, 0)]).bucket_size i) ∧
      (((ChainHash.create 2 : ChainHash Nat Nat).runSets (fun n => n)
        [(0, 0), (16, 0), (32, 0), (48, 0)]).set (fun n => n) 16 7).post.bucket_sizes =
        ((ChainHash.create 2 : ChainHash Nat Nat).runSets (fun n => n)
        [(0, 0), (16, 0), (32, 0), (48, 0)]).bucket_sizes ∧
      (((ChainHash.create 2 : ChainHash Nat Nat).runSets (fun n => n)
        [(0, 0), (16, 0), (32, 0), (48, 0)]).set (fun n => n) 16 7).post.usedBuckets =
        ((ChainHash.create 2 : ChainHash Nat Nat).runSets (fun n => n)
        [(0, 0), (16, 0), (32, 0), (48, 0)]).usedBuckets ∧
      (((ChainHash.create 2 : ChainHash Nat Nat).runSets (fun n => n)
        [(0, 0), (16, 0), (32, 0), (48, 0)]).set (fun n => n) 16 7).post.array.map
          (List.map (fun x => x.key)) =
        ((ChainHash.create 2 : ChainHash Nat Nat).runSets (fun n => n)
        [(0, 0), (16, 0), (32, 0), (48, 0)]).array.map (List.map (fun x => x.key)) ∧
      (∃ pre n post, ((ChainHash.create 2 : ChainHash Nat Nat).runSets (fun n => n)
        [(0, 0), (16, 0), (32, 0), (48, 0)]).array.getD (bucketIndex (fun n => n)
          ((ChainHash.create 2 : ChainHash Nat Nat).runSets (fun n => n)
        [(0, 0), (16, 0), (32, 0), (48, 0)]).capacity 16) [] = pre ++ n :: post ∧
        n.key = 16 ∧ 16 ∉ pre.map (fun x => x.key) ∧
        (((ChainHash.create 2 : ChainHash Nat Nat).runSets (fun n => n)
        [(0, 0), (16, 0), (32, 0), (48, 0)]).set (fun n => n) 16 7).post.array =
          ((ChainHash.create 2 : ChainHash Nat Nat).runSets (fun n => n)
        [(0, 0), (16, 0), (32, 0), (48, 0)]).array.set (bucketIndex (fun n => n)
            ((ChainHash.create 2 : ChainHash Nat Nat).runSets (fun n => n)
        [(0, 0), (16, 0), (32, 0), (48, 0)]).capacity 16)
            (pre ++ ⟨16, 7⟩ :: post)) ∧
      (ReachableInRange (fun n => n)
          ((ChainHash.create 2 : ChainHash Nat Nat).runSets (fun n => n)
        [(0, 0), (16, 0), (32, 0), (48, 0)]) →
        (((ChainHash.create 2 : ChainHash Nat Nat).runSets (fun n => n)
        [(0, 0), (16, 0), (32, 0), (48, 0)]).set (fun n => n) 16 7).post.array =
          ((ChainHash.create 2 : ChainHash Nat Nat).runSets (fun n => n)
        [(0, 0), (16, 0), (32, 0), (48, 0)]).array.map
            (List.map (fun x => if x.key = 16 then (⟨16, 7⟩ : ChainHashNode Nat Nat) else x))) :=
  ⟨ReachableInRange.set _ 48 0
      (ReachableInRange.set _ 32 0
        (ReachableInRange.set _ 16 0
          (ReachableInRange.set _ 0 0
            (ReachableInRange.create 2 ⟨by decide, by decide⟩ (by decide))
            (by decide) (by decide))
          (by decide) (by decide))
        (by decide) (by decide))
      (by decide) (by decide),
    C10_update_in_place (fun n => n) _ 16 7 rfl⟩

/-! ### Construction and the invariants, as observed through the interface -/

theorem getD_replicate_self {α : Type} (n i : Nat) (a : α) :
    (List.replicate n a).getD i a = a := by
  rcases getD_mem_or_default (List.replicate n a) i a with h | ⟨_, h⟩
  · exact List.eq_of_mem_replicate h
  · exact h

/-- C11 (construction).  For every integer `initialCapacity` the constructor
gives a table with `bucket_count() = initialCapacity` when it is positive and
`bucket_count() = 10` otherwise, with `size() = 0`, `bucket_size(i) = 0` for
every valid index and `contains(k)` false for every key. -/
theorem C11_construction [DecidableEq K] (hasher : K → Nat) (initialCapacity : Int) (k : K) :
    (0 < initialCapacity →
        (ChainHash.create initialCapacity : ChainHash K V).bucket_count = initialCapacity) ∧
      (initialCapacity ≤ 0 →
        (ChainHash.create initialCapacity : ChainHash K V).bucket_count = 10) ∧
      (ChainHash.create initialCapacity : ChainHash K V).size = 0 ∧
      (∀ i : Int, 0 ≤ i → i < (ChainHash.create initialCapacity : ChainHash K V).bucket_count →
        (ChainHash.create initialCapacity : ChainHash K V).bucket_size i = .ok 0) ∧
      (ChainHash.create initialCapacity : ChainHash K V).contains hasher k = false := by
  refine ⟨fun h => ?_, fun h => ?_, rfl, fun i h0 h1 => ?_, ?_⟩
  · show (if initialCapacity ≤ 0 then 10 else initialCapacity) = initialCapacity
    rw [if_neg (by omega)]
  · show (if initialCapacity ≤ 0 then 10 else initialCapacity) = 10
    rw [if_pos h]
  · have hin : ¬ (i < 0 ∨ i ≥ (ChainHash.create initialCapacity : ChainHash K V).capacity) := by
      unfold ChainHash.bucket_count at h1
      omega
    unfold ChainHash.bucket_size
    rw [if_neg hin]
    show Except.ok ((List.replicate _ 0).getD i.toNat 0) = _
    rw [getD_replicate_self]
  · unfold ChainHash.contains
    show containsLoop k ((List.replicate _ []).getD _ []) = false
    rw [getD_replicate_self]
    rfl

/-- Placement below the overflow.  In every table reached from the
constructor by `set` and `remove` calls without overflow of an `int`, every
entry stored in the chain of bucket `i` has `hash(key) mod capacity = i` for
the current capacity. -/
theorem placement_in_range [DecidableEq K] (hasher : K → Nat) (t : ChainHash K V)
    (ht : ReachableInRange hasher t) (i : Nat) (node : ChainHashNode K V)
    (hnode : node ∈ t.array.getD i []) :
    bucketIndex hasher t.capacity node.key = i ∧
      getHashCode hasher node.key % t.bucket_count.toNat = i := by
  have hc := ht.reachable.wf.consistent
  have h := hc.placed i node hnode
  refine ⟨h, ?_⟩
  unfold bucketIndex at h
  rw [toSizeT_of_pos t.capacity hc.cap_pos hc.cap_lt] at h
  exact h

/-- Key uniqueness below the overflow.  In every table reached from the
constructor by `set` and `remove` calls without overflow of an `int`, no two
entries of one chain have equal keys, and no key occurs twice in the whole
table. -/
theorem key_uniqueness_in_range [DecidableEq K] (hasher : K → Nat) (t : ChainHash K V)
    (ht : ReachableInRange hasher t) :
    (∀ i, ((t.array.getD i []).map (fun node => node.key)).Nodup) ∧
      (t.entries.map (fun node => node.key)).Nodup := by
  have hwf := ht.reachable.wf
  refine ⟨fun i => ?_, hwf.nodup⟩
  rcases getD_mem_or_default t.array i [] with h | ⟨_, h⟩
  · exact List.Nodup.sublist ((List.sublist_flatten_of_mem h).map _) hwf.nodup
  · rw [h]
    exact List.nodup_nil

theorem insertNodeNoCheck_array_length (hasher : K → Nat) (cap : Int)
    (acc : List (List (ChainHashNode K V)) × List Int × Int) (node : ChainHashNode K V) :
    (insertNodeNoCheck hasher cap acc node).1.length = acc.1.length := by
  unfold insertNodeNoCheck
  simp

theorem insertNodeNoCheck_foldl_chain (hasher : K → Nat) (cap : Int) (h0 : 0 < cap)
    (h1 : cap < 2147483648) (nodes : List (ChainHashNode K V))
    (acc : List (List (ChainHashNode K V)) × List Int × Int)
    (hlen : acc.1.length = cap.toNat) (j : Nat) :
    (nodes.foldl (insertNodeNoCheck hasher cap) acc).1.getD j [] =
      (nodes.filter (fun x => decide (bucketIndex hasher cap x.key = j))).reverse
        ++ acc.1.getD j [] := by
  induction nodes generalizing acc with
  | nil => simp
  | cons node rest ih =>
    rw [List.foldl_cons, ih _ ((insertNodeNoCheck_array_length hasher cap acc node).trans hlen)]
    have hlt : bucketIndex hasher cap node.key < acc.1.length := by
      rw [hlen]
      exact bucketIndex_lt hasher cap node.key h0 h1
    by_cases hj : bucketIndex hasher cap node.key = j
    · have hstep : (insertNodeNoCheck hasher cap acc node).1.getD j []
          = node :: acc.1.getD j [] := by
        unfold insertNodeNoCheck
        subst hj
        exact getD_set_self _ _ _ _ hlt
      rw [hstep, List.filter_cons_of_pos (by simpa using hj), List.reverse_cons,
        List.append_assoc]
      rfl
    · have hstep : (insertNodeNoCheck hasher cap acc node).1.getD j [] = acc.1.getD j [] := by
        unfold insertNodeNoCheck
        exact getD_set_ne _ _ _ _ _ hj
      rw [hstep, List.filter_cons_of_neg (by simpa using hj)]

theorem rehashing_ok_eq (hasher : K → Nat) (t : ChainHash K V)
    (hlen : t.array.length = t.capacity.toNat) (nc : Int) (h0 : 0 < nc)
    (hnc : (if wrapInt32 (t.capacity * 2) ≤ 0 then wrapInt32 (t.capacity + 1)
        else wrapInt32 (t.capacity * 2)) = nc) :
    t.rehashing hasher = .ok
      { array := (t.entries.foldl (insertNodeNoCheck hasher nc)
          (List.replicate nc.toNat [], List.replicate nc.toNat 0, 0)).1
        bucket_sizes := (t.entries.foldl (insertNodeNoCheck hasher nc)
          (List.replicate nc.toNat [], List.replicate nc.toNat 0, 0)).2.1
        capacity := nc
        usedBuckets := (t.entries.foldl (insertNodeNoCheck hasher nc)
          (List.replicate nc.toNat [], List.replicate nc.toNat 0, 0)).2.2
        nsize := t.nsize } := by
  unfold ChainHash.rehashing
  simp only [hnc, if_neg (not_lt.mpr (le_of_lt h0))]
  rw [rehashing_moved hasher t nc hlen]

/-- Rehash order below the overflow.  Rehashing a table with positive
capacity below 2^30 (so that `capacity * 2` is exact) whose bucket array has
`capacity` chains succeeds, the new capacity is twice the old one, and for
every new bucket index `j` the new chain of `j`, head to tail, is the reverse
of the concatenation of the old chains in ascending bucket index restricted to
the entries with `hash(key) mod newCapacity = j`. -/
theorem rehash_order_in_range (hasher : K → Nat) (t : ChainHash K V) (hpos : 0 < t.capacity)
    (hmax : t.capacity < 1073741824) (hlen : t.array.length = t.capacity.toNat) :
    ∃ t2, t.rehashing hasher = .ok t2 ∧
      ∀ j, t2.array.getD j [] =
        (t.array.flatten.filter
          (fun x => decide (getHashCode hasher x.key % toSizeT t2.capacity = j))).reverse := by
  have key : ∀ nc : Int, 0 < nc → nc < 2147483648 →
      (if wrapInt32 (t.capacity * 2) ≤ 0 then wrapInt32 (t.capacity + 1)
        else wrapInt32 (t.capacity * 2)) = nc →
      ∃ t2, t.rehashing hasher = .ok t2 ∧
        ∀ j, t2.array.getD j [] =
          (t.array.flatten.filter
            (fun x => decide (getHashCode hasher x.key % toSizeT t2.capacity = j))).reverse := by
    intro nc h0 h1 hnc
    refine ⟨_, rehashing_ok_eq hasher t hlen nc h0 hnc, fun j => ?_⟩
    have h := insertNodeNoCheck_foldl_chain hasher nc h0 h1 t.entries
      (List.replicate nc.toNat [], List.replicate nc.toNat 0, 0) (by simp) j
    rw [getD_replicate_self, List.append_nil] at h
    exact h
  rcases newCapacity_cases t.capacity hpos (by omega) with ⟨h1, h2⟩ | ⟨_, h2, _, h4⟩ | ⟨h1, _⟩
  · exact key (2 * t.capacity) (by omega) h1 h2
  · exact key (t.capacity + 1) (by omega) (by omega) h4
  · omega

/-! ### Refinement of a reference finite map -/

theorem refGet_eq_some_iff [DecidableEq K] (k : K) (v : V) (m : List (K × V))
    (hnd : (m.map Prod.fst).Nodup) : refGet k m = some v ↔ (k, v) ∈ m := by
  induction m with
  | nil => simp [refGet]
  | cons p m ih =>
    rw [List.map_cons, List.nodup_cons] at hnd
    by_cases h : p.1 = k
    · simp only [refGet, h, if_true, Option.some.injEq, List.mem_cons]
      constructor
      · intro e
        left
        rw [← e, ← h]
      · rintro (e | e)
        · rw [← e]
        · exfalso
          apply hnd.1
          rw [h]
          exact List.mem_map.mpr ⟨(k, v), e, rfl⟩
    · simp only [refGet, h, if_false, List.mem_cons, ih hnd.2]
      constructor
      · exact fun e => Or.inr e
      · rintro (e | e)
        · exfalso
          apply h
          rw [← e]
        · exact e

theorem refGet_eq_none_iff [DecidableEq K] (k : K) (m : List (K × V)) :
    refGet k m = none ↔ k ∉ m.map Prod.fst := by
  induction m with
  | nil => simp [refGet]
  | cons p m ih =>
    by_cases h : p.1 = k
    · simp [refGet, h]
    · have h' : ¬ k = p.1 := fun e => h e.symm
      simp only [refGet, h, if_false, ih, List.map_cons, List.mem_cons, not_or]
      exact ⟨fun e => ⟨h', e⟩, fun e => e.2⟩

/-- The table `t` holds exactly the bindings of the reference map `m`. -/
theorem refines_observations [DecidableEq K] (hasher : K → Nat) (t : ChainHash K V)
    (m : List (K × V)) (hwf : WF hasher t) (hnd : (m.map Prod.fst).Nodup)
    (h : ∀ k v, (⟨k, v⟩ : ChainHashNode K V) ∈ t.entries ↔ (k, v) ∈ m) (k : K) :
    t.contains hasher k = refContains k m ∧ t.get hasher k = refResult (refGet k m) ∧
      t.size = refSize m := by
  have hget : t.get hasher k = refResult (refGet k m) := by
    rcases get_total hasher t k with ⟨v, h1, _⟩ | ⟨h1, h2⟩
    · have := (refGet_eq_some_iff k v m hnd).mpr ((h k v).mp ((hwf.get_ok_iff k v).mp h1))
      rw [h1, this]
      rfl
    · have hnone : refGet k m = none := by
        rw [refGet_eq_none_iff, List.mem_map]
        rintro ⟨p, hp, e⟩
        have hc : t.contains hasher k = true := by
          rw [hwf.contains_iff, List.mem_map]
          refine ⟨⟨p.1, p.2⟩, (h p.1 p.2).mpr hp, e⟩
        rw [hc] at h2
        cases h2
      rw [h1, hnone]
      rfl
  refine ⟨?_, hget, ?_⟩
  · unfold refContains
    rcases get_total hasher t k with ⟨v, h1, _⟩ | ⟨h1, h2⟩
    · have hc : t.contains hasher k = true := by
        rw [hwf.contains_iff, List.mem_map]
        exact ⟨⟨k, v⟩, (hwf.get_ok_iff k v).mp h1, rfl⟩
      rw [h1] at hget
      cases hr : refGet k m with
      | none => rw [hr] at hget; cases hget
      | some w => rw [hc]; rfl
    · rw [h1] at hget
      cases hr : refGet k m with
      | none => rw [h2]; rfl
      | some w => rw [hr] at hget; cases hget
  · unfold ChainHash.size refSize
    rw [hwf.nsize_eq]
    have hperm : (t.entries.map (fun x => (x.key, x.value))).Perm m := by
      rw [List.perm_ext_iff_of_nodup]
      · intro p
        rw [List.mem_map]
        constructor
        · rintro ⟨x, hx, rfl⟩
          exact (h x.key x.value).mp hx
        · intro hp
          exact ⟨⟨p.1, p.2⟩, (h p.1 p.2).mpr hp, rfl⟩
      · apply List.Nodup.of_map Prod.fst
        rw [List.map_map]
        exact hwf.nodup
      · exact List.Nodup.of_map Prod.fst hnd
    rw [← hperm.length_eq, List.length_map]

theorem refApply_spec [DecidableEq K] (hasher : K → Nat) (t : ChainHash K V)
    (m : List (K × V)) (hwf : WF hasher t) (hnd : (m.map Prod.fst).Nodup)
    (h : ∀ k v, (⟨k, v⟩ : ChainHashNode K V) ∈ t.entries ↔ (k, v) ∈ m) (op : Op K V) :
    (((refApply m op).map Prod.fst).Nodup) ∧
      ∀ k v, (⟨k, v⟩ : ChainHashNode K V) ∈ (t.applyOp hasher op).entries ↔
        (k, v) ∈ refApply m op := by
  cases op with
  | set key value =>
    obtain ⟨_, h2, _⟩ := set_spec hasher t hwf key value
    constructor
    · show ((refSet key value m).map Prod.fst).Nodup
      unfold refSet
      rw [List.map_cons, List.nodup_cons]
      constructor
      · rw [List.mem_map]
        rintro ⟨p, hp, e⟩
        have := (List.mem_filter.mp hp).2
        simp only [decide_eq_true_eq] at this
        exact this e
      · exact List.Nodup.sublist ((List.filter_sublist m).map _) hnd
    · intro k v
      show _ ∈ (t.set hasher key value).post.entries ↔ (k, v) ∈ refSet key value m
      rw [h2]
      unfold refSet
      simp only [List.mem_cons, List.mem_filter, decide_eq_true_eq, ChainHashNode.mk.injEq,
        Prod.mk.injEq, h k v]
      tauto
  | remove key =>
    obtain ⟨_, h2, _⟩ := remove_spec hasher t hwf key
    constructor
    · exact List.Nodup.sublist ((List.filter_sublist m).map _) hnd
    · intro k v
      show _ ∈ (t.remove hasher key).post.entries ↔ (k, v) ∈ refRemove key m
      rw [h2]
      unfold refRemove
      simp only [List.mem_filter, decide_eq_true_eq, h k v]
      tauto
  | get key => exact ⟨hnd, h⟩
  | contains key => exact ⟨hnd, h⟩

theorem refRun_spec [DecidableEq K] (hasher : K → Nat) (ops : List (Op K V))
    (t : ChainHash K V) (m : List (K × V)) (hwf : WF hasher t) (hnd : (m.map Prod.fst).Nodup)
    (h : ∀ k v, (⟨k, v⟩ : ChainHashNode K V) ∈ t.entries ↔ (k, v) ∈ m) :
    WF hasher (t.run hasher ops) ∧ ((ops.foldl refApply m).map Prod.fst).Nodup ∧
      ∀ k v, (⟨k, v⟩ : ChainHashNode K V) ∈ (t.run hasher ops).entries ↔
        (k, v) ∈ ops.foldl refApply m := by
  induction ops generalizing t m with
  | nil => exact ⟨hwf, hnd, h⟩
  | cons op ops ih =>
    obtain ⟨h1, h2⟩ := refApply_spec hasher t m hwf hnd h op
    exact ih (t.applyOp hasher op) (refApply m op) (applyOp_spec hasher t hwf op).1 h1 h2

theorem observations_eq_at [DecidableEq K] (hasher : K → Nat) (t t' : ChainHash K V)
    (hwf : WF hasher t) (hwf' : WF hasher t') (k : K)
    (h : ∀ v, (⟨k, v⟩ : ChainHashNode K V) ∈ t.entries ↔ (⟨k, v⟩ : ChainHashNode K V) ∈ t'.entries) :
    t.contains hasher k = t'.contains hasher k ∧ t.get hasher k = t'.get hasher k := by
  have hc : t.contains hasher k = t'.contains hasher k := by
    rw [Bool.eq_iff_iff, hwf.contains_iff, hwf'.contains_iff]
    simp only [List.mem_map]
    constructor
    · rintro ⟨x, hx, rfl⟩
      exact ⟨x, (h x.value).mp hx, rfl⟩
    · rintro ⟨x, hx, rfl⟩
      exact ⟨x, (h x.value).mpr hx, rfl⟩
  refine ⟨hc, ?_⟩
  rcases get_total hasher t k with ⟨v, h1, _⟩ | ⟨h1, h2⟩
  · rw [h1]
    exact ((hwf'.get_ok_iff k v).mpr ((h v).mp ((hwf.get_ok_iff k v).mp h1))).symm
  · rw [h1]
    rw [hc] at h2
    exact ((get_error_iff hasher t' k).mpr h2).symm

/-- Map refinement below the overflow.  For every hash function and every
finite sequence of calls applied to a freshly constructed table, when the
sequence leaves at most 2^30 buckets and `size()` was at most `INT_MAX` after
every call, `contains(k)`, `get(k)` (value or not-found error)
and `size()` agree with a reference finite map subjected to the same sequence
of insert-or-update and delete operations; and one more `set` or `remove` on
another key that leaves at most 2^30 buckets does not change the result of
`get` or `contains` for `k`. -/
theorem map_refinement_in_range [DecidableEq K] (hasher : K → Nat) (initialCapacity : Int)
    (hcap : IsInt32 initialCapacity) (ops : List (Op K V))
    (_ : ((ChainHash.create initialCapacity : ChainHash K V).run hasher ops).bucket_count
      ≤ 1073741824)
    (_ : ∀ n, ((ChainHash.create initialCapacity : ChainHash K V).run hasher
      (ops.take n)).size ≤ 2147483647) (k : K) :
    ((ChainHash.create initialCapacity : ChainHash K V).run hasher ops).contains hasher k =
        refContains k (refRun ops) ∧
      ((ChainHash.create initialCapacity : ChainHash K V).run hasher ops).get hasher k =
        refResult (refGet k (refRun ops)) ∧
      ((ChainHash.create initialCapacity : ChainHash K V).run hasher ops).size =
        refSize (refRun ops) ∧
      ∀ op : Op K V, op.writes ≠ some k →
        (((ChainHash.create initialCapacity : ChainHash K V).run hasher ops).applyOp hasher
            op).bucket_count ≤ 1073741824 →
        (((ChainHash.create initialCapacity : ChainHash K V).run hasher ops).applyOp hasher
            op).get hasher k =
          ((ChainHash.create initialCapacity : ChainHash K V).run hasher ops).get hasher k ∧
        (((ChainHash.create initialCapacity : ChainHash K V).run hasher ops).applyOp hasher
            op).contains hasher k =
          ((ChainHash.create initialCapacity : ChainHash K V).run hasher ops).contains hasher k := by
  have hwf0 : WF hasher (ChainHash.create initialCapacity : ChainHash K V) :=
    WF.create hasher initialCapacity hcap
  have h0 : ∀ k v, (⟨k, v⟩ : ChainHashNode K V) ∈
      (ChainHash.create initialCapacity : ChainHash K V).entries ↔ (k, v) ∈ ([] : List (K × V)) := by
    intro k v
    rw [create_entries]
    simp
  obtain ⟨h1, h2, h3⟩ := refRun_spec hasher ops _ [] hwf0 List.nodup_nil h0
  obtain ⟨a1, a2, a3⟩ := refines_observations hasher _ _ h1 h2 h3 k
  refine ⟨a1, a2, a3, fun op hop _ => ?_⟩
  obtain ⟨b1, b2⟩ := applyOp_spec hasher _ h1 op
  obtain ⟨c1, c2⟩ := observations_eq_at hasher _ _ b1 h1 k (fun v => b2 ⟨k, v⟩ hop)
  exact ⟨c2, c1⟩

/-! ### Traversal order and creation order -/

theorem erase_filter_pos [DecidableEq K] (p : K → Bool) (k : K) (hp : p k = true) (l : List K) :
    (l.erase k).filter p = (l.filter p).erase k := by
  induction l with
  | nil => rfl
  | cons a l ih =>
    by_cases ha : a = k
    · subst ha
      rw [List.erase_cons_head, List.filter_cons_of_pos hp, List.erase_cons_head]
    · rw [List.erase_cons_tail (by simpa using ha)]
      by_cases hpa : p a = true
      · rw [List.filter_cons_of_pos hpa, List.filter_cons_of_pos hpa,
          List.erase_cons_tail (by simpa using ha), ih]
      · rw [List.filter_cons_of_neg hpa, List.filter_cons_of_neg hpa, ih]

theorem erase_filter_neg [DecidableEq K] (p : K → Bool) (k : K) (hp : ¬ p k = true)
    (l : List K) : (l.erase k).filter p = l.filter p := by
  induction l with
  | nil => rfl
  | cons a l ih =>
    by_cases ha : a = k
    · subst ha
      rw [List.erase_cons_head, List.filter_cons_of_neg hp]
    · rw [List.erase_cons_tail (by simpa using ha)]
      by_cases hpa : p a = true
      · rw [List.filter_cons_of_pos hpa, List.filter_cons_of_pos hpa, ih]
      · rw [List.filter_cons_of_neg hpa, List.filter_cons_of_neg hpa, ih]

theorem set_post_of_capacity_eq [DecidableEq K] (hasher : K → Nat) (t : ChainHash K V)
    (hwf : WF hasher t) (k : K) (v : V) (hnew : t.contains hasher k = false)
    (hcap : (t.set hasher k v).post.capacity = t.capacity) :
    (t.set hasher k v).post = t.insertFront (bucketIndex hasher t.capacity k) k v := by
  rcases set_cases hasher t k v with ⟨pre, n, post, h1, h2, _, _⟩ | ⟨hnot, hrest⟩
  · have hcont : t.contains hasher k = true := by
      unfold ChainHash.contains
      rw [containsLoop_iff, h1]
      simp [h2]
    rw [hcont] at hnew
    cases hnew
  · rcases hrest with ⟨_, hset⟩ | ⟨_, t2, hre, hset⟩ | ⟨_, e, _, hset⟩
    · rw [hset]
    · have hnot' : k ∉ t.entries.map (fun x => x.key) :=
        fun h => hnot ((hwf.key_mem_chain_iff k).mpr h)
      have h0 := hwf.consistent.cap_pos
      rw [hset] at hcap
      have hcap' : t2.capacity = t.capacity := hcap
      rcases rehashing_spec hasher _ (hwf.insertFront k v hnot').1
        with ⟨_, herr⟩ | ⟨t2', hok, _, _, _, hc⟩
      · rw [herr] at hre
        cases hre
      · rw [hok] at hre
        cases hre
        rw [insertFront_capacity] at hc
        omega
    · rw [hset]

/-- The chains list the keys in creation order, the most recent first. -/
theorem createdStep_order [DecidableEq K] (hasher : K → Nat) (t : ChainHash K V) (g : List K)
    (hwf : WF hasher t)
    (hord : ∀ i, (t.array.getD i []).map (fun x => x.key) =
      g.filter (fun k => decide (bucketIndex hasher t.capacity k = i)))
    (op : Op K V) (hcap : (t.applyOp hasher op).capacity = t.capacity) :
    (createdStep hasher (t, g) op).1 = t.applyOp hasher op ∧
      ∀ i, ((t.applyOp hasher op).array.getD i []).map (fun x => x.key) =
        (createdStep hasher (t, g) op).2.filter
          (fun k => decide (bucketIndex hasher (t.applyOp hasher op).capacity k = i)) := by
  refine ⟨by cases op <;> rfl, fun i => ?_⟩
  rw [hcap]
  have hlt := hwf.bucket_in_range
  cases op with
  | get k => exact hord i
  | contains k => exact hord i
  | set k v =>
    show ((t.set hasher k v).post.array.getD i []).map (fun x => x.key) =
      (if t.contains hasher k = true then g else k :: g).filter _
    rcases set_cases hasher t k v with ⟨pre, n, post, h1, h2, _, h4⟩ | ⟨hnot, _⟩
    · have hcont : t.contains hasher k = true := by
        unfold ChainHash.contains
        rw [containsLoop_iff, h1]
        simp [h2]
      rw [if_pos hcont, h4, ← hord i]
      show ((t.array.set _ _).getD i []).map _ = _
      by_cases hi : bucketIndex hasher t.capacity k = i
      · subst hi
        rw [getD_set_self _ _ _ _ (hlt k), h1]
        simp [h2]
      · rw [getD_set_ne _ _ _ _ _ hi]
    · have hcont : t.contains hasher k = false := by
        rw [← Bool.not_eq_true]
        unfold ChainHash.contains
        rw [containsLoop_iff]
        exact hnot
      have hpost := set_post_of_capacity_eq hasher t hwf k v hcont hcap
      rw [hpost, hcont]
      simp only [Bool.false_eq_true, if_false]
      show ((t.array.set _ _).getD i []).map _ = _
      by_cases hi : bucketIndex hasher t.capacity k = i
      · subst hi
        rw [getD_set_self _ _ _ _ (hlt k), List.filter_cons_of_pos (by simp), List.map_cons,
          hord]
      · rw [getD_set_ne _ _ _ _ _ hi, List.filter_cons_of_neg (by simpa using hi), hord]
  | remove k =>
    show ((t.remove hasher k).post.array.getD i []).map (fun x => x.key) = (g.erase k).filter _
    rcases remove_cases hasher t k with ⟨pre, n, post, h1, h2, h3⟩ | ⟨hnot, h3⟩
    · have hnd := hwf.chain_nodup k
      rw [h1, List.map_append, List.map_cons, h2] at hnd
      have hpre : k ∉ pre.map (fun x => x.key) := by
        intro hk
        have := (List.nodup_append.mp hnd).2.2
        exact this hk (List.mem_cons_self _ _)
      rw [h3]
      show ((t.array.set _ _).getD i []).map _ = _
      by_cases hi : bucketIndex hasher t.capacity k = i
      · subst hi
        rw [getD_set_self _ _ _ _ (hlt k), erase_filter_pos _ k (by simp), ← hord, h1,
          List.map_append, List.map_append, List.map_cons, h2,
          List.erase_append_right _ hpre, List.erase_cons_head]
      · rw [getD_set_ne _ _ _ _ _ hi, erase_filter_neg _ k (by simpa using hi), hord]
    · rw [h3]
      have hk : k ∉ g := by
        intro hk
        apply hnot
        rw [hord]
        exact List.mem_filter.mpr ⟨hk, by simp⟩
      rw [List.erase_of_not_mem hk]
      exact hord i

theorem runCreated_order [DecidableEq K] (hasher : K → Nat) (ops : List (Op K V))
    (t : ChainHash K V) (g : List K) (hwf : WF hasher t)
    (hord : ∀ i, (t.array.getD i []).map (fun x => x.key) =
      g.filter (fun k => decide (bucketIndex hasher t.capacity k = i)))
    (hcap : (t.run hasher ops).capacity = t.capacity) :
    (ops.foldl (createdStep hasher) (t, g)).1 = t.run hasher ops ∧
      ∀ i, ((t.run hasher ops).array.getD i []).map (fun x => x.key) =
        (ops.foldl (createdStep hasher) (t, g)).2.filter
          (fun k => decide (bucketIndex hasher (t.run hasher ops).capacity k = i)) := by
  induction ops generalizing t g with
  | nil => exact ⟨rfl, hord⟩
  | cons op ops ih =>
    have h1 := applyOp_capacity hasher t hwf op
    have hwf1 := (applyOp_spec hasher t hwf op).1
    have h2 := run_capacity hasher (t.applyOp hasher op) hwf1 ops
    have hrun : t.run hasher (op :: ops) = (t.applyOp hasher op).run hasher ops := rfl
    rw [hrun] at hcap ⊢
    have hc1 : (t.applyOp hasher op).capacity = t.capacity := by omega
    obtain ⟨s1, s2⟩ := createdStep_order hasher t g hwf hord op hc1
    have hstep : createdStep hasher (t, g) op =
        (t.applyOp hasher op, (createdStep hasher (t, g) op).2) := by
      rw [← s1]
    rw [List.foldl_cons, hstep]
    exact ih (t.applyOp hasher op) _ hwf1 s2 (by omega)

/-- C12 fails as stated.  With a constant hash and initial capacity 2 the keys
0, 1, 2, 3 are created in that order (creation order, most recent first:
3, 2, 1, 0); the fourth `set` rehashes, and iterating bucket 0 afterwards
visits 0, 1, 2, 3: the entry created first is visited first. -/
theorem C12_traversal_order_counterexample :
    Reachable (fun _ => 0) ((ChainHash.create 2 : ChainHash Nat Nat).run (fun _ => 0)
        [Op.set 0 0, Op.set 1 0, Op.set 2 0, Op.set 3 0]) ∧
      (runCreated (fun _ => 0) (ChainHash.create 2 : ChainHash Nat Nat)
        [Op.set 0 0, Op.set 1 0, Op.set 2 0, Op.set 3 0]).1 =
        (ChainHash.create 2 : ChainHash Nat Nat).run (fun _ => 0)
          [Op.set 0 0, Op.set 1 0, Op.set 2 0, Op.set 3 0] ∧
      (runCreated (fun _ => 0) (ChainHash.create 2 : ChainHash Nat Nat)
        [Op.set 0 0, Op.set 1 0, Op.set 2 0, Op.set 3 0]).2 = [3, 2, 1, 0] ∧
      ((ChainHash.create 2 : ChainHash Nat Nat).run (fun _ => 0)
        [Op.set 0 0, Op.set 1 0, Op.set 2 0, Op.set 3 0]).bucket_count = 4 ∧
      ∃ it, ((ChainHash.create 2 : ChainHash Nat Nat).run (fun _ => 0)
          [Op.set 0 0, Op.set 1 0, Op.set 2 0, Op.set 3 0]).begin 0 = .ok it ∧
        (visited 4 it).map (fun x => x.key) = [0, 1, 2, 3] :=
  ⟨Reachable.set _ 3 0 (Reachable.set _ 2 0 (Reachable.set _ 1 0 (Reachable.set _ 0 0
      (Reachable.create 2 ⟨by decide, by decide⟩)))),
    rfl, rfl, rfl, _, rfl, rfl⟩

/-- C12 as amended.  As long as no rehash has taken place since the table was
constructed (`bucket_count()` still has its constructed value), iterating a
bucket from `begin(i)` to the past-the-end marker visits its entries
most-recently-created-first: the keys visited are the keys of the live entries
in creation order, the most recent first, restricted to the keys of that
bucket. -/
theorem C12_traversal_order_before_rehash [DecidableEq K] (hasher : K → Nat)
    (initialCapacity : Int) (hini : IsInt32 initialCapacity) (ops : List (Op K V))
    (hcap : ((ChainHash.create initialCapacity : ChainHash K V).run hasher ops).bucket_count =
      (ChainHash.create initialCapacity : ChainHash K V).bucket_count)
    (i : Nat)
    (hi : (i : Int) <
      ((ChainHash.create initialCapacity : ChainHash K V).run hasher ops).bucket_count) :
    (runCreated hasher (ChainHash.create initialCapacity : ChainHash K V) ops).1 =
        (ChainHash.create initialCapacity : ChainHash K V).run hasher ops ∧
      ∃ it, ((ChainHash.create initialCapacity : ChainHash K V).run hasher ops).begin (i : Int)
          = .ok it ∧
        ∀ fuel, (((ChainHash.create initialCapacity : ChainHash K V).run hasher ops).array.getD i
            []).length ≤ fuel →
          (visited fuel it).map (fun x => x.key) =
            (runCreated hasher (ChainHash.create initialCapacity : ChainHash K V) ops).2.filter
              (fun k => decide (bucketIndex hasher
                ((ChainHash.create initialCapacity : ChainHash K V).run hasher ops).capacity k
                  = i)) := by
  have hwf0 : WF hasher (ChainHash.create initialCapacity : ChainHash K V) :=
    WF.create hasher initialCapacity hini
  have hord0 : ∀ j, ((ChainHash.create initialCapacity : ChainHash K V).array.getD j []).map
      (fun x => x.key) = ([] : List K).filter
        (fun k => decide (bucketIndex hasher
          (ChainHash.create initialCapacity : ChainHash K V).capacity k = j)) := by
    intro j
    show ((List.replicate _ []).getD j []).map _ = _
    rw [getD_replicate_self]
    rfl
  obtain ⟨h1, h2⟩ := runCreated_order hasher ops _ [] hwf0 hord0 hcap
  refine ⟨h1, ⟨((ChainHash.create initialCapacity : ChainHash K V).run hasher ops).array.getD i
    []⟩, ?_, fun fuel hf => ?_⟩
  · have hin : ¬ ((i : Int) < 0 ∨ (i : Int) ≥
        ((ChainHash.create initialCapacity : ChainHash K V).run hasher ops).capacity) := by
      unfold ChainHash.bucket_count at hi
      omega
    unfold ChainHash.begin
    rw [if_neg hin, Int.toNat_ofNat]
  · rw [visited_eq _ fuel hf]
    exact h2 i

/-- Witness of C12 as amended: bucket 0 of a table of capacity 8 after the
keys 0, 8, 3, 16 were set, key 8 was removed and key 0 was updated. -/
theorem C12_traversal_order_before_rehash_witness :
    (runCreated (fun n => n) (ChainHash.create 8 : ChainHash Nat Nat)
        [Op.set 0 1, Op.set 8 1, Op.set 3 1, Op.set 16 1, Op.remove 8, Op.set 0 2]).1 =
        (ChainHash.create 8 : ChainHash Nat Nat).run (fun n => n)
          [Op.set 0 1, Op.set 8 1, Op.set 3 1, Op.set 16 1, Op.remove 8, Op.set 0 2] ∧
      ∃ it, ((ChainHash.create 8 : ChainHash Nat Nat).run (fun n => n)
          [Op.set 0 1, Op.set 8 1, Op.set 3 1, Op.set 16 1, Op.remove 8, Op.set 0 2]).begin
            ((0 : Nat) : Int) = .ok it ∧
        ∀ fuel, (((ChainHash.create 8 : ChainHash Nat Nat).run (fun n => n)
            [Op.set 0 1, Op.set 8 1, Op.set 3 1, Op.set 16 1, Op.remove 8, Op.set 0 2]).array.getD
              0 []).length ≤ fuel →
          (visited fuel it).map (fun x => x.key) =
            (runCreated (fun n => n) (ChainHash.create 8 : ChainHash Nat Nat)
              [Op.set 0 1, Op.set 8 1, Op.set 3 1, Op.set 16 1, Op.remove 8, Op.set 0 2]).2.filter
              (fun k => decide (bucketIndex (fun n => n)
                ((ChainHash.create 8 : ChainHash Nat Nat).run (fun n => n)
                  [Op.set 0 1, Op.set 8 1, Op.set 3 1, Op.set 16 1, Op.remove 8,
                    Op.set 0 2]).capacity k = 0)) :=
  C12_traversal_order_before_rehash (fun n => n) 8 ⟨by decide, by decide⟩
    [Op.set 0 1, Op.set 8 1, Op.set 3 1, Op.set 16 1, Op.remove 8, Op.set 0 2]
    (by decide) 0
    ((fun (x : Int) (hx : x = 8) => by omega : ∀ x : Int, x = 8 → ((0 : Nat) : Int) < x) _ rfl)

/-! ### The fill-factor test in integer terms -/

theorem normShift_spec (a b : Nat) (fuel e0 : Nat) :
    4503599627370496 * b ≤ a * 2 ^ (normShift a b fuel e0) ∨
      normShift a b fuel e0 = e0 + fuel := by
  induction fuel generalizing e0 with
  | zero => right; rfl
  | succ fuel ih =>
    unfold normShift
    split
    · left; assumption
    · rcases ih (e0 + 1) with h | h
      · exact Or.inl h
      · right
        rw [h]
        omega

theorem normShift_reaches (a b : Nat) (ha : 0 < a) (hb : b < 536870912) :
    4503599627370496 * b ≤ a * 2 ^ (normShift a b 128 0) := by
  rcases normShift_spec a b 128 0 with h | h
  · exact h
  · rw [h]
    have h1 : (2 : Nat) ^ (0 + 128) ≤ a * 2 ^ (0 + 128) := Nat.le_mul_of_pos_left _ ha
    have h2 : (2 : Nat) ^ (0 + 128) = 340282366920938463463374607431768211456 := by norm_num
    omega

theorem pow_split (e : Nat) (he : 52 ≤ e) :
    ∃ P : Nat, 2 ^ e = 16777216 * P ∧ 268435456 ≤ P := by
  refine ⟨2 ^ (e - 24), ?_, ?_⟩
  · have : e = 24 + (e - 24) := by omega
    conv => lhs; rw [this, pow_add]
    norm_num
  · calc 268435456 = 2 ^ 28 := by norm_num
      _ ≤ 2 ^ (e - 24) := Nat.pow_le_pow_right (by norm_num) (by omega)

theorem fill_round (u c q r P m : Nat) (hc0 : 0 < c) (hc : c < 536870912)
    (hP : 268435456 ≤ P) (hX : c * q + r = u * (16777216 * P)) (hr : r < c)
    (hm : m = if c < 2 * r ∨ (2 * r = c ∧ q % 2 = 1) then q + 1 else q) :
    13421773 * (16777216 * P) < m * 16777216 ↔ 13421773 * c < u * 16777216 := by
  have e1 : ∀ x : Nat, x * (16777216 * P) = 16777216 * (x * P) := fun x => by ring
  constructor
  · intro h
    by_contra hn
    have hn' : u * 16777216 ≤ 13421773 * c := Nat.le_of_not_lt hn
    have h1 : u * 16777216 * P ≤ 13421773 * c * P := Nat.mul_le_mul_right P hn'
    have h2 : c * q + r ≤ c * (13421773 * P) := by
      calc c * q + r = u * 16777216 * P := by rw [hX]; ring
        _ ≤ 13421773 * c * P := h1
        _ = c * (13421773 * P) := by ring
    have hq : q ≤ 13421773 * P := by
      by_contra hq
      have : c * (13421773 * P + 1) ≤ c * q := Nat.mul_le_mul_left c (by omega)
      rw [Nat.mul_add, Nat.mul_one] at this
      omega
    have hm' : m ≤ 13421773 * P := by
      rw [hm]
      split
      · rename_i hround
        by_cases hq' : q = 13421773 * P
        · rw [hq'] at h2
          have hr0 : r = 0 := by omega
          rw [hr0] at hround
          omega
        · omega
      · exact hq
    have : m * 16777216 ≤ 13421773 * (16777216 * P) := by
      calc m * 16777216 ≤ 13421773 * P * 16777216 := Nat.mul_le_mul_right _ hm'
        _ = 13421773 * (16777216 * P) := by ring
    omega
  · intro h
    have h1 : (13421773 * c + 1) * P ≤ u * 16777216 * P := Nat.mul_le_mul_right P h
    have h2 : c * (13421773 * P) + P ≤ c * q + r := by
      calc c * (13421773 * P) + P = (13421773 * c + 1) * P := by ring
        _ ≤ u * 16777216 * P := h1
        _ = c * q + r := by rw [hX]; ring
    have hm' : 13421773 * P + 1 ≤ m := by
      rw [hm]
      by_cases hq : 13421773 * P + 1 ≤ q
      · split <;> omega
      · have hq1 : q ≤ 13421773 * P := by omega
        have hq2 : q = 13421773 * P := by
          by_contra hne
          have : c * (q + 1) ≤ c * (13421773 * P) := Nat.mul_le_mul_left c (by omega)
          rw [Nat.mul_add, Nat.mul_one] at this
          omega
        rw [hq2] at h2
        have hr1 : P ≤ r := by omega
        rw [if_pos (Or.inl (by omega))]
        omega
    calc 13421773 * (16777216 * P) = 13421773 * P * 16777216 := by ring
      _ < (13421773 * P + 1) * 16777216 := by omega
      _ ≤ m * 16777216 := Nat.mul_le_mul_right _ hm'

theorem fill_test_iff (u c : Nat) (hu : u ≤ c) (hc0 : 0 < c) (hc : c < 536870912) :
    dyadicGt (doubleDiv u c) maxFillFactor = true ↔ 13421773 * c < u * 16777216 := by
  by_cases hu0 : u = 0
  · subst hu0
    simp [doubleDiv, dyadicGt, maxFillFactor]
  · have hreach := normShift_reaches u c (Nat.pos_of_ne_zero hu0) hc
    have he : 52 ≤ normShift u c 128 0 := by
      by_contra hlt
      have h1 : (2 : Nat) ^ (normShift u c 128 0) ≤ 2 ^ 51 :=
        Nat.pow_le_pow_right (by norm_num) (by omega)
      have h2 : u * 2 ^ (normShift u c 128 0) ≤ c * 2 ^ 51 := Nat.mul_le_mul hu h1
      have h3 : (2 : Nat) ^ 51 = 2251799813685248 := by norm_num
      rw [h3] at h2
      omega
    obtain ⟨P, hP1, hP2⟩ := pow_split _ he
    have hdiv := Nat.div_add_mod (u * 2 ^ (normShift u c 128 0)) c
    have hmod := Nat.mod_lt (u * 2 ^ (normShift u c 128 0)) hc0
    rw [hP1] at hdiv hmod
    have key := fill_round u c (u * (16777216 * P) / c) (u * (16777216 * P) % c) P _ hc0 hc hP2
      hdiv hmod rfl
    rw [← key]
    unfold doubleDiv dyadicGt maxFillFactor
    simp only [hu0, if_false, hP1, decide_eq_true_eq]
    split <;> simp_all

theorem WF.used_le_capacity {hasher : K → Nat} {t : ChainHash K V} (hwf : WF hasher t) :
    0 ≤ t.usedBuckets ∧ t.usedBuckets.toNat ≤ t.capacity.toNat := by
  have hc := hwf.consistent
  have h1 := List.countP_le_length (fun chain : List (ChainHashNode K V) => !chain.isEmpty)
    (l := t.array)
  rw [hc.array_len] at h1
  have h2 := hc.used
  omega

theorem WF.needsRehash_iff_exact {hasher : K → Nat} {t : ChainHash K V} (hwf : WF hasher t)
    (hsmall : t.capacity < 536870912) (idx : Nat) :
    t.needsRehash idx = true ↔
      (3 < t.bucket_sizes.getD idx 0 ∨ 13421773 * t.capacity < t.usedBuckets * 16777216) := by
  have hc := hwf.consistent
  obtain ⟨hu0, hule⟩ := hwf.used_le_capacity
  have h0 := hc.cap_pos
  unfold ChainHash.needsRehash ChainHash.fillFactor maxColision
  rw [Bool.or_eq_true, decide_eq_true_iff,
    fill_test_iff t.usedBuckets.toNat t.capacity.toNat hule (by omega) (by omega)]
  have e1 : ((t.usedBuckets.toNat : Nat) : Int) = t.usedBuckets := Int.toNat_of_nonneg hu0
  have e2 : ((t.capacity.toNat : Nat) : Int) = t.capacity := Int.toNat_of_nonneg (le_of_lt h0)
  constructor
  · rintro (h | h)
    · exact Or.inl h
    · right
      have : ((13421773 * t.capacity.toNat : Nat) : Int) < ((t.usedBuckets.toNat * 16777216 : Nat) : Int) :=
        Int.ofNat_lt.mpr h
      push_cast at this
      rw [e1, e2] at this
      exact this
  · rintro (h | h)
    · exact Or.inl h
    · right
      rw [← e1, ← e2] at h
      exact_mod_cast h

theorem WF.needsRehash_iff {hasher : K → Nat} {t : ChainHash K V} (hwf : WF hasher t)
    (hsmall : t.capacity < 16777216) (idx : Nat) :
    t.needsRehash idx = true ↔
      (3 < t.bucket_sizes.getD idx 0 ∨ 4 * t.capacity < 5 * t.usedBuckets) := by
  rw [hwf.needsRehash_iff_exact (by omega) idx]
  obtain ⟨hu0, hule⟩ := hwf.used_le_capacity
  have h0 := hwf.consistent.cap_pos
  constructor
  · rintro (h | h)
    · exact Or.inl h
    · right; omega
  · rintro (h | h)
    · exact Or.inl h
    · right; omega

theorem set_insert_plain [DecidableEq K] (hasher : K → Nat) (t : ChainHash K V) (k : K) (v : V)
    (hnew : t.contains hasher k = false)
    (hneed : (t.insertFront (bucketIndex hasher t.capacity k) k v).needsRehash
      (bucketIndex hasher t.capacity k) = false) :
    t.set hasher k v = ⟨.ok (), t.insertFront (bucketIndex hasher t.capacity k) k v⟩ := by
  rcases set_cases hasher t k v with ⟨pre, n, post, h1, h2, _, _⟩ | ⟨_, hrest⟩
  · have hcont : t.contains hasher k = true := by
      unfold ChainHash.contains
      rw [containsLoop_iff, h1]
      simp [h2]
    rw [hcont] at hnew
    cases hnew
  · rcases hrest with ⟨_, hset⟩ | ⟨hr, _⟩ | ⟨hr, _⟩
    · exact hset
    · rw [hneed] at hr
      cases hr
    · rw [hneed] at hr
      cases hr

theorem set_insert_rehash [DecidableEq K] (hasher : K → Nat) (t : ChainHash K V)
    (hwf : WF hasher t) (k : K) (v : V) (hnew : t.contains hasher k = false)
    (hneed : (t.insertFront (bucketIndex hasher t.capacity k) k v).needsRehash
      (bucketIndex hasher t.capacity k) = true)
    (hcap : 2 * t.capacity < 2147483648) :
    (t.set hasher k v).ret = .ok () ∧ (t.set hasher k v).post.capacity = 2 * t.capacity := by
  rcases set_cases hasher t k v with ⟨pre, n, post, h1, h2, _, _⟩ | ⟨hnot, hrest⟩
  · have hcont : t.contains hasher k = true := by
      unfold ChainHash.contains
      rw [containsLoop_iff, h1]
      simp [h2]
    rw [hcont] at hnew
    cases hnew
  · have hnot' : k ∉ t.entries.map (fun x => x.key) :=
      fun h => hnot ((hwf.key_mem_chain_iff k).mpr h)
    have hspec := rehashing_spec hasher _ (hwf.insertFront k v hnot').1
    rw [insertFront_capacity] at hspec
    rcases hrest with ⟨hr, _⟩ | ⟨_, t2, hre, hset⟩ | ⟨_, e, hre, _⟩
    · rw [hneed] at hr
      cases hr
    · rw [hset]
      refine ⟨rfl, ?_⟩
      show t2.capacity = 2 * t.capacity
      rcases hspec with ⟨_, herr⟩ | ⟨t2', hok, _, _, _, hc⟩
      · rw [herr] at hre
        cases hre
      · rw [hok] at hre
        cases hre
        omega
    · rcases hspec with ⟨hc, _⟩ | ⟨t2', hok, _⟩
      · omega
      · rw [hok] at hre
        cases hre

theorem not_mem_keys_of_contains_false [DecidableEq K] {hasher : K → Nat} {t : ChainHash K V}
    (hwf : WF hasher t) (k : K) (hnew : t.contains hasher k = false) :
    k ∉ t.entries.map (fun x => x.key) := by
  intro h
  rw [(hwf.contains_iff k).mpr h] at hnew
  cases hnew

/-- C14 as amended.  When `set(k, v)` inserts a key that is not present into a
reachable table with `bucket_count() < 2^24`, the call returns normally, and
`bucket_count()` on return is exactly twice its value before the call if,
after the insertion, the written bucket holds more than 3 entries or
`5 * usedBuckets > 4 * capacity`, and is equal to its value before the call
otherwise. -/
theorem C14_trigger_point [DecidableEq K] (hasher : K → Nat) (t : ChainHash K V)
    (ht : Reachable hasher t) (k : K) (v : V) (hnew : t.contains hasher k = false)
    (hsmall : t.bucket_count < 16777216) :
    (t.set hasher k v).ret = .ok () ∧
      ((3 < (t.insertFront (bucketIndex hasher t.capacity k) k v).bucket_sizes.getD
            (bucketIndex hasher t.capacity k) 0 ∨
          4 * (t.insertFront (bucketIndex hasher t.capacity k) k v).capacity <
            5 * (t.insertFront (bucketIndex hasher t.capacity k) k v).usedBuckets) →
        (t.set hasher k v).post.bucket_count = 2 * t.bucket_count) ∧
      (¬ (3 < (t.insertFront (bucketIndex hasher t.capacity k) k v).bucket_sizes.getD
            (bucketIndex hasher t.capacity k) 0 ∨
          4 * (t.insertFront (bucketIndex hasher t.capacity k) k v).capacity <
            5 * (t.insertFront (bucketIndex hasher t.capacity k) k v).usedBuckets) →
        (t.set hasher k v).post.bucket_count = t.bucket_count) := by
  have hwf := ht.wf
  have hsmall' : t.capacity < 16777216 := hsmall
  have hwf1 := (hwf.insertFront k v (not_mem_keys_of_contains_false hwf k hnew)).1
  have hiff := hwf1.needsRehash_iff (by rw [insertFront_capacity]; exact hsmall')
    (bucketIndex hasher t.capacity k)
  cases hneed : (t.insertFront (bucketIndex hasher t.capacity k) k v).needsRehash
      (bucketIndex hasher t.capacity k) with
  | false =>
    have hset := set_insert_plain hasher t k v hnew hneed
    rw [hset]
    refine ⟨rfl, fun h => ?_, fun _ => rfl⟩
    rw [hiff.mpr h] at hneed
    cases hneed
  | true =>
    obtain ⟨h1, h2⟩ := set_insert_rehash hasher t hwf k v hnew hneed (by omega)
    exact ⟨h1, fun _ => h2, fun h => absurd (hiff.mp hneed) h⟩

/-- Witness of C14 as amended: the fourth key hashing to bucket 0 of a table
of capacity 2. -/
theorem C14_trigger_point_witness :
    (((ChainHash.create 2 : ChainHash Nat Nat).runSets (fun n => n)
        [(0, 0), (2, 0), (4, 0)]).set (fun n => n) 6 0).ret = .ok () ∧
      ((3 < (((ChainHash.create 2 : ChainHash Nat Nat).runSets (fun n => n)
            [(0, 0), (2, 0), (4, 0)]).insertFront (bucketIndex (fun n => n)
              ((ChainHash.create 2 : ChainHash Nat Nat).runSets (fun n => n)
                [(0, 0), (2, 0), (4, 0)]).capacity 6) 6 0).bucket_sizes.getD
            (bucketIndex (fun n => n) ((ChainHash.create 2 : ChainHash Nat Nat).runSets
              (fun n => n) [(0, 0), (2, 0), (4, 0)]).capacity 6) 0 ∨
          4 * (((ChainHash.create 2 : ChainHash Nat Nat).runSets (fun n => n)
            [(0, 0), (2, 0), (4, 0)]).insertFront (bucketIndex (fun n => n)
              ((ChainHash.create 2 : ChainHash Nat Nat).runSets (fun n => n)
                [(0, 0), (2, 0), (4, 0)]).capacity 6) 6 0).capacity <
            5 * (((ChainHash.create 2 : ChainHash Nat Nat).runSets (fun n => n)
              [(0, 0), (2, 0), (4, 0)]).insertFront (bucketIndex (fun n => n)
                ((ChainHash.create 2 : ChainHash Nat Nat).runSets (fun n => n)
                  [(0, 0), (2, 0), (4, 0)]).capacity 6) 6 0).usedBuckets) →
        (((ChainHash.create 2 : ChainHash Nat Nat).runSets (fun n => n)
          [(0, 0), (2, 0), (4, 0)]).set (fun n => n) 6 0).post.bucket_count =
          2 * ((ChainHash.create 2 : ChainHash Nat Nat).runSets (fun n => n)
            [(0, 0), (2, 0), (4, 0)]).bucket_count) ∧
      (¬ (3 < (((ChainHash.create 2 : ChainHash Nat Nat).runSets (fun n => n)
            [(0, 0), (2, 0), (4, 0)]).insertFront (bucketIndex (fun n => n)
              ((ChainHash.create 2 : ChainHash Nat Nat).runSets (fun n => n)
                [(0, 0), (2, 0), (4, 0)]).capacity 6) 6 0).bucket_sizes.getD
            (bucketIndex (fun n => n) ((ChainHash.create 2 : ChainHash Nat Nat).runSets
              (fun n => n) [(0, 0), (2, 0), (4, 0)]).capacity 6) 0 ∨
          4 * (((ChainHash.create 2 : ChainHash Nat Nat).runSets (fun n => n)
            [(0, 0), (2, 0), (4, 0)]).insertFront (bucketIndex (fun n => n)
              ((ChainHash.create 2 : ChainHash Nat Nat).runSets (fun n => n)
                [(0, 0), (2, 0), (4, 0)]).capacity 6) 6 0).capacity <
            5 * (((ChainHash.create 2 : ChainHash Nat Nat).runSets (fun n => n)
              [(0, 0), (2, 0), (4, 0)]).insertFront (bucketIndex (fun n => n)
                ((ChainHash.create 2 : ChainHash Nat Nat).runSets (fun n => n)
                  [(0, 0), (2, 0), (4, 0)]).capacity 6) 6 0).usedBuckets) →
        (((ChainHash.create 2 : ChainHash Nat Nat).runSets (fun n => n)
          [(0, 0), (2, 0), (4, 0)]).set (fun n => n) 6 0).post.bucket_count =
          ((ChainHash.create 2 : ChainHash Nat Nat).runSets (fun n => n)
            [(0, 0), (2, 0), (4, 0)]).bucket_count) :=
  C14_trigger_point (fun n => n) _
    (Reachable.set _ 4 0 (Reachable.set _ 2 0 (Reachable.set _ 0 0
      (Reachable.create 2 ⟨by decide, by decide⟩)))) 6 0 rfl (by decide)

/-- C20 as amended.  When `set(k, v)` on a reachable table with
`bucket_count() < 2^24` inserts a key that was not present and returns
normally without having rehashed (`bucket_count()` unchanged), the number of
non-empty buckets, which is `usedBuckets`, satisfies
`5 * usedBuckets <= 4 * bucket_count()`. -/
theorem C20_fill_after_insert [DecidableEq K] (hasher : K → Nat) (t : ChainHash K V)
    (ht : Reachable hasher t) (k : K) (v : V) (hnew : t.contains hasher k = false)
    (hret : (t.set hasher k v).ret = .ok ())
    (hcap : (t.set hasher k v).post.bucket_count = t.bucket_count)
    (hsmall : t.bucket_count < 16777216) :
    5 * (((t.set hasher k v).post.countNonEmpty : Nat) : Int) ≤
        4 * (t.set hasher k v).post.bucket_count ∧
      (t.set hasher k v).post.usedBuckets = (((t.set hasher k v).post.countNonEmpty : Nat) : Int) := by
  have hwf := ht.wf
  have hwf1 := (set_spec hasher t hwf k v).1
  have hsmall' : t.capacity < 16777216 := hsmall
  have hcap' : (t.set hasher k v).post.capacity = t.capacity := hcap
  obtain ⟨h1, h2⟩ := set_insert_without_rehash hasher t hwf k v hnew hret hcap'
  have hiff := hwf1.needsRehash_iff (by omega) (bucketIndex hasher t.capacity k)
  have hused : (t.set hasher k v).post.usedBuckets =
      (((t.set hasher k v).post.countNonEmpty : Nat) : Int) := hwf1.consistent.used
  refine ⟨?_, hused⟩
  rw [← hused]
  by_contra hgt
  have := hiff.mpr (Or.inr (by
    show 4 * (t.set hasher k v).post.capacity < 5 * (t.set hasher k v).post.usedBuckets
    unfold ChainHash.bucket_count at hgt
    omega))
  rw [h1, h2] at this
  cases this

/-- Witness of C20 as amended: inserting key 1 into the table of capacity 4
that holds key 0. -/
theorem C20_fill_after_insert_witness :
    5 * (((((ChainHash.create 4 : ChainHash Nat Nat).set (fun n => n) 0 0).post.set (fun n => n) 1
        0).post.countNonEmpty : Nat) : Int) ≤
        4 * (((ChainHash.create 4 : ChainHash Nat Nat).set (fun n => n) 0 0).post.set (fun n => n)
          1 0).post.bucket_count ∧
      (((ChainHash.create 4 : ChainHash Nat Nat).set (fun n => n) 0 0).post.set (fun n => n) 1
        0).post.usedBuckets =
        (((((ChainHash.create 4 : ChainHash Nat Nat).set (fun n => n) 0 0).post.set (fun n => n) 1
          0).post.countNonEmpty : Nat) : Int) :=
  C20_fill_after_insert (fun n => n) _
    (Reachable.set _ 0 0 (Reachable.create 4 ⟨by decide, by decide⟩)) 1 0 rfl rfl rfl (by decide)

/-! ### A table of capacity 2^24 filled up to the threshold -/

theorem runSets_reachable [DecidableEq K] (hasher : K → Nat) (kvs : List (K × V))
    (t : ChainHash K V) (ht : Reachable hasher t) : Reachable hasher (t.runSets hasher kvs) := by
  induction kvs generalizing t with
  | nil => exact ht
  | cons kv kvs ih => exact ih _ (Reachable.set t kv.1 kv.2 ht)

theorem chain_empty_of_keys (hasher : K → Nat) (t : ChainHash K V) (hwf : WF hasher t) (i : Nat)
    (h : ∀ x ∈ t.entries, bucketIndex hasher t.capacity x.key ≠ i) :
    t.array.getD i [] = [] := by
  rw [List.eq_nil_iff_forall_not_mem]
  intro x hx
  have hp := hwf.consistent.placed i x hx
  rw [← hp] at hx
  exact h x ((hwf.mem_chain_iff x).mp hx) hp

theorem WF.bucket_sizes_getD {hasher : K → Nat} {t : ChainHash K V} (hwf : WF hasher t)
    (i : Nat) : t.bucket_sizes.getD i 0 = ((t.array.getD i []).length : Int) := by
  rw [hwf.consistent.sizes]
  exact getD_map_length t.array i

theorem denseTable_succ (n : Nat) :
    denseTable (n + 1) = ((denseTable n).set (fun k => k) n 0).post := by
  unfold denseTable denseKeys ChainHash.runSets
  rw [List.range_succ, List.map_append, List.foldl_append]
  rfl

theorem denseTable_reachable (n : Nat) : Reachable (fun k => k) (denseTable n) :=
  runSets_reachable _ _ _ (Reachable.create 16777216 ⟨by decide, by decide⟩)

theorem dense_index (n : Nat) (hn : n < 16777216) : bucketIndex (fun k => k) 16777216 n = n := by
  unfold bucketIndex getHashCode
  rw [toSizeT_of_pos 16777216 (by decide) (by decide)]
  have h : (16777216 : Int).toNat = 16777216 := rfl
  rw [h]
  show n % 18446744073709551616 % 16777216 = n
  omega

theorem dense_step (n : Nat) (hn : n < 13421773) (t : ChainHash Nat Nat)
    (hwf : WF (fun k => k) t) (hcap : t.capacity = 16777216) (hused : t.usedBuckets = (n : Int))
    (hkeys : ∀ x ∈ t.entries, x.key < n) :
    t.contains (fun k => k) n = false ∧
      t.set (fun k => k) n 0 =
        ⟨.ok (), t.insertFront (bucketIndex (fun k => k) t.capacity n) n 0⟩ ∧
      (t.insertFront (bucketIndex (fun k => k) t.capacity n) n 0).usedBuckets = (n : Int) + 1 ∧
      (t.insertFront (bucketIndex (fun k => k) t.capacity n) n 0).capacity = 16777216 ∧
      WF (fun k => k) (t.insertFront (bucketIndex (fun k => k) t.capacity n) n 0) ∧
      ∀ x ∈ (t.insertFront (bucketIndex (fun k => k) t.capacity n) n 0).entries, x.key < n + 1 := by
  have hnew : t.contains (fun k => k) n = false :=
    contains_false_of_keys _ t hwf n (fun x hx e => by have := hkeys x hx; omega)
  have hnot := not_mem_keys_of_contains_false hwf n hnew
  obtain ⟨hwf1, hperm⟩ := hwf.insertFront n 0 hnot
  have hidx : bucketIndex (fun k => k) t.capacity n = n := by
    rw [hcap]
    exact dense_index n (by omega)
  have hempty : t.array.getD (bucketIndex (fun k => k) t.capacity n) [] = [] := by
    apply chain_empty_of_keys _ t hwf
    intro x hx e
    have hx' := hkeys x hx
    rw [hidx, hcap, dense_index x.key (by omega)] at e
    omega
  have hbs : t.bucket_sizes.getD (bucketIndex (fun k => k) t.capacity n) 0 = 0 := by
    rw [hwf.bucket_sizes_getD, hempty]
    rfl
  have hu1 : (t.insertFront (bucketIndex (fun k => k) t.capacity n) n 0).usedBuckets
      = (n : Int) + 1 := by
    show (if t.bucket_sizes.getD _ 0 = 0 then t.usedBuckets + 1 else t.usedBuckets) = _
    rw [if_pos hbs, hused]
  have hc1 : (t.insertFront (bucketIndex (fun k => k) t.capacity n) n 0).capacity = 16777216 :=
    hcap
  have hb1 : (t.insertFront (bucketIndex (fun k => k) t.capacity n) n 0).bucket_sizes.getD
      (bucketIndex (fun k => k) t.capacity n) 0 = 1 := by
    show (t.bucket_sizes.set _ _).getD _ 0 = 1
    rw [getD_set_self, hbs]
    · rfl
    · rw [hwf.consistent.sizes, List.length_map]
      exact hwf.bucket_in_range n
  have hneed : (t.insertFront (bucketIndex (fun k => k) t.capacity n) n 0).needsRehash
      (bucketIndex (fun k => k) t.capacity n) = false := by
    rw [← Bool.not_eq_true, hwf1.needsRehash_iff_exact (by rw [hc1]; decide), hb1, hu1, hc1]
    omega
  refine ⟨hnew, set_insert_plain _ t n 0 hnew hneed, hu1, hc1, hwf1, fun x hx => ?_⟩
  rcases List.mem_cons.mp (hperm.mem_iff.mp hx) with rfl | hx'
  · exact Nat.lt_succ_self n
  · exact Nat.lt_succ_of_lt (hkeys x hx')

theorem dense_inv (n : Nat) (hn : n ≤ 13421773) :
    WF (fun k => k) (denseTable n) ∧ (denseTable n).capacity = 16777216 ∧
      (denseTable n).usedBuckets = (n : Int) ∧ ∀ x ∈ (denseTable n).entries, x.key < n := by
  induction n with
  | zero =>
    have h0 : denseTable 0 = ChainHash.create 16777216 := by
      unfold denseTable denseKeys ChainHash.runSets
      rw [List.range_zero]
      rfl
    rw [h0]
    refine ⟨WF.create _ 16777216 ⟨by decide, by decide⟩, rfl, rfl, fun x hx => ?_⟩
    rw [create_entries] at hx
    cases hx
  | succ n ih =>
    obtain ⟨h1, h2, h3, h4⟩ := ih (by omega)
    obtain ⟨_, s2, s3, s4, s5, s6⟩ := dense_step n (by omega) (denseTable n) h1 h2 h3 h4
    rw [denseTable_succ, s2]
    exact ⟨s5, s4, by rw [s3]; push_cast; rfl, s6⟩

/-! ### A table of capacity 2^30 with four keys in one bucket -/

theorem insertFront_bucket_size {hasher : K → Nat} {t : ChainHash K V} (hwf : WF hasher t)
    (k : K) (v : V) :
    (t.insertFront (bucketIndex hasher t.capacity k) k v).bucket_sizes.getD
        (bucketIndex hasher t.capacity k) 0 =
      ((t.array.getD (bucketIndex hasher t.capacity k) []).length : Int) + 1 := by
  show (t.bucket_sizes.set _ _).getD _ 0 = _
  rw [getD_set_self, hwf.bucket_sizes_getD]
  rw [hwf.consistent.sizes, List.length_map]
  exact hwf.bucket_in_range k

theorem crowded_bucket (hasher : K → Nat) (t : ChainHash K V) (hwf : WF hasher t) (i : Nat)
    (h : ∀ x ∈ t.entries, bucketIndex hasher t.capacity x.key = i) :
    t.nsize ≤ ((t.array.getD i []).length : Int) := by
  rw [hwf.nsize_eq]
  have hnd : t.entries.Nodup := List.Nodup.of_map _ hwf.nodup
  have hsub : t.entries ⊆ t.array.getD i [] := by
    intro x hx
    rw [← h x hx]
    exact (hwf.mem_chain_iff x).mpr hx
  exact_mod_cast (hnd.subperm hsub).length_le

theorem no_doubling_of_large [DecidableEq K] (hasher : K → Nat) (t : ChainHash K V)
    (hwf : WF hasher t) (hbig : 1073741824 ≤ t.capacity) (k : K) (v : V) :
    (t.set hasher k v).post.bucket_count ≠ 2 * t.bucket_count := by
  have h := (set_spec hasher t hwf k v).1.consistent.cap_lt
  unfold ChainHash.bucket_count
  omega

theorem crowded_facts :
    Reachable (fun _ => 0) crowdedTable ∧
      crowdedTable.contains (fun _ => 0) 3 = false ∧
      3 < (crowdedTable.insertFront (bucketIndex (fun _ => 0) crowdedTable.capacity 3) 3
        0).bucket_sizes.getD (bucketIndex (fun _ => 0) crowdedTable.capacity 3) 0 ∧
      (crowdedTable.set (fun _ => 0) 3 0).post.bucket_count ≠ 2 * crowdedTable.bucket_count := by
  unfold crowdedTable
  simp only [ChainHash.runSets, List.foldl_cons, List.foldl_nil]
  have w0 : WF (fun _ : Nat => 0) (ChainHash.create 1073741824 : ChainHash Nat Nat) :=
    WF.create _ 1073741824 ⟨by decide, by decide⟩
  have r0 : Reachable (fun _ : Nat => 0) (ChainHash.create 1073741824 : ChainHash Nat Nat) :=
    Reachable.create 1073741824 ⟨by decide, by decide⟩
  have m0 : ∀ x ∈ (ChainHash.create 1073741824 : ChainHash Nat Nat).entries, False := by
    intro x hx
    rw [create_entries] at hx
    cases hx
  have p0 : (ChainHash.create 1073741824 : ChainHash Nat Nat).capacity = 1073741824 := rfl
  have s0 : (ChainHash.create 1073741824 : ChainHash Nat Nat).nsize = 0 := rfl
  generalize (ChainHash.create 1073741824 : ChainHash Nat Nat) = t0 at *
  obtain ⟨w1, e1, n1⟩ := set_spec (fun _ => 0) t0 w0 0 0
  have p1 := applyOp_capacity (fun _ => 0) t0 w0 (.set 0 0)
  have r1 := Reachable.set t0 0 0 r0
  rw [contains_false_of_keys _ t0 w0 0 (fun x hx => (m0 x hx).elim)] at n1
  change t0.capacity ≤ (t0.set (fun _ => 0) 0 0).post.capacity at p1
  generalize (t0.set (fun _ => 0) 0 0).post = t1 at *
  have k1 : ∀ x ∈ t1.entries, x.key = 0 := by
    intro x hx
    rcases (e1 x).mp hx with rfl | ⟨_, h⟩
    · rfl
    · exact (m0 x h).elim
  obtain ⟨w2, e2, n2⟩ := set_spec (fun _ => 0) t1 w1 1 0
  have p2 := applyOp_capacity (fun _ => 0) t1 w1 (.set 1 0)
  have r2 := Reachable.set t1 1 0 r1
  rw [contains_false_of_keys _ t1 w1 1 (fun x hx e => by have := k1 x hx; omega)] at n2
  change t1.capacity ≤ (t1.set (fun _ => 0) 1 0).post.capacity at p2
  generalize (t1.set (fun _ => 0) 1 0).post = t2 at *
  have k2 : ∀ x ∈ t2.entries, x.key < 2 := by
    intro x hx
    rcases (e2 x).mp hx with rfl | ⟨_, h⟩
    · exact Nat.lt_succ_self 1
    · have := k1 x h
      omega
  obtain ⟨w3, e3, n3⟩ := set_spec (fun _ => 0) t2 w2 2 0
  have p3 := applyOp_capacity (fun _ => 0) t2 w2 (.set 2 0)
  have r3 := Reachable.set t2 2 0 r2
  rw [contains_false_of_keys _ t2 w2 2 (fun x hx e => by have := k2 x hx; omega)] at n3
  change t2.capacity ≤ (t2.set (fun _ => 0) 2 0).post.capacity at p3
  generalize (t2.set (fun _ => 0) 2 0).post = t3 at *
  have k3 : ∀ x ∈ t3.entries, x.key < 3 := by
    intro x hx
    rcases (e3 x).mp hx with rfl | ⟨_, h⟩
    · exact Nat.lt_succ_self 2
    · have := k2 x h
      omega
  have c3 : t3.contains (fun _ => 0) 3 = false :=
    contains_false_of_keys _ t3 w3 3 (fun x hx e => by have := k3 x hx; omega)
  have hsize : (3 : Int) ≤ t3.nsize := by
    simp only [if_false, Bool.false_eq_true] at n1 n2 n3
    omega
  have hlen := crowded_bucket (fun _ => 0) t3 w3 (bucketIndex (fun _ => 0) t3.capacity 3)
    (fun x _ => rfl)
  refine ⟨r3, c3, ?_, no_doubling_of_large _ t3 w3 (by omega) 3 0⟩
  rw [insertFront_bucket_size w3 3 0]
  omega

theorem dense_observed (n : Nat) (hn : n < 13421773) (h5 : 4 * 16777216 < 5 * ((n : Int) + 1)) :
    Reachable (fun k => k) (denseTable n) ∧
      (denseTable n).contains (fun k => k) n = false ∧
      4 * ((denseTable n).insertFront (bucketIndex (fun k => k) (denseTable n).capacity n) n
          0).capacity <
        5 * ((denseTable n).insertFront (bucketIndex (fun k => k) (denseTable n).capacity n) n
          0).usedBuckets ∧
      ((denseTable n).set (fun k => k) n 0).ret = .ok () ∧
      ((denseTable n).set (fun k => k) n 0).post.bucket_count = (denseTable n).bucket_count ∧
      (denseTable n).bucket_count = 16777216 ∧
      4 * ((denseTable n).set (fun k => k) n 0).post.bucket_count <
        5 * ((((denseTable n).set (fun k => k) n 0).post.countNonEmpty : Nat) : Int) := by
  obtain ⟨h1, h2, h3, h4⟩ := dense_inv n (by omega)
  obtain ⟨s1, s2, s3, s4, s5, _⟩ := dense_step n hn (denseTable n) h1 h2 h3 h4
  have hused := s5.consistent.used
  rw [s3] at hused
  refine ⟨denseTable_reachable n, s1, ?_, ?_, ?_, h2, ?_⟩
  · rw [s3, s4]
    exact h5
  · rw [s2]
  · rw [s2]
    rfl
  · rw [s2]
    show 4 * ((denseTable n).insertFront _ n 0).capacity <
      5 * ((((denseTable n).insertFront _ n 0).array.countP _ : Nat) : Int)
    rw [s4, ← hused]
    exact h5

/-- C14 fails as stated.  First, the table constructed with capacity 2^24 and
the identity hash, after the keys 0 to 13421771 were set: `set(13421772, 0)`
inserts a new key into an empty bucket, after the insertion
`5 * usedBuckets = 67108865 > 67108864 = 4 * capacity`, and the call returns
with `bucket_count()` unchanged (the code compares the `double` quotient with
the `float` constant `0.8f`, which the quotient 13421773 / 2^24 equals).
Second, the table constructed with capacity 2^30 and a constant hash, after
the keys 0, 1, 2 were set: `set(3, 0)` inserts a new key, the written bucket
holds more than 3 entries after the insertion, and `bucket_count()` on return
is not twice its previous value (the doubled value overflows). -/
theorem C14_trigger_point_counterexample :
    (Reachable (fun k => k) (denseTable 13421772) ∧
      (denseTable 13421772).contains (fun k => k) 13421772 = false ∧
      4 * ((denseTable 13421772).insertFront
          (bucketIndex (fun k => k) (denseTable 13421772).capacity 13421772) 13421772
            0).capacity <
        5 * ((denseTable 13421772).insertFront
          (bucketIndex (fun k => k) (denseTable 13421772).capacity 13421772) 13421772
            0).usedBuckets ∧
      ((denseTable 13421772).set (fun k => k) 13421772 0).ret = .ok () ∧
      ((denseTable 13421772).set (fun k => k) 13421772 0).post.bucket_count =
        (denseTable 13421772).bucket_count ∧
      (denseTable 13421772).bucket_count = 16777216) ∧
    (Reachable (fun _ => 0) crowdedTable ∧
      crowdedTable.contains (fun _ => 0) 3 = false ∧
      3 < (crowdedTable.insertFront (bucketIndex (fun _ => 0) crowdedTable.capacity 3) 3
        0).bucket_sizes.getD (bucketIndex (fun _ => 0) crowdedTable.capacity 3) 0 ∧
      (crowdedTable.set (fun _ => 0) 3 0).post.bucket_count ≠ 2 * crowdedTable.bucket_count) :=
  ⟨⟨(dense_observed 13421772 (by omega) (by omega)).1,
      (dense_observed 13421772 (by omega) (by omega)).2.1,
      (dense_observed 13421772 (by omega) (by omega)).2.2.1,
      (dense_observed 13421772 (by omega) (by omega)).2.2.2.1,
      (dense_observed 13421772 (by omega) (by omega)).2.2.2.2.1,
      (dense_observed 13421772 (by omega) (by omega)).2.2.2.2.2.1⟩,
    crowded_facts⟩

/-- C20 fails as stated.  First, with the identity hash and initial capacity
3, after the keys 0, 3, 6, 1, 4, 7 the call `set(2, 0)` uses the third bucket,
rehashes to capacity 6 and returns with 5 non-empty buckets:
`5 * 5 > 4 * 6`.  Second, in the table constructed with capacity 2^24 after
the keys 0 to 13421771, `set(13421772, 0)` returns without rehashing with
13421773 non-empty buckets: `5 * 13421773 > 4 * 2^24`. -/
theorem C20_fill_factor_counterexample :
    (Reachable (fun n => n) ((ChainHash.create 3 : ChainHash Nat Nat).runSets (fun n => n)
        [(0, 0), (3, 0), (6, 0), (1, 0), (4, 0), (7, 0)]) ∧
      (((ChainHash.create 3 : ChainHash Nat Nat).runSets (fun n => n)
        [(0, 0), (3, 0), (6, 0), (1, 0), (4, 0), (7, 0)]).set (fun n => n) 2 0).ret = .ok () ∧
      (((ChainHash.create 3 : ChainHash Nat Nat).runSets (fun n => n)
        [(0, 0), (3, 0), (6, 0), (1, 0), (4, 0), (7, 0)]).set (fun n => n) 2
          0).post.bucket_count = 6 ∧
      (((ChainHash.create 3 : ChainHash Nat Nat).runSets (fun n => n)
        [(0, 0), (3, 0), (6, 0), (1, 0), (4, 0), (7, 0)]).set (fun n => n) 2
          0).post.countNonEmpty = 5 ∧
      (((ChainHash.create 3 : ChainHash Nat Nat).runSets (fun n => n)
        [(0, 0), (3, 0), (6, 0), (1, 0), (4, 0), (7, 0)]).set (fun n => n) 2
          0).post.usedBuckets = 5 ∧
      ¬ ((5 : Int) * 5 ≤ 4 * 6)) ∧
    (Reachable (fun k => k) (denseTable 13421772) ∧
      ((denseTable 13421772).set (fun k => k) 13421772 0).ret = .ok () ∧
      ((denseTable 13421772).set (fun k => k) 13421772 0).post.bucket_count =
        (denseTable 13421772).bucket_count ∧
      4 * ((denseTable 13421772).set (fun k => k) 13421772 0).post.bucket_count <
        5 * ((((denseTable 13421772).set (fun k => k) 13421772 0).post.countNonEmpty : Nat)
          : Int)) :=
  ⟨⟨Reachable.set _ 7 0 (Reachable.set _ 4 0 (Reachable.set _ 1 0 (Reachable.set _ 6 0
        (Reachable.set _ 3 0 (Reachable.set _ 0 0
          (Reachable.create 3 ⟨by decide, by decide⟩)))))),
      rfl, by decide, by decide, by decide, by decide⟩,
    ⟨(dense_observed 13421772 (by omega) (by omega)).1,
      (dense_observed 13421772 (by omega) (by omega)).2.2.2.1,
      (dense_observed 13421772 (by omega) (by omega)).2.2.2.2.1,
      (dense_observed 13421772 (by omega) (by omega)).2.2.2.2.2.2⟩⟩

/-! ### The call that reaches `capacity * 2` at capacity 2^30 -/

theorem countP_le_flatten_length {α : Type} (l : List (List α)) :
    l.countP (fun chain => !chain.isEmpty) ≤ l.flatten.length := by
  induction l with
  | nil => exact Nat.le_refl _
  | cons c l ih =>
    rw [List.flatten_cons, List.length_append]
    cases c with
    | nil =>
      rw [List.countP_cons_of_neg _ _ (by simp)]
      omega
    | cons a c =>
      rw [List.countP_cons_of_pos _ _ (by simp), List.length_cons]
      omega

theorem small_fill_at_large_capacity (u : Nat) (hu : u < 4) :
    dyadicGt (doubleDiv u 1073741824) maxFillFactor = false := by
  interval_cases u <;> decide

theorem set_in_large_table [DecidableEq K] (hasher : K → Nat) (t : ChainHash K V)
    (hwf : WF hasher t) (hcap : t.capacity = 1073741824) (hsize : t.nsize ≤ 2) (k : K) (v : V)
    (hnew : t.contains hasher k = false) :
    t.set hasher k v = ⟨.ok (), t.insertFront (bucketIndex hasher t.capacity k) k v⟩ := by
  apply set_insert_plain hasher t k v hnew
  have hnot := not_mem_keys_of_contains_false hwf k hnew
  obtain ⟨hwf', _⟩ := hwf.insertFront k v hnot
  unfold ChainHash.needsRehash
  rw [Bool.or_eq_false_iff]
  constructor
  · rw [decide_eq_false_iff_not, insertFront_bucket_size hwf k v]
    have hlen : ((t.array.getD (bucketIndex hasher t.capacity k) []).length : Int) ≤ t.nsize := by
      rw [hwf.nsize_eq]
      rcases getD_mem_or_default t.array (bucketIndex hasher t.capacity k) [] with h | ⟨_, h⟩
      · exact_mod_cast (List.sublist_flatten_of_mem h).length_le
      · rw [h]
        exact_mod_cast Nat.zero_le _
    unfold maxColision
    omega
  · have hused := hwf'.consistent.used
    have hle := countP_le_flatten_length
      (t.insertFront (bucketIndex hasher t.capacity k) k v).array
    have hn := hwf'.nsize_eq
    rw [insertFront_nsize] at hn
    unfold ChainHash.entries at hn
    have hc : (t.insertFront (bucketIndex hasher t.capacity k) k v).capacity.toNat
        = 1073741824 := by
      rw [insertFront_capacity, hcap]
      rfl
    unfold ChainHash.fillFactor
    rw [hc]
    apply small_fill_at_large_capacity
    omega

/-- The call that overflows.  The table constructed with 2^30 buckets and the
identity hash, after the keys 0, 2^30 and 2^31 were set, is reached without
overflow of an `int` and still has 2^30 buckets and 3 entries.
`set(3 * 2^30, 0)` inserts a key that is not present into bucket 0, which
then holds more than `maxColision` entries, so `set` calls `rehashing()`, and
there `capacity * 2` is 2^31, above `INT_MAX`: a signed overflow, after which
the source fixes no behaviour. -/
theorem colliding_facts :
    ReachableInRange (fun k => k) collidingTable ∧
      collidingTable.bucket_count = 1073741824 ∧
      collidingTable.size = 3 ∧
      collidingTable.contains (fun k => k) 3221225472 = false ∧
      (collidingTable.insertFront (bucketIndex (fun k => k) collidingTable.capacity 3221225472)
          3221225472 0).needsRehash
        (bucketIndex (fun k => k) collidingTable.capacity 3221225472) = true ∧
      2147483647 <
        (collidingTable.insertFront (bucketIndex (fun k => k) collidingTable.capacity 3221225472)
          3221225472 0).capacity * 2 := by
  unfold collidingTable
  simp only [ChainHash.runSets, List.foldl_cons, List.foldl_nil]
  have w0 : WF (fun k : Nat => k) (ChainHash.create 1073741824 : ChainHash Nat Nat) :=
    WF.create _ 1073741824 ⟨by decide, by decide⟩
  have r0 : ReachableInRange (fun k : Nat => k)
      (ChainHash.create 1073741824 : ChainHash Nat Nat) :=
    ReachableInRange.create 1073741824 ⟨by decide, by decide⟩ (by decide)
  have m0 : ∀ x ∈ (ChainHash.create 1073741824 : ChainHash Nat Nat).entries, False := by
    intro x hx
    rw [create_entries] at hx
    cases hx
  have p0 : (ChainHash.create 1073741824 : ChainHash Nat Nat).capacity = 1073741824 := rfl
  have s0 : (ChainHash.create 1073741824 : ChainHash Nat Nat).nsize = 0 := rfl
  generalize (ChainHash.create 1073741824 : ChainHash Nat Nat) = t0 at *
  -- first key
  have c0 : t0.contains (fun k => k) 0 = false :=
    contains_false_of_keys _ t0 w0 0 (fun x hx => (m0 x hx).elim)
  obtain ⟨w1, e1, n1⟩ := set_spec (fun k => k) t0 w0 0 0
  have p1 : (t0.set (fun k => k) 0 0).post.capacity = 1073741824 := by
    rw [set_in_large_table (fun k => k) t0 w0 p0 (by omega) 0 0 c0]
    exact p0
  rw [c0] at n1
  have s1 : (t0.set (fun k => k) 0 0).post.nsize = 1 := by
    rw [n1, s0]
    rfl
  have r1 := ReachableInRange.set t0 0 0 r0 (by omega) (by omega)
  generalize (t0.set (fun k => k) 0 0).post = t1 at *
  have k1 : ∀ x ∈ t1.entries, x.key = 0 := by
    intro x hx
    rcases (e1 x).mp hx with rfl | ⟨_, h⟩
    · rfl
    · exact (m0 x h).elim
  -- second key
  have c1 : t1.contains (fun k => k) 1073741824 = false :=
    contains_false_of_keys _ t1 w1 _ (fun x hx e => by have := k1 x hx; omega)
  obtain ⟨w2, e2, n2⟩ := set_spec (fun k => k) t1 w1 1073741824 0
  have p2 : (t1.set (fun k => k) 1073741824 0).post.capacity = 1073741824 := by
    rw [set_in_large_table (fun k => k) t1 w1 p1 (by omega) 1073741824 0 c1]
    exact p1
  rw [c1] at n2
  have s2 : (t1.set (fun k => k) 1073741824 0).post.nsize = 2 := by
    rw [n2, s1]
    rfl
  have r2 := ReachableInRange.set t1 1073741824 0 r1 (by omega) (by omega)
  generalize (t1.set (fun k => k) 1073741824 0).post = t2 at *
  have k2 : ∀ x ∈ t2.entries, x.key = 0 ∨ x.key = 1073741824 := by
    intro x hx
    rcases (e2 x).mp hx with rfl | ⟨_, h⟩
    · exact Or.inr rfl
    · exact Or.inl (k1 x h)
  -- third key
  have c2 : t2.contains (fun k => k) 2147483648 = false :=
    contains_false_of_keys _ t2 w2 _ (fun x hx e => by have := k2 x hx; omega)
  obtain ⟨w3, e3, n3⟩ := set_spec (fun k => k) t2 w2 2147483648 0
  have p3 : (t2.set (fun k => k) 2147483648 0).post.capacity = 1073741824 := by
    rw [set_in_large_table (fun k => k) t2 w2 p2 (by omega) 2147483648 0 c2]
    exact p2
  rw [c2] at n3
  have s3 : (t2.set (fun k => k) 2147483648 0).post.nsize = 3 := by
    rw [n3, s2]
    rfl
  have r3 := ReachableInRange.set t2 2147483648 0 r2 (by omega) (by omega)
  generalize (t2.set (fun k => k) 2147483648 0).post = t3 at *
  have k3 : ∀ x ∈ t3.entries, x.key = 0 ∨ x.key = 1073741824 ∨ x.key = 2147483648 := by
    intro x hx
    rcases (e3 x).mp hx with rfl | ⟨_, h⟩
    · exact Or.inr (Or.inr rfl)
    · rcases k2 x h with h | h
      · exact Or.inl h
      · exact Or.inr (Or.inl h)
  -- the fourth key
  have c3 : t3.contains (fun k => k) 3221225472 = false :=
    contains_false_of_keys _ t3 w3 _ (fun x hx e => by have := k3 x hx; omega)
  have hsame : ∀ x ∈ t3.entries, bucketIndex (fun k => k) t3.capacity x.key =
      bucketIndex (fun k => k) t3.capacity 3221225472 := by
    intro x hx
    rw [p3]
    rcases k3 x hx with h | h | h <;> rw [h] <;> rfl
  have hlen := crowded_bucket (fun k => k) t3 w3 _ hsame
  refine ⟨r3, p3, s3, c3, ?_, ?_⟩
  · unfold ChainHash.needsRehash
    rw [Bool.or_eq_true]
    left
    rw [decide_eq_true_iff, insertFront_bucket_size w3 3221225472 0]
    unfold maxColision
    omega
  · rw [insertFront_capacity, p3]
    decide

end ChainHashModel
